import Mathlib

/-!
# UNBbee: a shallow embedding of the AT-command protocol engine

Source: `src/UNBbee.cpp`, `src/UNBbee.h` (class `UNBbeeClass`).

## The model

* A byte is a `Fin 256`.  `Stream::read()` and `Stream::peek()` return an `int`
  that is `-1` when no byte is available and the byte value otherwise; they are
  modelled with `Int` results.
* The Arduino environment (clock, serial stream, watchdog) and the fields of the
  single `UNBbeeClass` instance live together in one record, `State`.
* Time is `State.now`, in milliseconds, as an unbounded natural number;
  `millis()` returns it modulo `2^32`.  Time passes at two places only: in
  `delay(n)` (by `n`) and right after every clock reading (by the next entry of
  the schedule `State.ticks`, by nothing once the schedule is used up).  The
  schedule is arbitrary, so every pace of the polling loops against the arrival
  of bytes is covered.
* The incoming side of the stream is the list `State.rx` of bytes not yet
  consumed, each with the time at which it arrives.  The head byte can be read
  or peeked once its arrival time is not after `now`.  The receive queue is
  unbounded (the 64-byte ring buffer of the hardware serial port is not
  modelled).
* Bytes printed to the stream are appended to `State.tx`.
* The calls of `wdt_reset`, `delay`, `read`, `peek` and `print` are recorded, in
  order, in `State.log`.
* The diagnostic mirror (`diagPrint`, `diagPrintLn`) writes to a second stream
  and has no influence on the rest; it is left out.
* Loops that poll the clock (`readLine`, `waitForOK`, `getStrValue`) take a `fuel`
  argument, one unit per round, and return `Except.error Err.fuel` when it is used up;
  this says nothing about the program.  The loops of `mydelay` and `flushInput` end on
  their own; they are unrolled as often as they can run (`mydelayLoop_enough`,
  `flushInputLoop_enough`).
* A write outside an array is `Except.error Err.oob`.
* Integer widths are those of the AVR target: `long` and `uint32_t` have 32
  bits, `size_t` and `uint16_t` have 16 bits.
-/

namespace UNBbee

set_option maxRecDepth 100000

/-- One byte of the serial stream or of a `char` array. -/
abbrev Byte := Fin 256

/-- The calls into the environment that are recorded in the log. -/
inductive Ev where
  | wdt_reset : Ev
  | delay (ms : Nat) : Ev
  | read (c : Int) : Ev
  | peek (c : Int) : Ev
  | print (b : Byte) : Ev
  deriving DecidableEq, Repr

/-- Ways in which a run of the model stops without a result of the program. -/
inductive Err where
  | fuel : Err
  | oob : Err
  deriving DecidableEq, Repr

/-- `#define UNBBEE_BUFLEN 64` (UNBbee.h:53). -/
def UNBBEE_BUFLEN : Nat := 64

/-- The environment together with the fields of the `UNBbeeClass` instance. -/
structure State where
  /-- milliseconds since start, not wrapped -/
  now : Nat
  /-- time that passes after each of the coming clock readings -/
  ticks : List Nat
  /-- incoming bytes not yet consumed, with their arrival times -/
  rx : List (Nat × Byte)
  /-- bytes printed to the stream so far, oldest first -/
  tx : List Byte
  /-- environment calls so far, oldest first -/
  log : List Ev
  /-- `char _UNBBEE_buffer[UNBBEE_BUFLEN + 1]` -/
  buffer : List Byte
  /-- `int _UNBBEE_bufcnt` -/
  bufcnt : Nat
  /-- `bool _echoOff` -/
  echoOff : Bool
  deriving DecidableEq, Repr

/-! ## Environment -/

/-- `millis()`: the 32-bit clock value; afterwards the next tick passes. -/
def millis (w : State) : Nat × State :=
  (w.now % 2 ^ 32, { w with now := w.now + w.ticks.headD 0, ticks := w.ticks.tail })

/-- `delay(ms)`. -/
def delay (ms : Nat) (w : State) : State :=
  { w with now := w.now + ms, log := w.log ++ [Ev.delay ms] }

/-- `wdt_reset()`. -/
def wdt_reset (w : State) : State :=
  { w with log := w.log ++ [Ev.wdt_reset] }

/-- `_myStream->peek()`: the next byte if it has arrived, `-1` otherwise; nothing is consumed. -/
def streamPeek (w : State) : Int × State :=
  match w.rx with
  | [] => (-1, { w with log := w.log ++ [Ev.peek (-1)] })
  | (a, b) :: _ =>
    if a ≤ w.now then ((b.val : Int), { w with log := w.log ++ [Ev.peek (b.val : Int)] })
    else (-1, { w with log := w.log ++ [Ev.peek (-1)] })

/-- `_myStream->read()`: consumes the next byte if it has arrived, `-1` otherwise. -/
def streamRead (w : State) : Int × State :=
  match w.rx with
  | [] => (-1, { w with log := w.log ++ [Ev.read (-1)] })
  | (a, b) :: rest =>
    if a ≤ w.now then
      ((b.val : Int), { w with rx := rest, log := w.log ++ [Ev.read (b.val : Int)] })
    else (-1, { w with log := w.log ++ [Ev.read (-1)] })

/-- `_myStream->print(c)` for one character. -/
def streamPrint (b : Byte) (w : State) : State :=
  { w with tx := w.tx ++ [b], log := w.log ++ [Ev.print b] }

/-- Printing a sequence of bytes, one after the other. -/
def streamPrintAll : List Byte → State → State
  | [], w => w
  | b :: bs, w => streamPrintAll bs (streamPrint b w)

/-! ## C strings and integers -/

/-- The C string stored at the start of a `char` array: the bytes before the first NUL. -/
def cstr : List Byte → List Byte
  | [] => []
  | b :: bs => if b = 0 then [] else b :: cstr bs

/-- `strcmp` on the C strings held by two arrays: zero when they are equal, otherwise
the difference of the first pair of bytes that differ (the end of a string counts as 0). -/
def strcmpBytes : List Byte → List Byte → Int
  | [], [] => 0
  | [], y :: _ => 0 - (y.val : Int)
  | x :: _, [] => (x.val : Int)
  | x :: xs, y :: ys => if x = y then strcmpBytes xs ys else (x.val : Int) - (y.val : Int)

/-- `strcmp_P(a, b)`. -/
def strcmp_P (a b : List Byte) : Int := strcmpBytes (cstr a) (cstr b)

/-- The conversion of an `int` holding a byte value to `char`. -/
def toChar (c : Int) : Byte := ⟨c.toNat % 256, Nat.mod_lt _ (by decide)⟩

/-- Unsigned 32-bit subtraction. -/
def sub32 (a b : Nat) : Nat := (a % 2 ^ 32 + (2 ^ 32 - b % 2 ^ 32)) % 2 ^ 32

/-- The cast `(long)` of an unsigned 32-bit value (two's complement). -/
def toLong (x : Nat) : Int := if x % 2 ^ 32 < 2 ^ 31 then ((x % 2 ^ 32 : Nat) : Int)
  else ((x % 2 ^ 32 : Nat) : Int) - 2 ^ 32

/-- `strncpy(dst, src, n)`: copies the C string of `src`, at most `n` bytes, and fills up
to `n` bytes with NUL; fails when `n` bytes do not fit in `dst`. -/
def strncpy (dst src : List Byte) (n : Nat) : Except Err (List Byte) :=
  if n ≤ dst.length then
    .ok (((cstr src).take n ++ List.replicate (n - ((cstr src).take n).length) 0) ++ dst.drop n)
  else .error Err.oob

/-- The assignment `a[i] = v` to an array of `a.length` elements. -/
def arraySet (a : List Byte) (i : Nat) (v : Byte) : Except Err (List Byte) :=
  if i < a.length then .ok (a.set i v) else .error Err.oob

/-! ## UNBbee.cpp -/

/-- `mydelay` (UNBbee.cpp:28-37), the loop unrolled at most `fuel` times; the loop body
runs at most `nrMillis / 10` times, so `mydelay` below passes that many. -/
def mydelayLoop : Nat → Nat → State → State
  | 0, nrMillis, w => delay nrMillis w
  | fuel + 1, nrMillis, w =>
    if nrMillis > 10 then mydelayLoop fuel (nrMillis - 10) (delay 10 (wdt_reset w))
    else delay nrMillis w

/-- `mydelay(nrMillis)` (UNBbee.cpp:28-37). -/
def mydelay (nrMillis : Nat) (w : State) : State := mydelayLoop (nrMillis / 10) nrMillis w

/-- `isTimedOut(ts)` (UNBbee.cpp:44-47): `(long)(millis() - ts) >= 0`. -/
def isTimedOut (ts : Nat) (w : State) : Bool × State :=
  (decide (toLong (sub32 (millis w).1 ts) ≥ 0), (millis w).2)

/-- `UNBbeeClass::init` (UNBbee.cpp:54-59); the stream is the one of the state. -/
def init (w : State) : State := { w with echoOff := false }

/-- `UNBbeeClass::flushInput` (UNBbee.cpp:72-78), the loop unrolled at most `fuel` times;
each round consumes a byte, so `flushInput` below passes the number of queued bytes. -/
def flushInputLoop : Nat → State → State
  | 0, w => (streamRead w).2
  | fuel + 1, w =>
    if (streamRead w).1 ≥ 0 then flushInputLoop fuel (streamRead w).2 else (streamRead w).2

/-- `UNBbeeClass::flushInput` (UNBbee.cpp:72-78). -/
def flushInput (w : State) : State := flushInputLoop w.rx.length w

/-- The label `ok:` of `readLine` (UNBbee.cpp:125-128): terminate with NUL, return the count. -/
def readLineOk (w : State) : Except Err (Int × State) :=
  match arraySet w.buffer w.bufcnt 0 with
  | .ok buf => .ok ((w.bufcnt : Int), { w with buffer := buf })
  | .error e => .error e

/-- The test of UNBbee.cpp:94-96 once a CR has been seen:
`c = peek(); (c == -1 && isTimedOut(ts_waitLF)) || (c != -1 && c != '\n')`. -/
def lineEnded (ts_waitLF : Nat) (w : State) : Bool × State :=
  if (streamPeek w).1 = -1 then isTimedOut ts_waitLF (streamPeek w).2
  else (decide ((streamPeek w).1 ≠ 10), (streamPeek w).2)

/-- The store of UNBbee.cpp:116-118:
`if (_UNBBEE_bufcnt < UNBBEE_BUFLEN) _UNBBEE_buffer[_UNBBEE_bufcnt++] = c;`. -/
def storeChar (c : Int) (w : State) : Except Err State :=
  if w.bufcnt < UNBBEE_BUFLEN then
    match arraySet w.buffer w.bufcnt (toChar c) with
    | .ok buf => .ok { w with buffer := buf, bufcnt := w.bufcnt + 1 }
    | .error e => .error e
  else .ok w

/-- The `while` loop of `readLine` (UNBbee.cpp:91-120) with its locals `ts_waitLF` and
`seenCR`; one unit of fuel per round. -/
def readLineLoop (ts_max : Nat) : Nat → Nat → Bool → State → Except Err (Int × State)
  | 0, _, _, _ => .error Err.fuel
  | fuel + 1, ts_waitLF, seenCR, w =>
    if (isTimedOut ts_max w).1 then .ok (-1, (isTimedOut ts_max w).2)
    else
      let w2 := wdt_reset (isTimedOut ts_max w).2
      let pk : Bool × State := if seenCR then lineEnded ts_waitLF w2 else (false, w2)
      if pk.1 then readLineOk pk.2
      else
        let c := (streamRead pk.2).1
        let w4 := (streamRead pk.2).2
        if c < 0 then readLineLoop ts_max fuel ts_waitLF seenCR w4
        else if c = 13 then
          readLineLoop ts_max fuel (((millis w4).1 + 50) % 2 ^ 32) true (millis w4).2
        else if c = 10 then readLineOk w4
        else
          match storeChar c w4 with
          | .ok w5 => readLineLoop ts_max fuel ts_waitLF false w5
          | .error e => .error e

/-- `UNBbeeClass::readLine` (UNBbee.cpp:83-130). -/
def readLine (fuel : Nat) (ts_max : Nat) (w : State) : Except Err (Int × State) :=
  readLineLoop ts_max fuel 0 false { w with bufcnt := 0 }

/-- The bytes of the literal `"OK"`. -/
def strOK : List Byte := [79, 75]

/-- The bytes of the literal `"ERROR"`. -/
def strERROR : List Byte := [69, 82, 82, 79, 82]

/-- The `while` loop of `waitForOK` (UNBbee.cpp:139-152); one unit of fuel per line,
`lineFuel` for each `readLine`. -/
def waitForOKLoop (lineFuel : Nat) (ts_max : Nat) : Nat → State → Except Err (Bool × State)
  | 0, _ => .error Err.fuel
  | fuel + 1, w =>
    match readLine lineFuel ts_max w with
    | .error e => .error e
    | .ok (len, w1) =>
      if len ≥ 0 then
        if len = 0 then waitForOKLoop lineFuel ts_max fuel w1
        else if strcmp_P w1.buffer strOK = 0 then .ok (true, w1)
        else if strcmp_P w1.buffer strERROR = 0 then .ok (false, w1)
        else waitForOKLoop lineFuel ts_max fuel w1
      else .ok (false, w1)

/-- `uint32_t ts_max = millis() + timeout;` (UNBbee.cpp:138); `timeout` is a `uint16_t`. -/
def deadline (timeout : Nat) (w : State) : Nat := ((millis w).1 + timeout % 2 ^ 16) % 2 ^ 32

/-- `UNBbeeClass::waitForOK` (UNBbee.cpp:135-153). -/
def waitForOK (fuel : Nat) (timeout : Nat) (w : State) : Except Err (Bool × State) :=
  waitForOKLoop fuel (deadline timeout w) fuel (millis w).2

/-- `UNBbeeClass::sendCommandProlog` (UNBbee.cpp:158-163). -/
def sendCommandProlog (w : State) : State := mydelay 50 (flushInput w)

/-- The decimal digits of a natural number, as ASCII bytes. -/
def decimalBytes (n : Nat) : List Byte :=
  (Nat.toDigits 10 n).map (fun ch => toChar (ch.toNat : Int))

/-- What `Print::print(int)` writes: a minus sign for a negative number, then the
decimal digits. -/
def intBytes (i : Int) : List Byte :=
  if i < 0 then (45 : Byte) :: decimalBytes i.natAbs else decimalBytes i.natAbs

/-- The argument of one of the four `sendCommandAdd` overloads (UNBbee.cpp:168-187). -/
inductive Fragment where
  | chr (c : Byte) : Fragment
  | int (i : Int) : Fragment
  | str (cmd : List Byte) : Fragment
  | str_P (cmd : List Byte) : Fragment
  deriving DecidableEq, Repr

/-- The bytes that `_myStream->print` writes for a fragment; a string is written up to
its NUL. -/
def Fragment.bytes : Fragment → List Byte
  | .chr c => [c]
  | .int i => intBytes i
  | .str cmd => cstr cmd
  | .str_P cmd => cstr cmd

/-- `UNBbeeClass::sendCommandAdd` and `sendCommandAdd_P` (UNBbee.cpp:168-187). -/
def sendCommandAdd (f : Fragment) (w : State) : State := streamPrintAll f.bytes w

/-- A sequence of `sendCommandAdd` calls. -/
def sendCommandAddAll : List Fragment → State → State
  | [], w => w
  | f :: fs, w => sendCommandAddAll fs (sendCommandAdd f w)

/-- `UNBbeeClass::sendCommandEpilog` (UNBbee.cpp:192-196). -/
def sendCommandEpilog (w : State) : State := streamPrint 13 w

/-- `UNBbeeClass::sendCommand` (UNBbee.cpp:198-203). -/
def sendCommand (cmd : List Byte) (w : State) : State :=
  sendCommandEpilog (sendCommandAdd (Fragment.str cmd) (sendCommandProlog w))

/-- `UNBbeeClass::sendCommand_P` (UNBbee.cpp:204-209). -/
def sendCommand_P (cmd : List Byte) (w : State) : State :=
  sendCommandEpilog (sendCommandAdd (Fragment.str_P cmd) (sendCommandProlog w))

/-- `UNBbeeClass::sendCommandWaitForOK` (UNBbee.cpp:218-222). -/
def sendCommandWaitForOK (fuel : Nat) (cmd : List Byte) (timeout : Nat) (w : State) :
    Except Err (Bool × State) :=
  waitForOK fuel timeout (sendCommand cmd w)

/-- `UNBbeeClass::sendCommandWaitForOK_P` (UNBbee.cpp:223-227). -/
def sendCommandWaitForOK_P (fuel : Nat) (cmd : List Byte) (timeout : Nat) (w : State) :
    Except Err (Bool × State) :=
  waitForOK fuel timeout (sendCommand_P cmd w)

/-- The bytes of the literal `"ATE0"`. -/
def strATE0 : List Byte := [65, 84, 69, 48]

/-- `UNBbeeClass::switchEchoOff` (UNBbee.cpp:61-70); the timeout is the default 4000. -/
def switchEchoOff (fuel : Nat) (w : State) : Except Err State :=
  if !w.echoOff then
    match sendCommandWaitForOK_P fuel strATE0 4000 w with
    | .error e => .error e
    | .ok (r, w1) => if !r then .ok w1 else .ok { w1 with echoOff := true }
  else .ok w

/-- The value `size - 1` of type `size_t` (16 bits). -/
def sizeMinusOne (size : Nat) : Nat := (size % 2 ^ 16 + (2 ^ 16 - 1)) % 2 ^ 16

/-- The copy of UNBbee.cpp:256-257:
`strncpy(reply, _UNBBEE_buffer, size - 1); reply[size - 1] = '\0';`. -/
def copyReply (reply buf : List Byte) (size : Nat) : Except Err (List Byte) :=
  match strncpy reply buf (sizeMinusOne size) with
  | .error e => .error e
  | .ok r1 => arraySet r1 (sizeMinusOne size) 0

/-- The `while` loop of `getStrValue` (UNBbee.cpp:251-259): the result is the last `len`
and the reply buffer. -/
def getStrValueLoop (lineFuel : Nat) (size : Nat) (ts_max : Nat) :
    Nat → List Byte → State → Except Err (Int × List Byte × State)
  | 0, _, _ => .error Err.fuel
  | fuel + 1, reply, w =>
    match readLine lineFuel ts_max w with
    | .error e => .error e
    | .ok (len, w1) =>
      if len ≥ 0 then
        if len = 0 then getStrValueLoop lineFuel size ts_max fuel reply w1
        else
          match copyReply reply w1.buffer size with
          | .error e => .error e
          | .ok r2 => .ok (len, r2, w1)
      else .ok (len, reply, w1)

/-- `UNBbeeClass::getStrValue` (UNBbee.cpp:246-266): the result and the reply buffer. -/
def getStrValue (fuel : Nat) (cmd : List Byte) (reply : List Byte) (size : Nat) (ts_max : Nat)
    (w : State) : Except Err (Bool × List Byte × State) :=
  match getStrValueLoop fuel size ts_max fuel reply (sendCommand cmd w) with
  | .error e => .error e
  | .ok (len, r, w1) =>
    if len < 0 then .ok (false, r, w1)
    else
      match waitForOK fuel 4000 w1 with
      | .error e => .error e
      | .ok (b, w2) => .ok (b, r, w2)

/-- The bytes of the literal `"AT$SS="`. -/
def strATSS : List Byte := [65, 84, 36, 83, 83, 61]

/-- `UNBbeeClass::sendMessage` (UNBbee.cpp:271-279). -/
def sendMessage (fuel : Nat) (msg : List Byte) (w : State) : Except Err (Bool × State) :=
  match switchEchoOff fuel w with
  | .error e => .error e
  | .ok w1 =>
    waitForOK fuel 20000
      (sendCommandEpilog (sendCommandAdd (Fragment.str msg)
        (sendCommandAdd (Fragment.str_P strATSS) (sendCommandProlog w1))))

/-- The bytes of the literal `"ATI7"`. -/
def strATI7 : List Byte := [65, 84, 73, 55]

/-- `UNBbeeClass::getDeviceID` (UNBbee.cpp:287-292). -/
def getDeviceID (fuel : Nat) (buffer : List Byte) (buflen : Nat) (w : State) :
    Except Err (Bool × List Byte × State) :=
  match switchEchoOff fuel w with
  | .error e => .error e
  | .ok w1 => getStrValue fuel strATI7 buffer buflen (((millis w1).1 + 2000) % 2 ^ 32) (millis w1).2

/-! ## Notions used in the statements and proofs -/

/-- The value of `isTimedOut(ts)` when the clock stands at `t`. -/
def expired (ts t : Nat) : Bool := decide (toLong (sub32 (t % 2 ^ 32) ts) ≥ 0)

/-- The time at the `k`-th coming clock reading. -/
def clockAt (w : State) (k : Nat) : Nat := w.now + (w.ticks.take k).sum

/-- No byte can be read: the queue is empty or its head has not arrived. -/
def starved (w : State) : Prop := ∀ p ∈ w.rx.head?, w.now < p.1

/-- The state after one round of the loop that consumed the content byte `b`. -/
def afterByte (b : Byte) (w : State) : State :=
  { w with
    now := w.now + w.ticks.headD 0, ticks := w.ticks.tail, rx := w.rx.tail,
    log := w.log ++ [Ev.wdt_reset, Ev.read (b.val : Int)],
    buffer := if w.bufcnt < UNBBEE_BUFLEN then w.buffer.set w.bufcnt b else w.buffer,
    bufcnt := if w.bufcnt < UNBBEE_BUFLEN then w.bufcnt + 1 else w.bufcnt }

/-- The state in which a round of the loop reads the stream: the clock was read and the
watchdog reset. -/
def roundStart (w : State) : State := wdt_reset (millis w).2

/-- The state after the rounds of the loop that consumed the content bytes `s`. -/
def afterBytes : List Byte → State → State
  | [], w => w
  | b :: bs, w => afterBytes bs (afterByte b w)

/-- The state after the round of the loop that consumed a CR. -/
def afterCR (w : State) : State :=
  { (millis (millis w).2).2 with
    rx := w.rx.tail, log := w.log ++ [Ev.wdt_reset, Ev.read 13] }

/-- The state after the round of the loop that found and consumed the LF after a CR. -/
def afterLF (w : State) : State :=
  { (millis w).2 with
    rx := w.rx.tail, log := w.log ++ [Ev.wdt_reset, Ev.peek 10, Ev.read 10] }

/-- The state with one more entry in the log. -/
def logged (e : Ev) (w : State) : State := { w with log := w.log ++ [e] }

/-- The state after the round of the loop that peeked a byte other than LF after a CR. -/
def afterPeek (b : Byte) (w : State) : State :=
  { (millis w).2 with log := w.log ++ [Ev.wdt_reset, Ev.peek (b.val : Int)] }

/-- No byte can be read at time `t`: the queue is empty or its head arrives later. -/
def quietAt (t : Nat) (w : State) : Prop := ∀ x ∈ w.rx.head?, t < x.1

/-- The state after a round of the loop that found no byte (no CR seen). -/
def afterPoll (w : State) : State :=
  { (millis w).2 with log := w.log ++ [Ev.wdt_reset, Ev.read (-1)] }

/-- The state after a round of the loop that, after a CR, found no byte and the wait for
the LF not over. -/
def afterWait (w : State) : State :=
  { (millis (millis w).2).2 with
    log := w.log ++ [Ev.wdt_reset, Ev.peek (-1), Ev.read (-1)] }

/-- The state after the round of the loop that, after a CR, found no byte and the wait for
the LF over. -/
def afterSilence (w : State) : State :=
  { (millis (millis w).2).2 with log := w.log ++ [Ev.wdt_reset, Ev.peek (-1)] }

/-- The state after `p` rounds of the loop that found no byte. -/
def afterPolls : Nat → State → State
  | 0, w => w
  | p + 1, w => afterPolls p (afterPoll w)

/-- The state with the NUL written at the label `ok:`. -/
def terminated (w : State) : State := { w with buffer := w.buffer.set w.bufcnt 0 }

/-- The state in which `readLine` returns after `p` rounds without a byte and then the line
`s` ended by CR LF. -/
def afterLine (p : Nat) (s : List Byte) (w : State) : State :=
  terminated (afterLF (afterCR (afterBytes s (afterPolls p { w with bufcnt := 0 }))))

/-- A state for the examples: the clock at `now`, the schedule `ticks`, the queue `rx`,
nothing written, a line buffer filled with `0xFF`. -/
def exampleState (now : Nat) (ticks : List Nat) (rx : List (Nat × Byte)) : State :=
  { now := now, ticks := ticks, rx := rx, tx := [], log := [],
    buffer := List.replicate 65 255, bufcnt := 0, echoOff := false }

/-- Bytes that all arrive at the time `t`. -/
def arriving (t : Nat) (l : List Byte) : List (Nat × Byte) := l.map (fun b => (t, b))

/-- The lines of a stream, each followed by CR LF. -/
def wire : List (List Byte) → List Byte
  | [] => []
  | l :: ls => l ++ [13, 10] ++ wire ls

/-- What `waitForOK` does with a line it has read: `some true` is "return true",
`some false` is "return false", `none` is "read the next line". -/
def verdict (l : List Byte) : Option Bool :=
  if l = [] then none
  else if cstr (l.take UNBBEE_BUFLEN) = strOK then some true
  else if cstr (l.take UNBBEE_BUFLEN) = strERROR then some false
  else none

/-- The state after `readLine` read each of the lines `ls`, ended by CR LF, in turn. -/
def afterLines : List (List Byte) → State → State
  | [], w => w
  | l :: ls, w => afterLines ls (afterLine 0 l w)

/-- A line that `waitForOK` is to pass over, as the claims describe it: without CR and LF,
and either empty or without NUL and different from "OK" and from "ERROR". -/
def payloadLine (l : List Byte) : Prop :=
  (∀ b ∈ l, b ≠ 13 ∧ b ≠ 10) ∧ (l = [] ∨ ((∀ b ∈ l, b ≠ 0) ∧ l ≠ strOK ∧ l ≠ strERROR))

/-- A line that `waitForOK` passes over: without CR and LF, and either empty or with a
C string (the bytes before its first NUL) that is neither "OK" nor "ERROR". -/
def passedOver (l : List Byte) : Prop :=
  (∀ b ∈ l, b ≠ 13 ∧ b ≠ 10) ∧ (l = [] ∨ (cstr l ≠ strOK ∧ cstr l ≠ strERROR))

/-- The value a run returned, if it came to an end. -/
def outcome {α : Type} (r : Except Err (α × State)) : Option α :=
  match r with
  | .ok (a, _) => some a
  | .error _ => none

/-- The log entries of `mydelay(50)`. -/
def delayLog50 : List Ev :=
  [Ev.wdt_reset, Ev.delay 10, Ev.wdt_reset, Ev.delay 10, Ev.wdt_reset, Ev.delay 10,
   Ev.wdt_reset, Ev.delay 10, Ev.delay 10]

/-- The log entries of `flushInput` that consumes the bytes `stale`. -/
def flushLog (stale : List (Nat × Byte)) : List Ev :=
  stale.map (fun x => Ev.read (x.2.val : Int)) ++ [Ev.read (-1)]

/-- The second state has the same written bytes, echo flag, line buffer and count as the
first: what a call into the environment leaves alone. -/
def Same (w w' : State) : Prop :=
  w'.tx = w.tx ∧ w'.echoOff = w.echoOff ∧ w'.buffer = w.buffer ∧ w'.bufcnt = w.bufcnt

/-- What holds when `readLine` returns `r` in the state `w'`, started in a state with the
written bytes `tx`, the echo flag `echo` and a line buffer of `len` bytes. -/
def ReadLinePost (tx : List Byte) (echo : Bool) (len : Nat) (r : Int) (w' : State) : Prop :=
  w'.tx = tx ∧ w'.echoOff = echo ∧ w'.buffer.length = len ∧ w'.bufcnt ≤ UNBBEE_BUFLEN ∧
    (r = -1 ∨ (r = (w'.bufcnt : Int) ∧ w'.buffer.get? w'.bufcnt = some 0))

/-- The bytes of the reply "8622" CR LF "OK" CR LF. -/
def reply8622 : List Byte := [56, 54, 50, 50, 13, 10, 79, 75, 13, 10]

/-- The state after `q` rounds of the loop that, after a CR, found no byte and the wait
for the LF not over. -/
def afterWaits : Nat → State → State
  | 0, w => w
  | q + 1, w => afterWaits q (afterWait w)

/-- The state of the loop when the content `s` and the CR behind it are consumed. -/
def lineCR (s : List Byte) (w : State) : State := afterCR (afterBytes s { w with bufcnt := 0 })

/-- The value of `ts_waitLF` once the CR behind the content `s` is consumed. -/
def waitLF (s : List Byte) (w : State) : Nat := (clockAt w (s.length + 1) % 2 ^ 32 + 50) % 2 ^ 32

/-- The length returned by a run of `readLine` and the string then in the line buffer. -/
def lineRead (r : Except Err (Int × State)) : Option (Int × List Byte) :=
  match r with
  | .ok (n, w) => some (n, cstr w.buffer)
  | .error _ => none

/-- The log entries of `mydelay(n)`: a watchdog reset and a delay of 10 ms for every round of
the loop, then the delay of what is left. -/
def mydelayLog (n : Nat) : List Ev :=
  (List.replicate ((n - 1) / 10) [Ev.wdt_reset, Ev.delay 10]).flatten ++
    [Ev.delay (n - 10 * ((n - 1) / 10))]

/-- The arguments of the `delay` calls of a log, in order. -/
def delayArgs : List Ev → List Nat
  | [] => []
  | Ev.delay ms :: l => ms :: delayArgs l
  | Ev.wdt_reset :: l => delayArgs l
  | Ev.read _ :: l => delayArgs l
  | Ev.peek _ :: l => delayArgs l
  | Ev.print _ :: l => delayArgs l

/-- Whether no byte can be read at a given time can be computed. -/
instance quietAtDecidable (t : Nat) (w : State) : Decidable (quietAt t w) := by
  unfold quietAt
  infer_instance

/-- The result of a run of `getStrValue`, if it came to an end, and the string then in the
reply buffer. -/
def captured (r : Except Err (Bool × List Byte × State)) : Option (Bool × List Byte) :=
  match r with
  | .ok (b, reply, _) => some (b, cstr reply)
  | .error _ => none

/-! ## Lemmas -/

theorem isTimedOut_eq (ts : Nat) (w : State) :
    isTimedOut ts w = (expired ts w.now, (millis w).2) := rfl

theorem toChar_val (b : Byte) : toChar (b.val : Int) = b := by
  apply Fin.ext
  simp [toChar]

theorem streamRead_avail (w : State) (a : Nat) (b : Byte) (rest : List (Nat × Byte))
    (hrx : w.rx = (a, b) :: rest) (ha : a ≤ w.now) :
    streamRead w = ((b.val : Int), { w with rx := rest, log := w.log ++ [Ev.read (b.val : Int)] }) := by
  simp [streamRead, hrx, ha]

theorem streamPeek_avail (w : State) (a : Nat) (b : Byte) (rest : List (Nat × Byte))
    (hrx : w.rx = (a, b) :: rest) (ha : a ≤ w.now) :
    streamPeek w = ((b.val : Int), { w with log := w.log ++ [Ev.peek (b.val : Int)] }) := by
  simp [streamPeek, hrx, ha]

theorem streamRead_starved (w : State) (h : starved w) :
    streamRead w = (-1, { w with log := w.log ++ [Ev.read (-1)] }) := by
  unfold starved at h
  unfold streamRead
  split
  · rfl
  · rename_i a b rest hrx
    have := h (a, b) (by simp [hrx])
    simp at this
    simp [Nat.not_le.mpr this]

theorem streamPeek_starved (w : State) (h : starved w) :
    streamPeek w = (-1, { w with log := w.log ++ [Ev.peek (-1)] }) := by
  unfold starved at h
  unfold streamPeek
  split
  · rfl
  · rename_i a b rest hrx
    have := h (a, b) (by simp [hrx])
    simp at this
    simp [Nat.not_le.mpr this]

theorem val_ne_of_ne (b : Byte) (n : Nat) (hn : n < 256) (h : b ≠ (⟨n, hn⟩ : Byte)) :
    ¬ ((b.val : Int) = (n : Int)) := by
  intro h1
  apply h
  apply Fin.ext
  show b.val = n
  omega

theorem loop_plain (ts f tw : Nat) (w : State) (hts : expired ts w.now = false) :
    readLineLoop ts (f + 1) tw false w =
      if (streamRead (roundStart w)).1 < 0 then
        readLineLoop ts f tw false (streamRead (roundStart w)).2
      else if (streamRead (roundStart w)).1 = 13 then
        readLineLoop ts f (((millis (streamRead (roundStart w)).2).1 + 50) % 2 ^ 32) true
          (millis (streamRead (roundStart w)).2).2
      else if (streamRead (roundStart w)).1 = 10 then readLineOk (streamRead (roundStart w)).2
      else
        match storeChar (streamRead (roundStart w)).1 (streamRead (roundStart w)).2 with
        | .ok w5 => readLineLoop ts f tw false w5
        | .error e => .error e := by
  simp only [readLineLoop, isTimedOut_eq, hts, roundStart]
  rfl

theorem loop_byte (ts f tw : Nat) (w : State) (a : Nat) (b : Byte) (rest : List (Nat × Byte))
    (hrx : w.rx = (a, b) :: rest) (ha : a ≤ w.now + w.ticks.headD 0)
    (hts : expired ts w.now = false) (hcr : b ≠ 13) (hlf : b ≠ 10)
    (hlen : UNBBEE_BUFLEN ≤ w.buffer.length) :
    readLineLoop ts (f + 1) tw false w = readLineLoop ts f tw false (afterByte b w) := by
  have h13 : ¬ ((b.val : Int) = 13) := val_ne_of_ne b 13 (by decide) hcr
  have h10 : ¬ ((b.val : Int) = 10) := val_ne_of_ne b 10 (by decide) hlf
  have h0 : ¬ ((b.val : Int) < 0) := by omega
  have hr := streamRead_avail (roundStart w) a b rest hrx ha
  rw [loop_plain ts f tw w hts, hr]
  simp only [h13, h10, h0, if_false, storeChar, arraySet, toChar_val]
  unfold afterByte
  by_cases hc : w.bufcnt < UNBBEE_BUFLEN
  · have hc2 : w.bufcnt < w.buffer.length := by omega
    simp [roundStart, wdt_reset, millis, hc, hc2, hrx]
  · simp [roundStart, wdt_reset, millis, hc, hrx]

/-! ### The clock -/

theorem clockAt_zero (w : State) : clockAt w 0 = w.now := by simp [clockAt]

theorem clockAt_succ_millis (w : State) (k : Nat) :
    clockAt (millis w).2 k = clockAt w (k + 1) := by
  unfold clockAt millis
  cases h : w.ticks with
  | nil => simp
  | cons t tl => simp [List.take_succ_cons, Nat.add_assoc]

theorem sum_take_mono (l : List Nat) {j k : Nat} (h : j ≤ k) :
    (l.take j).sum ≤ (l.take k).sum := by
  induction l generalizing j k with
  | nil => simp
  | cons x xs ih =>
    cases j with
    | zero => simp
    | succ j =>
      cases k with
      | zero => omega
      | succ k =>
        simp only [List.take_succ_cons, List.sum_cons]
        have := @ih j k (by omega)
        omega

theorem clockAt_mono (w : State) {j k : Nat} (h : j ≤ k) : clockAt w j ≤ clockAt w k := by
  unfold clockAt
  have := sum_take_mono w.ticks h
  omega

theorem clockAt_one (w : State) : clockAt w 1 = w.now + w.ticks.headD 0 := by
  unfold clockAt
  cases w.ticks <;> simp

theorem afterByte_clockAt (b : Byte) (w : State) (k : Nat) :
    clockAt (afterByte b w) k = clockAt w (k + 1) := by
  rw [← clockAt_succ_millis]; rfl

theorem afterBytes_clockAt (s : List Byte) (w : State) (k : Nat) :
    clockAt (afterBytes s w) k = clockAt w (s.length + k) := by
  induction s generalizing w with
  | nil => simp [afterBytes]
  | cons b bs ih =>
    simp only [afterBytes, ih, afterByte_clockAt, List.length_cons]
    congr 1; omega

theorem afterBytes_now (s : List Byte) (w : State) :
    (afterBytes s w).now = clockAt w s.length := by
  rw [← clockAt_zero, afterBytes_clockAt]; rfl

theorem afterBytes_ticks (s : List Byte) (w : State) :
    (afterBytes s w).ticks = w.ticks.drop s.length := by
  induction s generalizing w with
  | nil => simp [afterBytes]
  | cons b bs ih =>
    simp only [afterBytes, ih, List.length_cons]
    simp [afterByte, List.drop_tail]

theorem afterBytes_rx (s : List Byte) (w : State) :
    (afterBytes s w).rx = w.rx.drop s.length := by
  induction s generalizing w with
  | nil => simp [afterBytes]
  | cons b bs ih =>
    simp only [afterBytes, ih, List.length_cons]
    simp [afterByte, List.drop_tail]

theorem afterBytes_tx (s : List Byte) (w : State) : (afterBytes s w).tx = w.tx := by
  induction s generalizing w with
  | nil => rfl
  | cons b bs ih => simp only [afterBytes, ih]; rfl

theorem afterBytes_echoOff (s : List Byte) (w : State) :
    (afterBytes s w).echoOff = w.echoOff := by
  induction s generalizing w with
  | nil => rfl
  | cons b bs ih => simp only [afterBytes, ih]; rfl

theorem afterBytes_length (s : List Byte) (w : State) :
    (afterBytes s w).buffer.length = w.buffer.length := by
  induction s generalizing w with
  | nil => rfl
  | cons b bs ih =>
    simp only [afterBytes, ih]
    unfold afterByte
    by_cases h : w.bufcnt < UNBBEE_BUFLEN <;> simp [h]

theorem afterBytes_bufcnt (s : List Byte) (w : State) (h : w.bufcnt ≤ UNBBEE_BUFLEN) :
    (afterBytes s w).bufcnt = min UNBBEE_BUFLEN (w.bufcnt + s.length) := by
  induction s generalizing w with
  | nil => simp [afterBytes]; omega
  | cons b bs ih =>
    simp only [afterBytes, List.length_cons]
    by_cases hc : w.bufcnt < UNBBEE_BUFLEN
    · rw [ih]
      · simp [afterByte, hc]; omega
      · simp [afterByte, hc]; omega
    · rw [ih]
      · simp [afterByte, hc]; omega
      · simp [afterByte, hc]; omega

theorem take_set_succ {α : Type} (l : List α) (n : Nat) (x : α) (h : n < l.length) :
    (l.set n x).take (n + 1) = l.take n ++ [x] := by
  induction l generalizing n with
  | nil => simp at h
  | cons y ys ih =>
    cases n with
    | zero => simp
    | succ n =>
      simp only [List.set_cons_succ, List.take_succ_cons, List.cons_append]
      rw [ih n (by simpa using h)]

theorem afterBytes_buffer (s : List Byte) (w : State) (h : w.bufcnt ≤ UNBBEE_BUFLEN)
    (hlen : UNBBEE_BUFLEN ≤ w.buffer.length) :
    (afterBytes s w).buffer.take (afterBytes s w).bufcnt =
      w.buffer.take w.bufcnt ++ s.take (UNBBEE_BUFLEN - w.bufcnt) := by
  induction s generalizing w with
  | nil => simp [afterBytes]
  | cons b bs ih =>
    simp only [afterBytes]
    by_cases hc : w.bufcnt < UNBBEE_BUFLEN
    · have e1 : (afterByte b w).bufcnt = w.bufcnt + 1 := by simp [afterByte, hc]
      have e2 : (afterByte b w).buffer = w.buffer.set w.bufcnt b := by simp [afterByte, hc]
      rw [ih (afterByte b w) (by omega) (by rw [e2]; simpa using hlen), e1, e2,
        take_set_succ _ _ _ (by omega)]
      have e3 : UNBBEE_BUFLEN - w.bufcnt = (UNBBEE_BUFLEN - (w.bufcnt + 1)) + 1 := by omega
      rw [e3, List.take_succ_cons]
      simp
    · have e1 : (afterByte b w).bufcnt = w.bufcnt := by simp [afterByte, hc]
      have e2 : (afterByte b w).buffer = w.buffer := by simp [afterByte, hc]
      rw [ih (afterByte b w) (by omega) (by rw [e2]; exact hlen), e1, e2]
      have e3 : UNBBEE_BUFLEN - w.bufcnt = 0 := by omega
      simp [e3]

theorem loop_bytes (ts tw : Nat) (s : List Byte) (f : Nat) (w : State) (rest : List Byte)
    (hrx : w.rx.map Prod.snd = s ++ rest)
    (harr : ∀ x ∈ w.rx.take s.length, x.1 ≤ clockAt w 1)
    (hs : ∀ b ∈ s, b ≠ 13 ∧ b ≠ 10)
    (hts : ∀ k, k < s.length → expired ts (clockAt w k) = false)
    (hlen : UNBBEE_BUFLEN ≤ w.buffer.length) :
    readLineLoop ts (s.length + f) tw false w = readLineLoop ts f tw false (afterBytes s w) := by
  induction s generalizing w with
  | nil => simp [afterBytes]
  | cons b bs ih =>
    cases hw : w.rx with
    | nil => simp [hw] at hrx
    | cons x tl =>
      obtain ⟨a, b'⟩ := x
      simp only [hw, List.map_cons, List.cons_append, List.cons.injEq] at hrx
      obtain ⟨hb, htl⟩ := hrx
      subst hb
      have hb := hs b' (by simp)
      have ha : a ≤ w.now + w.ticks.headD 0 := by
        rw [← clockAt_one]
        exact harr (a, b') (by simp [hw])
      have h0 : expired ts w.now = false := by
        have := hts 0 (by simp); rwa [clockAt_zero] at this
      have e : (b' :: bs).length + f = (bs.length + f) + 1 := by simp; omega
      rw [e, loop_byte ts _ tw w a b' tl hw ha h0 hb.1 hb.2 hlen]
      simp only [afterBytes]
      apply ih
      · simpa [afterByte, hw] using htl
      · intro x hx
        rw [afterByte_clockAt]
        have hx2 : x ∈ w.rx.take (b' :: bs).length := by
          simp only [afterByte, hw, List.tail_cons] at hx
          simp [hw, List.take_succ_cons, hx]
        exact le_trans (harr x hx2) (clockAt_mono w (by omega))
      · intro c hc; exact hs c (by simp [hc])
      · intro k hk
        rw [afterByte_clockAt]
        exact hts (k + 1) (by simpa using hk)
      · unfold afterByte
        by_cases hc : w.bufcnt < UNBBEE_BUFLEN <;> simp [hc, hlen]

/-! ### The other rounds of the loop -/

theorem loop_seen (ts f tw : Nat) (w : State) (hts : expired ts w.now = false) :
    readLineLoop ts (f + 1) tw true w =
      if (lineEnded tw (roundStart w)).1 then readLineOk (lineEnded tw (roundStart w)).2
      else if (streamRead (lineEnded tw (roundStart w)).2).1 < 0 then
        readLineLoop ts f tw true (streamRead (lineEnded tw (roundStart w)).2).2
      else if (streamRead (lineEnded tw (roundStart w)).2).1 = 13 then
        readLineLoop ts f
          (((millis (streamRead (lineEnded tw (roundStart w)).2).2).1 + 50) % 2 ^ 32) true
          (millis (streamRead (lineEnded tw (roundStart w)).2).2).2
      else if (streamRead (lineEnded tw (roundStart w)).2).1 = 10 then
        readLineOk (streamRead (lineEnded tw (roundStart w)).2).2
      else
        match storeChar (streamRead (lineEnded tw (roundStart w)).2).1
            (streamRead (lineEnded tw (roundStart w)).2).2 with
        | .ok w5 => readLineLoop ts f tw false w5
        | .error e => .error e := by
  simp only [readLineLoop, isTimedOut_eq, hts, roundStart]
  rfl

theorem loop_timeout (ts f tw : Nat) (cr : Bool) (w : State) (hts : expired ts w.now = true) :
    readLineLoop ts (f + 1) tw cr w = .ok (-1, (millis w).2) := by
  simp [readLineLoop, isTimedOut_eq, hts]

theorem roundStart_now (w : State) : (roundStart w).now = clockAt w 1 := by
  rw [clockAt_one]; rfl

theorem roundStart_rx (w : State) : (roundStart w).rx = w.rx := rfl

theorem clockAt_congr {w1 w2 : State} (h1 : w1.now = w2.now) (h2 : w1.ticks = w2.ticks)
    (k : Nat) : clockAt w1 k = clockAt w2 k := by
  unfold clockAt; rw [h1, h2]

theorem afterCR_clockAt (w : State) (k : Nat) : clockAt (afterCR w) k = clockAt w (k + 2) := by
  rw [← clockAt_succ_millis, ← clockAt_succ_millis]
  exact clockAt_congr rfl rfl k

theorem loop_cr (ts f tw : Nat) (w : State) (a : Nat) (rest : List (Nat × Byte))
    (hrx : w.rx = (a, 13) :: rest) (ha : a ≤ clockAt w 1)
    (hts : expired ts w.now = false) :
    readLineLoop ts (f + 1) tw false w =
      readLineLoop ts f ((clockAt w 1 % 2 ^ 32 + 50) % 2 ^ 32) true (afterCR w) := by
  have hr := streamRead_avail (roundStart w) a 13 rest hrx (by rw [roundStart_now]; exact ha)
  rw [loop_plain ts f tw w hts, hr]
  have e : ((13 : Byte).val : Int) = 13 := rfl
  simp only [e]
  simp only [show ¬ ((13 : Int) < 0) by decide, if_false, if_true]
  simp [afterCR, millis, roundStart, wdt_reset, hrx, clockAt_one]

theorem val_eq_iff (b : Byte) (n : Nat) (hn : n < 256) :
    ((b.val : Int) = (n : Int)) ↔ b = (⟨n, hn⟩ : Byte) := by
  constructor
  · intro h
    apply Fin.ext
    show b.val = n
    omega
  · intro h
    subst h
    rfl

theorem lineEnded_avail (tw : Nat) (w : State) (a : Nat) (b : Byte) (rest : List (Nat × Byte))
    (hrx : w.rx = (a, b) :: rest) (ha : a ≤ w.now) :
    lineEnded tw w = (decide (b ≠ 10), logged (Ev.peek (b.val : Int)) w) := by
  unfold lineEnded
  rw [streamPeek_avail w a b rest hrx ha]
  have h1 : ¬ ((b.val : Int) = -1) := by omega
  have h2 := val_eq_iff b 10 (by decide)
  simp only [h1, if_false]
  congr 1
  simp only [Nat.cast_ofNat] at h2
  simp only [ne_eq, h2]
  rfl

theorem loop_lf (ts f tw : Nat) (w : State) (a : Nat) (rest : List (Nat × Byte))
    (hrx : w.rx = (a, 10) :: rest) (ha : a ≤ clockAt w 1)
    (hts : expired ts w.now = false) :
    readLineLoop ts (f + 1) tw true w = readLineOk (afterLF w) := by
  have ha2 : a ≤ (roundStart w).now := by rw [roundStart_now]; exact ha
  have hl := lineEnded_avail tw (roundStart w) a 10 rest hrx ha2
  rw [loop_seen ts f tw w hts, hl]
  simp only [ne_eq, not_true_eq_false, decide_False, Bool.false_eq_true, if_false]
  rw [streamRead_avail (logged (Ev.peek ((10 : Byte).val : Int)) (roundStart w)) a 10 rest hrx ha2]
  have e : ((10 : Byte).val : Int) = 10 := rfl
  simp only [e]
  simp only [show ¬ ((10 : Int) < 0) by decide, show ¬ ((10 : Int) = 13) by decide, if_false,
    if_true]
  simp [afterLF, millis, roundStart, wdt_reset, hrx, logged]

theorem loop_bare (ts f tw : Nat) (w : State) (a : Nat) (b : Byte) (rest : List (Nat × Byte))
    (hrx : w.rx = (a, b) :: rest) (ha : a ≤ clockAt w 1) (hb : b ≠ 10)
    (hts : expired ts w.now = false) :
    readLineLoop ts (f + 1) tw true w = readLineOk (afterPeek b w) := by
  have hl := lineEnded_avail tw (roundStart w) a b rest hrx (by rw [roundStart_now]; exact ha)
  rw [loop_seen ts f tw w hts, hl]
  simp [hb, afterPeek, millis, roundStart, wdt_reset, logged]

theorem starved_of_quietAt (t : Nat) (w w1 : State) (h : quietAt t w) (hrx : w1.rx = w.rx)
    (hnow : w1.now ≤ t) : starved w1 := by
  intro x hx
  rw [hrx] at hx
  exact lt_of_le_of_lt hnow (h x hx)

theorem afterPoll_clockAt (w : State) (k : Nat) : clockAt (afterPoll w) k = clockAt w (k + 1) := by
  rw [← clockAt_succ_millis]
  exact clockAt_congr rfl rfl k

theorem loop_poll (ts f tw : Nat) (w : State) (hq : quietAt (clockAt w 1) w)
    (hts : expired ts w.now = false) :
    readLineLoop ts (f + 1) tw false w = readLineLoop ts f tw false (afterPoll w) := by
  have hr := streamRead_starved (roundStart w)
    (starved_of_quietAt _ w _ hq rfl (by rw [roundStart_now]))
  rw [loop_plain ts f tw w hts, hr]
  simp [afterPoll, millis, roundStart, wdt_reset]

theorem afterWait_clockAt (w : State) (k : Nat) : clockAt (afterWait w) k = clockAt w (k + 2) := by
  rw [← clockAt_succ_millis, ← clockAt_succ_millis]
  exact clockAt_congr rfl rfl k

theorem lineEnded_starved (tw : Nat) (w : State) (h : starved w) :
    lineEnded tw w = (expired tw w.now, (millis (logged (Ev.peek (-1)) w)).2) := by
  unfold lineEnded
  rw [streamPeek_starved w h]
  simp [isTimedOut_eq, logged]

theorem loop_wait (ts f tw : Nat) (w : State) (hq : quietAt (clockAt w 2) w)
    (htw : expired tw (clockAt w 1) = false) (hts : expired ts w.now = false) :
    readLineLoop ts (f + 1) tw true w = readLineLoop ts f tw true (afterWait w) := by
  have hl : lineEnded tw (roundStart w) =
      (false, (millis (logged (Ev.peek (-1)) (roundStart w))).2) := by
    rw [lineEnded_starved tw (roundStart w)
      (starved_of_quietAt _ w _ hq rfl (by rw [roundStart_now]; exact clockAt_mono w (by omega))),
      roundStart_now, htw]
  have hr := streamRead_starved (millis (logged (Ev.peek (-1)) (roundStart w))).2
    (starved_of_quietAt _ w _ hq rfl (by
      show (millis (millis w).2).2.now ≤ _
      rw [← clockAt_zero, clockAt_succ_millis, clockAt_succ_millis]))
  rw [loop_seen ts f tw w hts, hl]
  simp only [Bool.false_eq_true, if_false]
  rw [hr]
  simp [afterWait, millis, roundStart, wdt_reset, logged]

theorem loop_silence (ts f tw : Nat) (w : State) (hq : quietAt (clockAt w 1) w)
    (htw : expired tw (clockAt w 1) = true) (hts : expired ts w.now = false) :
    readLineLoop ts (f + 1) tw true w = readLineOk (afterSilence w) := by
  have hl : lineEnded tw (roundStart w) =
      (true, (millis (logged (Ev.peek (-1)) (roundStart w))).2) := by
    rw [lineEnded_starved tw (roundStart w)
      (starved_of_quietAt _ w _ hq rfl (by rw [roundStart_now])), roundStart_now, htw]
  rw [loop_seen ts f tw w hts, hl]
  simp [afterSilence, millis, roundStart, wdt_reset, logged]

theorem readLineOk_eq (w : State) (h : w.bufcnt < w.buffer.length) :
    readLineOk w = .ok ((w.bufcnt : Int), { w with buffer := w.buffer.set w.bufcnt 0 }) := by
  simp [readLineOk, arraySet, h]

/-! ### Polling for the first byte -/

theorem afterPolls_clockAt (p : Nat) (w : State) (k : Nat) :
    clockAt (afterPolls p w) k = clockAt w (p + k) := by
  induction p generalizing w with
  | zero => simp [afterPolls]
  | succ p ih =>
    simp only [afterPolls, ih, afterPoll_clockAt]
    congr 1; omega

theorem afterPolls_rx (p : Nat) (w : State) : (afterPolls p w).rx = w.rx := by
  induction p generalizing w with
  | zero => rfl
  | succ p ih => simp only [afterPolls, ih]; rfl

theorem afterPolls_tx (p : Nat) (w : State) : (afterPolls p w).tx = w.tx := by
  induction p generalizing w with
  | zero => rfl
  | succ p ih => simp only [afterPolls, ih]; rfl

theorem afterPolls_echoOff (p : Nat) (w : State) : (afterPolls p w).echoOff = w.echoOff := by
  induction p generalizing w with
  | zero => rfl
  | succ p ih => simp only [afterPolls, ih]; rfl

theorem afterPolls_buffer (p : Nat) (w : State) : (afterPolls p w).buffer = w.buffer := by
  induction p generalizing w with
  | zero => rfl
  | succ p ih => simp only [afterPolls, ih]; rfl

theorem afterPolls_bufcnt (p : Nat) (w : State) : (afterPolls p w).bufcnt = w.bufcnt := by
  induction p generalizing w with
  | zero => rfl
  | succ p ih => simp only [afterPolls, ih]; rfl

theorem afterPolls_ticks (p : Nat) (w : State) : (afterPolls p w).ticks = w.ticks.drop p := by
  induction p generalizing w with
  | zero => simp [afterPolls]
  | succ p ih =>
    simp only [afterPolls, ih]
    simp [afterPoll, millis, List.drop_tail]

theorem loop_polls (ts tw : Nat) (p f : Nat) (w : State)
    (hq : ∀ k, k < p → quietAt (clockAt w (k + 1)) w)
    (hts : ∀ k, k < p → expired ts (clockAt w k) = false) :
    readLineLoop ts (p + f) tw false w = readLineLoop ts f tw false (afterPolls p w) := by
  induction p generalizing w with
  | zero => simp [afterPolls]
  | succ p ih =>
    have e : p + 1 + f = (p + f) + 1 := by omega
    have h0 : expired ts w.now = false := by
      have := hts 0 (by omega); rwa [clockAt_zero] at this
    rw [e, loop_poll ts _ tw w (hq 0 (by omega)) h0]
    simp only [afterPolls]
    apply ih
    · intro k hk
      rw [afterPoll_clockAt]
      intro x hx
      exact hq (k + 1) (by omega) x hx
    · intro k hk
      rw [afterPoll_clockAt]
      exact hts (k + 1) (by omega)

/-! ### A line ended by CR LF -/

theorem afterLF_clockAt (w : State) (k : Nat) : clockAt (afterLF w) k = clockAt w (k + 1) := by
  rw [← clockAt_succ_millis]
  exact clockAt_congr rfl rfl k

theorem readLine_crlf (ts : Nat) (p : Nat) (s : List Byte) (f : Nat) (w : State)
    (rest : List Byte)
    (hrx : w.rx.map Prod.snd = s ++ 13 :: 10 :: rest)
    (hq : ∀ k, k < p → quietAt (clockAt w (k + 1)) w)
    (harr : ∀ x ∈ w.rx.take (s.length + 2), x.1 ≤ clockAt w (p + 1))
    (hs : ∀ b ∈ s, b ≠ 13 ∧ b ≠ 10)
    (hts : ∀ k, k ≤ p + s.length → expired ts (clockAt w k) = false)
    (hts2 : expired ts (clockAt w (p + s.length + 2)) = false)
    (hlen : UNBBEE_BUFLEN < w.buffer.length) :
    readLine (p + s.length + 2 + f) ts w =
      .ok (((min UNBBEE_BUFLEN s.length : Nat) : Int), afterLine p s w) := by
  unfold readLine
  have e : p + s.length + 2 + f = p + (s.length + ((f + 1) + 1)) := by omega
  rw [e, loop_polls ts 0 p _ { w with bufcnt := 0 } (fun k hk => hq k hk)
    (fun k hk => hts k (by omega))]
  have hrx1 : (afterPolls p { w with bufcnt := 0 }).rx = w.rx := afterPolls_rx p _
  have hck : ∀ k, clockAt (afterPolls p { w with bufcnt := 0 }) k = clockAt w (p + k) := by
    intro k
    rw [afterPolls_clockAt]
    exact clockAt_congr rfl rfl _
  rw [loop_bytes ts 0 s _ (afterPolls p { w with bufcnt := 0 }) (13 :: 10 :: rest)
    (by rw [hrx1]; exact hrx)
    (by
      intro x hx
      rw [hrx1] at hx
      rw [hck]
      have e2 : w.rx.take s.length = (w.rx.take (s.length + 2)).take s.length := by
        rw [List.take_take, Nat.min_eq_left (by omega)]
      rw [e2] at hx
      exact harr x (List.mem_of_mem_take hx))
    hs
    (by intro k hk; rw [hck]; exact hts _ (by omega))
    (by rw [afterPolls_buffer]; exact Nat.le_of_lt hlen)]
  generalize hw1 : afterBytes s (afterPolls p { w with bufcnt := 0 }) = w1
  have hw1rx : w1.rx = w.rx.drop s.length := by
    rw [← hw1, afterBytes_rx, hrx1]
  have hw1ck : ∀ k, clockAt w1 k = clockAt w (p + s.length + k) := by
    intro k
    rw [← hw1, afterBytes_clockAt, hck]
    congr 1; omega
  have hd : (w.rx.drop s.length).map Prod.snd = 13 :: 10 :: rest := by
    rw [List.map_drop, hrx]; simp
  cases hx : w.rx.drop s.length with
  | nil => simp [hx] at hd
  | cons x tl =>
    obtain ⟨a, c⟩ := x
    cases htl : tl with
    | nil => simp [hx, htl] at hd
    | cons y tl2 =>
      obtain ⟨a2, c2⟩ := y
      subst htl
      simp only [hx, List.map_cons, List.cons.injEq] at hd
      obtain ⟨hc, hc2, _⟩ := hd
      subst hc; subst hc2
      have hmem : ∀ z ∈ [(a, (13 : Byte)), (a2, (10 : Byte))], z ∈ w.rx.take (s.length + 2) := by
        intro z hz
        have h1 : w.rx.take (s.length + 2) = w.rx.take s.length ++ (w.rx.drop s.length).take 2 := by
          rw [List.take_add]
        rw [h1, hx]
        simp only [List.take_succ_cons, List.take_zero]
        exact List.mem_append_right _ hz
      have ha : a ≤ clockAt w1 1 := by
        rw [hw1ck]
        exact le_trans (harr _ (hmem (a, 13) (by simp))) (clockAt_mono w (by omega))
      have h0 : expired ts w1.now = false := by
        rw [← clockAt_zero, hw1ck]; exact hts _ (by omega)
      rw [loop_cr ts (f + 1) 0 w1 a ((a2, 10) :: tl2) (by rw [hw1rx, hx]) ha h0]
      have hrx2 : (afterCR w1).rx = (a2, 10) :: tl2 := by
        show w1.rx.tail = _
        rw [hw1rx, hx]; rfl
      have ha2 : a2 ≤ clockAt (afterCR w1) 1 := by
        rw [afterCR_clockAt, hw1ck]
        exact le_trans (harr _ (hmem (a2, 10) (by simp))) (clockAt_mono w (by omega))
      have h02 : expired ts (afterCR w1).now = false := by
        rw [← clockAt_zero, afterCR_clockAt, hw1ck]; exact hts2
      rw [loop_lf ts f _ (afterCR w1) a2 tl2 hrx2 ha2 h02]
      have hcnt : (afterLF (afterCR w1)).bufcnt = min UNBBEE_BUFLEN s.length := by
        show w1.bufcnt = _
        rw [← hw1, afterBytes_bufcnt _ _ (by rw [afterPolls_bufcnt]; exact Nat.zero_le _),
          afterPolls_bufcnt]
        simp
      have hbl : (afterLF (afterCR w1)).buffer.length = w.buffer.length := by
        show w1.buffer.length = _
        rw [← hw1, afterBytes_length, afterPolls_buffer]
      rw [readLineOk_eq _ (by rw [hcnt, hbl]; omega), hcnt]
      simp only [afterLine, terminated, hw1, hcnt]


theorem afterBytes_drop (s : List Byte) (w : State) (h : w.bufcnt ≤ UNBBEE_BUFLEN) :
    (afterBytes s w).buffer.drop (afterBytes s w).bufcnt =
      w.buffer.drop (afterBytes s w).bufcnt := by
  induction s generalizing w with
  | nil => simp [afterBytes]
  | cons b bs ih =>
    simp only [afterBytes]
    by_cases hc : w.bufcnt < UNBBEE_BUFLEN
    · have e1 : (afterByte b w).bufcnt = w.bufcnt + 1 := by simp [afterByte, hc]
      have e2 : (afterByte b w).buffer = w.buffer.set w.bufcnt b := by simp [afterByte, hc]
      have hle : (afterByte b w).bufcnt ≤ UNBBEE_BUFLEN := by omega
      rw [ih (afterByte b w) hle, e2]
      have : w.bufcnt < (afterBytes bs (afterByte b w)).bufcnt := by
        rw [afterBytes_bufcnt _ _ hle, e1]; omega
      rw [List.drop_set_of_lt _ _ this]
    · have e2 : (afterByte b w).buffer = w.buffer := by simp [afterByte, hc]
      have e1 : (afterByte b w).bufcnt = w.bufcnt := by simp [afterByte, hc]
      rw [ih (afterByte b w) (by omega), e2]

theorem set_eq_take_append {α : Type} (l : List α) (n : Nat) (x : α) (h : n < l.length) :
    l.set n x = l.take n ++ x :: l.drop (n + 1) := by
  induction l generalizing n with
  | nil => simp at h
  | cons y ys ih =>
    cases n with
    | zero => simp
    | succ n =>
      simp only [List.set_cons_succ, List.take_succ_cons, List.drop_succ_cons, List.cons_append]
      rw [ih n (by simpa using h)]

theorem afterLine_rx (p : Nat) (s : List Byte) (w : State) :
    (afterLine p s w).rx = w.rx.drop (s.length + 2) := by
  show (afterBytes s (afterPolls p { w with bufcnt := 0 })).rx.tail.tail = _
  rw [afterBytes_rx, afterPolls_rx]
  simp [List.drop_tail, List.drop_drop]

theorem afterLine_clockAt (p : Nat) (s : List Byte) (w : State) (k : Nat) :
    clockAt (afterLine p s w) k = clockAt w (p + s.length + 3 + k) := by
  have h1 : clockAt (afterLine p s w) k
      = clockAt (afterLF (afterCR (afterBytes s (afterPolls p { w with bufcnt := 0 })))) k :=
    clockAt_congr rfl rfl k
  rw [h1, afterLF_clockAt, afterCR_clockAt, afterBytes_clockAt, afterPolls_clockAt]
  have h2 : clockAt { w with bufcnt := 0 } (p + (s.length + (k + 1 + 2))) =
      clockAt w (p + (s.length + (k + 1 + 2))) := clockAt_congr rfl rfl _
  rw [h2]
  congr 1; omega

theorem afterLine_now (p : Nat) (s : List Byte) (w : State) :
    (afterLine p s w).now = clockAt w (p + s.length + 3) := by
  rw [← clockAt_zero, afterLine_clockAt]

theorem afterLine_tx (p : Nat) (s : List Byte) (w : State) : (afterLine p s w).tx = w.tx := by
  show (afterBytes s (afterPolls p { w with bufcnt := 0 })).tx = _
  rw [afterBytes_tx, afterPolls_tx]

theorem afterLine_echoOff (p : Nat) (s : List Byte) (w : State) :
    (afterLine p s w).echoOff = w.echoOff := by
  show (afterBytes s (afterPolls p { w with bufcnt := 0 })).echoOff = _
  rw [afterBytes_echoOff, afterPolls_echoOff]

theorem afterLine_bufcnt (p : Nat) (s : List Byte) (w : State) :
    (afterLine p s w).bufcnt = min UNBBEE_BUFLEN s.length := by
  show (afterBytes s (afterPolls p { w with bufcnt := 0 })).bufcnt = _
  rw [afterBytes_bufcnt _ _ (by rw [afterPolls_bufcnt]; exact Nat.zero_le _), afterPolls_bufcnt]
  simp

theorem afterLine_buffer (p : Nat) (s : List Byte) (w : State)
    (hlen : UNBBEE_BUFLEN < w.buffer.length) :
    (afterLine p s w).buffer =
      s.take UNBBEE_BUFLEN ++ 0 :: w.buffer.drop (min UNBBEE_BUFLEN s.length + 1) := by
  generalize hw1 : afterBytes s (afterPolls p { w with bufcnt := 0 }) = w1
  have h0 : (afterPolls p { w with bufcnt := 0 }).bufcnt ≤ UNBBEE_BUFLEN := by
    rw [afterPolls_bufcnt]; exact Nat.zero_le _
  have hcnt : w1.bufcnt = min UNBBEE_BUFLEN s.length := by
    rw [← hw1, afterBytes_bufcnt _ _ h0, afterPolls_bufcnt]; simp
  have hl : w1.buffer.length = w.buffer.length := by
    rw [← hw1, afterBytes_length, afterPolls_buffer]
  have htake : w1.buffer.take w1.bufcnt = s.take UNBBEE_BUFLEN := by
    rw [← hw1, afterBytes_buffer _ _ h0 (by rw [afterPolls_buffer]; exact Nat.le_of_lt hlen),
      afterPolls_bufcnt]
    simp
  have hdrop : w1.buffer.drop w1.bufcnt = w.buffer.drop w1.bufcnt := by
    rw [← hw1, afterBytes_drop _ _ h0, afterPolls_buffer]
  show (afterBytes s (afterPolls p { w with bufcnt := 0 })).buffer.set
    (afterBytes s (afterPolls p { w with bufcnt := 0 })).bufcnt 0 = _
  rw [hw1, set_eq_take_append _ _ _ (by rw [hl, hcnt]; omega), htake]
  have : w1.buffer.drop (w1.bufcnt + 1) = w.buffer.drop (w1.bufcnt + 1) := by
    rw [← List.drop_drop, ← List.drop_drop, hdrop]
  rw [this, hcnt]

theorem afterLine_length (p : Nat) (s : List Byte) (w : State) :
    (afterLine p s w).buffer.length = w.buffer.length := by
  show ((afterBytes s (afterPolls p { w with bufcnt := 0 })).buffer.set _ 0).length = _
  rw [List.length_set, afterBytes_length, afterPolls_buffer]

theorem cstr_no_nul (l : List Byte) : ∀ b ∈ cstr l, b ≠ 0 := by
  induction l with
  | nil => simp [cstr]
  | cons a as ih =>
    intro b hb
    by_cases ha : a = 0
    · simp [cstr, ha] at hb
    · simp only [cstr, ha, if_false, List.mem_cons] at hb
      rcases hb with h | h
      · rw [h]; exact ha
      · exact ih b h

theorem strcmpBytes_eq_zero (x y : List Byte) (hx : ∀ b ∈ x, b ≠ 0) (hy : ∀ b ∈ y, b ≠ 0) :
    strcmpBytes x y = 0 ↔ x = y := by
  induction x generalizing y with
  | nil =>
    cases y with
    | nil => simp [strcmpBytes]
    | cons b bs =>
      have hb : b ≠ 0 := hy b (by simp)
      have : (b.val : Int) ≠ 0 := by
        intro h; apply hb; apply Fin.ext; show b.val = 0; omega
      simp [strcmpBytes, this]
  | cons a as ih =>
    cases y with
    | nil =>
      have ha : a ≠ 0 := hx a (by simp)
      have : (a.val : Int) ≠ 0 := by
        intro h; apply ha; apply Fin.ext; show a.val = 0; omega
      simp [strcmpBytes, this]
    | cons b bs =>
      by_cases hab : a = b
      · subst hab
        simp only [strcmpBytes, if_true, List.cons.injEq, true_and]
        exact ih bs (fun c hc => hx c (by simp [hc])) (fun c hc => hy c (by simp [hc]))
      · have : (a.val : Int) - (b.val : Int) ≠ 0 := by
          intro h; apply hab; apply Fin.ext; omega
        simp [strcmpBytes, hab, this]

theorem strcmp_P_eq_zero (a b : List Byte) : strcmp_P a b = 0 ↔ cstr a = cstr b :=
  strcmpBytes_eq_zero _ _ (cstr_no_nul a) (cstr_no_nul b)

theorem cstr_of_no_nul (x : List Byte) (hx : ∀ b ∈ x, b ≠ 0) : cstr x = x := by
  induction x with
  | nil => simp [cstr]
  | cons a as ih =>
    have ha : a ≠ 0 := hx a (by simp)
    simp [cstr, ha, ih (fun c hc => hx c (by simp [hc]))]

theorem cstr_append_nul (x y : List Byte) : cstr (x ++ 0 :: y) = cstr x := by
  induction x with
  | nil => simp [cstr]
  | cons a as ih =>
    by_cases ha : a = 0
    · simp [cstr, ha]
    · simp [cstr, ha, ih]

theorem cstr_afterLine (p : Nat) (l : List Byte) (w : State)
    (hlen : UNBBEE_BUFLEN < w.buffer.length) :
    cstr (afterLine p l w).buffer = cstr (l.take UNBBEE_BUFLEN) := by
  rw [afterLine_buffer p l w hlen, cstr_append_nul]

theorem waitLoop_line (lf ts n : Nat) (l rest : List Byte) (w : State)
    (hrx : w.rx.map Prod.snd = l ++ 13 :: 10 :: rest)
    (harr : ∀ x ∈ w.rx.take (l.length + 2), x.1 ≤ w.now)
    (hl : ∀ b ∈ l, b ≠ 13 ∧ b ≠ 10)
    (hts : ∀ k, k ≤ l.length + 2 → expired ts (clockAt w k) = false)
    (hlen : UNBBEE_BUFLEN < w.buffer.length)
    (hlf : l.length + 2 ≤ lf) :
    waitForOKLoop lf ts (n + 1) w =
      match verdict l with
      | some b => .ok (b, afterLine 0 l w)
      | none => waitForOKLoop lf ts n (afterLine 0 l w) := by
  have h := readLine_crlf ts 0 l (lf - (l.length + 2)) w rest hrx
    (fun k hk => absurd hk (Nat.not_lt_zero k))
    (fun x hx => le_trans (harr x hx) (by rw [← clockAt_zero w]; exact clockAt_mono w (by omega)))
    hl (fun k hk => hts k (by omega)) (by simpa using hts (l.length + 2) (Nat.le_refl _)) hlen
  have e : 0 + l.length + 2 + (lf - (l.length + 2)) = lf := by omega
  rw [e] at h
  simp only [waitForOKLoop, h]
  have hnn : ((min UNBBEE_BUFLEN l.length : Nat) : Int) ≥ 0 := Int.natCast_nonneg _
  simp only [hnn, if_true, strcmp_P_eq_zero, cstr_afterLine 0 l w hlen]
  by_cases hnil : l = []
  · subst hnil
    simp [verdict]
  · have hpos : ¬ (((min UNBBEE_BUFLEN l.length : Nat) : Int) = 0) := by
      have : 0 < l.length := List.length_pos.mpr hnil
      have h64 : 0 < UNBBEE_BUFLEN := by decide
      omega
    have cOK : cstr strOK = strOK := by decide
    have cERR : cstr strERROR = strERROR := by decide
    have hne : strERROR ≠ strOK := by decide
    simp only [hpos, if_false, verdict, hnil, cOK, cERR]
    by_cases h1 : cstr (l.take UNBBEE_BUFLEN) = strOK
    · simp [h1]
    · by_cases h2 : cstr (l.take UNBBEE_BUFLEN) = strERROR
      · simp [h1, h2, hne]
      · simp [h1, h2]

theorem wire_append (xs ys : List (List Byte)) : wire (xs ++ ys) = wire xs ++ wire ys := by
  induction xs with
  | nil => simp [wire]
  | cons l ls ih => simp [wire, ih]

theorem length_le_wire (ls : List (List Byte)) : ∀ l ∈ ls, l.length + 2 ≤ (wire ls).length := by
  induction ls with
  | nil => simp
  | cons x xs ih =>
    intro l hl
    simp only [List.mem_cons] at hl
    simp only [wire, List.length_append, List.length_cons, List.length_nil]
    rcases hl with h | h
    · subst h; omega
    · have := ih l h; omega

theorem count_le_wire (ls : List (List Byte)) : 2 * ls.length ≤ (wire ls).length := by
  induction ls with
  | nil => simp
  | cons x xs ih =>
    simp only [wire, List.length_append, List.length_cons, List.length_nil]
    omega

theorem afterLines_rx (ls : List (List Byte)) (w : State) :
    (afterLines ls w).rx = w.rx.drop (wire ls).length := by
  induction ls generalizing w with
  | nil => simp [afterLines, wire]
  | cons l ls ih =>
    simp only [afterLines, ih, afterLine_rx, wire, List.drop_drop, List.length_append,
      List.length_cons, List.length_nil]

theorem afterLines_clockAt (ls : List (List Byte)) (w : State) (k : Nat) :
    clockAt (afterLines ls w) k = clockAt w ((wire ls).length + ls.length + k) := by
  induction ls generalizing w with
  | nil => simp [afterLines, wire]
  | cons l ls ih =>
    simp only [afterLines, ih, afterLine_clockAt, wire, List.length_append, List.length_cons,
      List.length_nil]
    congr 1; omega

theorem afterLines_now (ls : List (List Byte)) (w : State) :
    (afterLines ls w).now = clockAt w ((wire ls).length + ls.length) := by
  rw [← clockAt_zero, afterLines_clockAt]; rfl

theorem afterLines_length (ls : List (List Byte)) (w : State) :
    (afterLines ls w).buffer.length = w.buffer.length := by
  induction ls generalizing w with
  | nil => rfl
  | cons l ls ih => simp only [afterLines, ih, afterLine_length]

theorem afterLines_tx (ls : List (List Byte)) (w : State) : (afterLines ls w).tx = w.tx := by
  induction ls generalizing w with
  | nil => rfl
  | cons l ls ih => simp only [afterLines, ih, afterLine_tx]

theorem afterLines_echoOff (ls : List (List Byte)) (w : State) :
    (afterLines ls w).echoOff = w.echoOff := by
  induction ls generalizing w with
  | nil => rfl
  | cons l ls ih => simp only [afterLines, ih, afterLine_echoOff]

theorem mem_take_of_le {α : Type} (l : List α) {m n : Nat} (h : m ≤ n) (x : α)
    (hx : x ∈ l.take m) : x ∈ l.take n := by
  have e : l.take m = (l.take n).take m := by rw [List.take_take, Nat.min_eq_left h]
  rw [e] at hx
  exact List.mem_of_mem_take hx

theorem mem_take_drop {α : Type} (l : List α) (m n : Nat) (x : α)
    (hx : x ∈ (l.drop m).take n) : x ∈ l.take (m + n) := by
  rw [List.take_add]
  exact List.mem_append_right _ hx

theorem waitLoop_lines (lf ts n : Nat) (ls : List (List Byte)) (rest : List Byte) (w : State)
    (hv : ∀ l ∈ ls, verdict l = none)
    (hcl : ∀ l ∈ ls, ∀ b ∈ l, b ≠ 13 ∧ b ≠ 10)
    (hrx : w.rx.map Prod.snd = wire ls ++ rest)
    (harr : ∀ x ∈ w.rx.take (wire ls).length, x.1 ≤ w.now)
    (hts : ∀ k, k < (wire ls).length + ls.length → expired ts (clockAt w k) = false)
    (hlen : UNBBEE_BUFLEN < w.buffer.length)
    (hlf : ∀ l ∈ ls, l.length + 2 ≤ lf) :
    waitForOKLoop lf ts (ls.length + n) w = waitForOKLoop lf ts n (afterLines ls w) := by
  induction ls generalizing w with
  | nil => simp [afterLines]
  | cons l ls ih =>
    have e : (l :: ls).length + n = (ls.length + n) + 1 := by simp; omega
    have hw : (wire (l :: ls)).length = (l.length + 2) + (wire ls).length := by
      simp [wire]; omega
    rw [e, waitLoop_line lf ts _ l (wire ls ++ rest) w (by simpa [wire] using hrx)
      (fun x hx => harr x (mem_take_of_le _ (by omega) x hx)) (hcl l (by simp))
      (fun k hk => hts k (by simp only [hw, List.length_cons]; omega)) hlen (hlf l (by simp)),
      hv l (by simp)]
    simp only [afterLines]
    apply ih
    · intro l' h'; exact hv l' (by simp [h'])
    · intro l' h'; exact hcl l' (by simp [h'])
    · rw [afterLine_rx, List.map_drop, hrx]; simp [wire]
    · intro x hx
      rw [afterLine_rx] at hx
      have := harr x (by rw [hw]; exact mem_take_drop _ _ _ x hx)
      rw [afterLine_now]
      exact le_trans this (by rw [← clockAt_zero w]; exact clockAt_mono w (by omega))
    · intro k hk
      rw [afterLine_clockAt]
      exact hts _ (by simp only [hw, List.length_cons]; omega)
    · rw [afterLine_length]; exact hlen
    · intro l' h'; exact hlf l' (by simp [h'])

theorem take_eq_of_short (l t : List Byte) (n : Nat) (ht : t.length < n) (h : l.take n = t) :
    l = t := by
  have hl : (l.take n).length = t.length := by rw [h]
  rw [List.length_take] at hl
  have : l.length ≤ n := by omega
  rw [List.take_of_length_le this] at h
  exact h

theorem verdict_payload (l : List Byte) (h : payloadLine l) : verdict l = none := by
  rcases h.2 with h0 | ⟨hn, h1, h2⟩
  · simp [verdict, h0]
  · have hc : cstr (l.take UNBBEE_BUFLEN) = l.take UNBBEE_BUFLEN :=
      cstr_of_no_nul _ (fun b hb => hn b (List.mem_of_mem_take hb))
    have n1 : ¬ (l.take UNBBEE_BUFLEN = strOK) :=
      fun h => h1 (take_eq_of_short l strOK UNBBEE_BUFLEN (by decide) h)
    have n2 : ¬ (l.take UNBBEE_BUFLEN = strERROR) :=
      fun h => h2 (take_eq_of_short l strERROR UNBBEE_BUFLEN (by decide) h)
    simp [verdict, hc, n1, n2]

theorem verdict_OK : verdict strOK = some true := by decide

theorem verdict_ERROR : verdict strERROR = some false := by decide

theorem waitForOK_eq (fuel timeout : Nat) (w : State) :
    waitForOK fuel timeout w = waitForOKLoop fuel (deadline timeout w) fuel (millis w).2 := rfl

theorem waitLoop_verdict (lf ts n : Nat) (ls : List (List Byte)) (t rest : List Byte) (r : Bool)
    (w : State)
    (hls : ∀ l ∈ ls, verdict l = none ∧ ∀ b ∈ l, b ≠ 13 ∧ b ≠ 10)
    (ht : verdict t = some r) (htc : ∀ b ∈ t, b ≠ 13 ∧ b ≠ 10)
    (hrx : w.rx.map Prod.snd = wire (ls ++ [t]) ++ rest)
    (harr : ∀ x ∈ w.rx.take (wire (ls ++ [t])).length, x.1 ≤ w.now)
    (hts : ∀ k, k < (wire (ls ++ [t])).length + (ls.length + 1) →
      expired ts (clockAt w k) = false)
    (hlen : UNBBEE_BUFLEN < w.buffer.length)
    (hlf : (wire (ls ++ [t])).length ≤ lf) :
    waitForOKLoop lf ts (ls.length + 1 + n) w = .ok (r, afterLine 0 t (afterLines ls w)) := by
  have hwl : (wire (ls ++ [t])).length = (wire ls).length + (t.length + 2) := by
    simp [wire_append, wire]
  have e : ls.length + 1 + n = ls.length + (n + 1) := by omega
  rw [e, waitLoop_lines lf ts (n + 1) ls (t ++ 13 :: 10 :: rest) w
    (fun l hl => (hls l hl).1) (fun l hl => (hls l hl).2)
    (by rw [hrx, wire_append]; simp [wire])
    (fun x hx => harr x (mem_take_of_le _ (by omega) x hx))
    (fun k hk => hts k (by omega)) hlen
    (fun l hl => by have := length_le_wire ls l hl; omega)]
  have hts3 : ∀ k, k ≤ t.length + 2 → expired ts (clockAt (afterLines ls w) k) = false := by
    intro k hk
    rw [afterLines_clockAt]
    exact hts ((wire ls).length + ls.length + k) (by omega)
  rw [waitLoop_line lf ts n t rest (afterLines ls w)
    (by rw [afterLines_rx, List.map_drop, hrx, wire_append]; simp [wire])
    (by
      intro x hx
      rw [afterLines_rx] at hx
      have := harr x (by rw [hwl]; exact mem_take_drop _ _ _ x hx)
      rw [afterLines_now]
      exact le_trans this (by rw [← clockAt_zero w]; exact clockAt_mono w (by omega)))
    htc
    hts3
    (by rw [afterLines_length]; exact hlen)
    (by omega), ht]

theorem cstr_take (l : List Byte) (n : Nat) : cstr (l.take n) = (cstr l).take n := by
  induction l generalizing n with
  | nil => simp [cstr]
  | cons a as ih =>
    cases n with
    | zero => simp [cstr]
    | succ n =>
      by_cases ha : a = 0
      · simp [cstr, ha]
      · simp [cstr, ha, ih]

theorem verdict_passedOver (l : List Byte) (h : passedOver l) : verdict l = none := by
  rcases h.2 with h0 | ⟨h1, h2⟩
  · simp [verdict, h0]
  · have n1 : ¬ (cstr (l.take UNBBEE_BUFLEN) = strOK) := by
      rw [cstr_take]
      exact fun h => h1 (take_eq_of_short _ strOK UNBBEE_BUFLEN (by decide) h)
    have n2 : ¬ (cstr (l.take UNBBEE_BUFLEN) = strERROR) := by
      rw [cstr_take]
      exact fun h => h2 (take_eq_of_short _ strERROR UNBBEE_BUFLEN (by decide) h)
    simp [verdict, n1, n2]

theorem passedOver_of_payload (l : List Byte) (h : payloadLine l) : passedOver l := by
  refine ⟨h.1, ?_⟩
  rcases h.2 with h0 | ⟨hn, h1, h2⟩
  · exact Or.inl h0
  · right
    rw [cstr_of_no_nul l hn]
    exact ⟨h1, h2⟩

theorem waitForOK_verdict (fuel timeout : Nat) (ls : List (List Byte)) (t rest : List Byte)
    (r : Bool) (w : State)
    (hlen : UNBBEE_BUFLEN < w.buffer.length)
    (hls : ∀ l ∈ ls, passedOver l)
    (ht : verdict t = some r) (htc : ∀ b ∈ t, b ≠ 13 ∧ b ≠ 10)
    (hrx : w.rx.map Prod.snd = wire (ls ++ [t]) ++ rest)
    (harr : ∀ x ∈ w.rx.take (wire (ls ++ [t])).length, x.1 ≤ clockAt w 1)
    (hts : ∀ k, 1 ≤ k → k ≤ (wire (ls ++ [t])).length + (ls.length + 1) →
      expired (deadline timeout w) (clockAt w k) = false)
    (hfuel : (wire (ls ++ [t])).length ≤ fuel) :
    waitForOK fuel timeout w = .ok (r, afterLine 0 t (afterLines ls (millis w).2)) := by
  have hc := count_le_wire (ls ++ [t])
  simp only [List.length_append, List.length_cons, List.length_nil] at hc
  have e : fuel = ls.length + 1 + (fuel - (ls.length + 1)) := by omega
  rw [waitForOK_eq]
  generalize deadline timeout w = ts at hts ⊢
  conv => lhs; arg 3; rw [e]
  exact waitLoop_verdict fuel ts _ ls t rest r (millis w).2
    (fun l hl => ⟨verdict_passedOver l (hls l hl), (hls l hl).1⟩) ht htc hrx
    (fun x hx => le_trans (harr x hx) (by
      rw [← clockAt_zero (millis w).2, clockAt_succ_millis]))
    (fun k hk => by rw [clockAt_succ_millis]; exact hts (k + 1) (by omega) (by omega))
    hlen hfuel

theorem mydelay_50 (w : State) :
    mydelay 50 w = { w with now := w.now + 50, log := w.log ++ delayLog50 } := by
  simp [mydelay, mydelayLoop, delay, wdt_reset, delayLog50, Nat.add_assoc]

theorem streamPrintAll_eq (bs : List Byte) (w : State) :
    streamPrintAll bs w = { w with tx := w.tx ++ bs, log := w.log ++ bs.map Ev.print } := by
  induction bs generalizing w with
  | nil => simp [streamPrintAll]
  | cons b bs ih => simp [streamPrintAll, ih, streamPrint]

theorem flushInputLoop_eq (stale later : List (Nat × Byte)) (n : Nat) (w : State)
    (hrx : w.rx = stale ++ later)
    (hstale : ∀ x ∈ stale, x.1 ≤ w.now)
    (hq : ∀ x ∈ later.head?, w.now < x.1)
    (hn : stale.length ≤ n) :
    flushInputLoop n w = { w with rx := later, log := w.log ++ flushLog stale } := by
  induction stale generalizing n w with
  | nil =>
    have hst : starved w := by
      intro x hx
      rw [hrx] at hx
      exact hq x hx
    have hr := streamRead_starved w hst
    have hrx2 : w.rx = later := by simpa using hrx
    cases n with
    | zero => simp [flushInputLoop, hr, flushLog, hrx2]
    | succ n => simp [flushInputLoop, hr, flushLog, hrx2]
  | cons x xs ih =>
    obtain ⟨a, b⟩ := x
    have hr := streamRead_avail w a b (xs ++ later) hrx (hstale (a, b) (by simp))
    cases n with
    | zero => simp at hn
    | succ n =>
      have h0 : ((b.val : Int) ≥ 0) := by omega
      simp only [flushInputLoop, hr, h0, if_true]
      rw [ih n { w with rx := xs ++ later, log := w.log ++ [Ev.read (b.val : Int)] } rfl
        (fun y hy => hstale y (by simp [hy])) hq (by simpa using hn)]
      simp [flushLog]

theorem flushInput_eq (stale later : List (Nat × Byte)) (w : State)
    (hrx : w.rx = stale ++ later)
    (hstale : ∀ x ∈ stale, x.1 ≤ w.now)
    (hq : ∀ x ∈ later.head?, w.now < x.1) :
    flushInput w = { w with rx := later, log := w.log ++ flushLog stale } :=
  flushInputLoop_eq stale later _ w hrx hstale hq (by rw [hrx]; simp)

theorem sendCommandAddAll_eq (fs : List Fragment) (w : State) :
    sendCommandAddAll fs w =
      { w with tx := w.tx ++ (fs.map Fragment.bytes).flatten,
               log := w.log ++ ((fs.map Fragment.bytes).flatten).map Ev.print } := by
  induction fs generalizing w with
  | nil => simp [sendCommandAddAll]
  | cons f fs ih => simp [sendCommandAddAll, ih, sendCommandAdd, streamPrintAll_eq]

theorem sendCommand_eq (cmd : List Byte) (stale later : List (Nat × Byte)) (w : State)
    (hrx : w.rx = stale ++ later)
    (hstale : ∀ x ∈ stale, x.1 ≤ w.now)
    (hq : ∀ x ∈ later.head?, w.now < x.1) :
    sendCommand cmd w =
      { w with now := w.now + 50, rx := later, tx := w.tx ++ cstr cmd ++ [13],
               log := w.log ++ flushLog stale ++ delayLog50 ++
                 (cstr cmd ++ [13]).map Ev.print } := by
  simp [sendCommand, sendCommandEpilog, sendCommandAdd, sendCommandProlog, Fragment.bytes,
    flushInput_eq stale later w hrx hstale hq, mydelay_50, streamPrintAll_eq, streamPrint]

theorem Same.refl (w : State) : Same w w := ⟨rfl, rfl, rfl, rfl⟩

theorem Same.trans {a b c : State} (h1 : Same a b) (h2 : Same b c) : Same a c :=
  ⟨h2.1.trans h1.1, h2.2.1.trans h1.2.1, h2.2.2.1.trans h1.2.2.1, h2.2.2.2.trans h1.2.2.2⟩

theorem same_millis (w : State) : Same w (millis w).2 := ⟨rfl, rfl, rfl, rfl⟩

theorem same_wdt_reset (w : State) : Same w (wdt_reset w) := ⟨rfl, rfl, rfl, rfl⟩

theorem same_isTimedOut (ts : Nat) (w : State) : Same w (isTimedOut ts w).2 := ⟨rfl, rfl, rfl, rfl⟩

theorem same_streamRead (w : State) : Same w (streamRead w).2 := by
  unfold streamRead
  split
  · exact ⟨rfl, rfl, rfl, rfl⟩
  · split <;> exact ⟨rfl, rfl, rfl, rfl⟩

theorem same_streamPeek (w : State) : Same w (streamPeek w).2 := by
  unfold streamPeek
  split
  · exact ⟨rfl, rfl, rfl, rfl⟩
  · split <;> exact ⟨rfl, rfl, rfl, rfl⟩

theorem same_lineEnded (tw : Nat) (w : State) : Same w (lineEnded tw w).2 := by
  unfold lineEnded
  split
  · exact (same_streamPeek w).trans (same_isTimedOut tw _)
  · exact same_streamPeek w

theorem readLineOk_post (w0 w : State) (hs : Same w0 w) (hc : w0.bufcnt ≤ UNBBEE_BUFLEN)
    (hl : UNBBEE_BUFLEN < w0.buffer.length) :
    readLineOk w ≠ .error Err.oob ∧
    ∀ r w', readLineOk w = .ok (r, w') →
      ReadLinePost w0.tx w0.echoOff w0.buffer.length r w' := by
  obtain ⟨h1, h2, h3, h4⟩ := hs
  have hlt : w.bufcnt < w.buffer.length := by rw [h3, h4]; omega
  rw [readLineOk_eq w hlt]
  refine ⟨by simp, ?_⟩
  intro r w' h
  simp only [Except.ok.injEq, Prod.mk.injEq] at h
  obtain ⟨hr, hw⟩ := h
  subst hw
  subst hr
  refine ⟨h1, h2, by simp [h3], by simp [h4, hc], Or.inr ⟨rfl, ?_⟩⟩
  simp [List.get?_eq_getElem?, List.getElem?_set, hlt]

theorem ReadLinePost.congr {tx1 tx2 : List Byte} {e1 e2 : Bool} {n1 n2 : Nat} {r : Int}
    {w' : State} (h : ReadLinePost tx1 e1 n1 r w') (ht : tx1 = tx2) (he : e1 = e2)
    (hn : n1 = n2) : ReadLinePost tx2 e2 n2 r w' := by
  subst ht; subst he; subst hn; exact h

theorem readLineLoop_post (ts : Nat) : ∀ (fuel tw : Nat) (cr : Bool) (w : State),
    w.bufcnt ≤ UNBBEE_BUFLEN → UNBBEE_BUFLEN < w.buffer.length →
    readLineLoop ts fuel tw cr w ≠ .error Err.oob ∧
    ∀ r w', readLineLoop ts fuel tw cr w = .ok (r, w') →
      ReadLinePost w.tx w.echoOff w.buffer.length r w' := by
  intro fuel
  induction fuel with
  | zero =>
    intro tw cr w _ _
    simp [readLineLoop]
  | succ n ih =>
    intro tw cr w hc hl
    rw [readLineLoop]
    by_cases h1 : (isTimedOut ts w).1 = true
    · rw [if_pos h1]
      refine ⟨by simp, ?_⟩
      intro r w' h
      simp only [Except.ok.injEq, Prod.mk.injEq] at h
      obtain ⟨hr, hw⟩ := h
      subst hw; subst hr
      obtain ⟨e1, e2, e3, e4⟩ := same_isTimedOut ts w
      exact ⟨e1, e2, by rw [e3], by rw [e4]; exact hc, Or.inl rfl⟩
    · rw [if_neg h1]
      dsimp only
      have s2 : Same w (wdt_reset (isTimedOut ts w).2) :=
        (same_isTimedOut ts w).trans (same_wdt_reset _)
      generalize wdt_reset (isTimedOut ts w).2 = w2 at s2 ⊢
      have spk : Same w (if cr = true then lineEnded tw w2 else (false, w2)).2 := by
        cases cr
        · exact s2
        · exact s2.trans (same_lineEnded tw w2)
      generalize (if cr = true then lineEnded tw w2 else (false, w2)) = pk at spk ⊢
      by_cases h2 : pk.1 = true
      · rw [if_pos h2]
        exact readLineOk_post w pk.2 spk hc hl
      · rw [if_neg h2]
        have s4 : Same w (streamRead pk.2).2 := spk.trans (same_streamRead _)
        generalize hc4 : (streamRead pk.2).1 = c
        generalize (streamRead pk.2).2 = w4 at s4 ⊢
        obtain ⟨e1, e2, e3, e4⟩ := s4
        by_cases h3 : c < 0
        · rw [if_pos h3]
          have hh := ih tw cr w4 (by rw [e4]; exact hc) (by rw [e3]; exact hl)
          exact ⟨hh.1, fun r w' h => (hh.2 r w' h).congr e1 e2 (by rw [e3])⟩
        · rw [if_neg h3]
          by_cases h4 : c = 13
          · rw [if_pos h4]
            have hh := ih (((millis w4).1 + 50) % 2 ^ 32) true (millis w4).2
              (by show w4.bufcnt ≤ _; rw [e4]; exact hc)
              (by show _ < w4.buffer.length; rw [e3]; exact hl)
            exact ⟨hh.1, fun r w' h => (hh.2 r w' h).congr e1 e2
              (by show w4.buffer.length = _; rw [e3])⟩
          · rw [if_neg h4]
            by_cases h5 : c = 10
            · rw [if_pos h5]
              exact readLineOk_post w w4 ⟨e1, e2, e3, e4⟩ hc hl
            · rw [if_neg h5]
              unfold storeChar
              by_cases h6 : w4.bufcnt < UNBBEE_BUFLEN
              · have h7 : w4.bufcnt < w4.buffer.length := by rw [e3]; omega
                simp only [h6, if_true, arraySet, h7]
                have hh := ih tw false
                  { w4 with buffer := w4.buffer.set w4.bufcnt (toChar c), bufcnt := w4.bufcnt + 1 }
                  (by show w4.bufcnt + 1 ≤ _; omega)
                  (by show _ < (w4.buffer.set _ _).length; rw [List.length_set, e3]; exact hl)
                exact ⟨hh.1, fun r w' h => (hh.2 r w' h).congr e1 e2
                  (by show (w4.buffer.set _ _).length = _; rw [List.length_set, e3])⟩
              · simp only [h6, if_false]
                have hh := ih tw false w4 (by rw [e4]; exact hc) (by rw [e3]; exact hl)
                exact ⟨hh.1, fun r w' h => (hh.2 r w' h).congr e1 e2 (by rw [e3])⟩

theorem readLine_post (fuel ts : Nat) (w : State) (hl : UNBBEE_BUFLEN < w.buffer.length) :
    readLine fuel ts w ≠ .error Err.oob ∧
    ∀ r w', readLine fuel ts w = .ok (r, w') →
      ReadLinePost w.tx w.echoOff w.buffer.length r w' :=
  readLineLoop_post ts fuel 0 false { w with bufcnt := 0 } (Nat.zero_le _) hl

theorem waitForOKLoop_post (lf ts : Nat) : ∀ (fuel : Nat) (w : State),
    UNBBEE_BUFLEN < w.buffer.length →
    waitForOKLoop lf ts fuel w ≠ .error Err.oob ∧
    ∀ b w', waitForOKLoop lf ts fuel w = .ok (b, w') →
      w'.tx = w.tx ∧ w'.echoOff = w.echoOff ∧ w'.buffer.length = w.buffer.length := by
  intro fuel
  induction fuel with
  | zero => intro w _; simp [waitForOKLoop]
  | succ n ih =>
    intro w hl
    have hp := readLine_post lf ts w hl
    rw [waitForOKLoop]
    cases hr : readLine lf ts w with
    | error e =>
      refine ⟨?_, by simp⟩
      intro h
      simp only [Except.error.injEq] at h
      exact hp.1 (by rw [hr, h])
    | ok x =>
      obtain ⟨len, w1⟩ := x
      obtain ⟨e1, e2, e3, _, _⟩ := hp.2 len w1 hr
      have hh := ih w1 (by rw [e3]; exact hl)
      have hh' : waitForOKLoop lf ts n w1 ≠ .error Err.oob ∧
          ∀ b w', waitForOKLoop lf ts n w1 = .ok (b, w') →
            w'.tx = w.tx ∧ w'.echoOff = w.echoOff ∧ w'.buffer.length = w.buffer.length :=
        ⟨hh.1, fun b w' h => by
          obtain ⟨a1, a2, a3⟩ := hh.2 b w' h
          exact ⟨a1.trans e1, a2.trans e2, a3.trans e3⟩⟩
      have hret : ∀ (c : Bool), (Except.ok (c, w1) : Except Err (Bool × State)) ≠ .error Err.oob ∧
          ∀ b w', (Except.ok (c, w1) : Except Err (Bool × State)) = .ok (b, w') →
            w'.tx = w.tx ∧ w'.echoOff = w.echoOff ∧ w'.buffer.length = w.buffer.length := by
        intro c
        refine ⟨by simp, ?_⟩
        intro b w' h
        simp only [Except.ok.injEq, Prod.mk.injEq] at h
        rw [← h.2]
        exact ⟨e1, e2, e3⟩
      dsimp only
      split
      · split
        · exact hh'
        · split
          · exact hret true
          · split
            · exact hret false
            · exact hh'
      · exact hret false

theorem waitForOK_post (fuel timeout : Nat) (w : State) (hl : UNBBEE_BUFLEN < w.buffer.length) :
    waitForOK fuel timeout w ≠ .error Err.oob ∧
    ∀ b w', waitForOK fuel timeout w = .ok (b, w') →
      w'.tx = w.tx ∧ w'.echoOff = w.echoOff ∧ w'.buffer.length = w.buffer.length :=
  waitForOKLoop_post fuel (deadline timeout w) fuel (millis w).2 hl

theorem same_flushInputLoop : ∀ (n : Nat) (w : State), Same w (flushInputLoop n w) := by
  intro n
  induction n with
  | zero => intro w; exact same_streamRead w
  | succ n ih =>
    intro w
    rw [flushInputLoop]
    split
    · exact (same_streamRead w).trans (ih _)
    · exact same_streamRead w

theorem same_sendCommandProlog (w : State) : Same w (sendCommandProlog w) := by
  unfold sendCommandProlog flushInput
  rw [mydelay_50]
  exact same_flushInputLoop _ w

theorem sendCommandEpilog_tx (w : State) : (sendCommandEpilog w).tx = w.tx ++ [13] := rfl

theorem sendCommandAdd_tx (f : Fragment) (w : State) :
    (sendCommandAdd f w).tx = w.tx ++ f.bytes := by
  simp [sendCommandAdd, streamPrintAll_eq]

theorem sendCommand_tx (cmd : List Byte) (w : State) :
    (sendCommand cmd w).tx = w.tx ++ cstr cmd ++ [13] := by
  rw [sendCommand, sendCommandEpilog_tx, sendCommandAdd_tx, (same_sendCommandProlog w).1]
  rfl

theorem sendCommand_P_tx (cmd : List Byte) (w : State) :
    (sendCommand_P cmd w).tx = w.tx ++ cstr cmd ++ [13] := by
  rw [sendCommand_P, sendCommandEpilog_tx, sendCommandAdd_tx, (same_sendCommandProlog w).1]
  rfl

theorem sendCommand_P_buffer (cmd : List Byte) (w : State) :
    (sendCommand_P cmd w).buffer = w.buffer := by
  simp only [sendCommand_P, sendCommandEpilog, sendCommandAdd, streamPrintAll_eq, streamPrint]
  exact (same_sendCommandProlog w).2.2.1

theorem switchEchoOff_length (fuel : Nat) (w w1 : State) (hl : UNBBEE_BUFLEN < w.buffer.length)
    (h : switchEchoOff fuel w = .ok w1) : w1.buffer.length = w.buffer.length := by
  unfold switchEchoOff at h
  cases he : w.echoOff with
  | true =>
    simp [he] at h
    rw [← h]
  | false =>
    simp only [he, Bool.not_false, if_true] at h
    cases hw : sendCommandWaitForOK_P fuel strATE0 4000 w with
    | error e => rw [hw] at h; simp at h
    | ok x =>
      obtain ⟨b, w2⟩ := x
      rw [hw] at h
      have hb := (waitForOK_post fuel 4000 (sendCommand_P strATE0 w)
        (by rw [sendCommand_P_buffer]; exact hl)).2 b w2 hw
      have h3 : w2.buffer.length = w.buffer.length := by
        rw [hb.2.2, sendCommand_P_buffer]
      cases b
      · simp at h; rw [← h]; exact h3
      · simp at h; rw [← h]; exact h3

theorem expired_before (T d e : Nat) (hd : d < 2 ^ 31) (he : e < d) :
    expired ((T % 2 ^ 32 + d) % 2 ^ 32) (T + e) = false := by
  unfold expired toLong sub32
  simp only [decide_eq_false_iff_not, ge_iff_le, not_le]
  norm_num at hd ⊢
  split <;> omega

theorem deadline_eq (timeout : Nat) (w : State) :
    deadline timeout w = (w.now % 2 ^ 32 + timeout % 2 ^ 16) % 2 ^ 32 := rfl

theorem copy_cstr (reply v buf : List Byte) (size : Nat)
    (h1 : 1 ≤ size) (h2 : size ≤ reply.length) (h3 : size < 2 ^ 16) (hb : cstr buf = v) :
    ∃ r, copyReply reply buf size = .ok r ∧
      cstr r = v.take (size - 1) ∧ r.length = reply.length := by
  have hn : sizeMinusOne size = size - 1 := by
    unfold sizeMinusOne
    norm_num at h3 ⊢
    omega
  unfold copyReply
  rw [hn]
  have hle : size - 1 ≤ reply.length := by omega
  have hk : ((cstr buf).take (size - 1)).length ≤ size - 1 := by
    rw [List.length_take]; exact Nat.min_le_left _ _
  simp only [strncpy, hle, if_true, arraySet]
  have hlen1 : (((cstr buf).take (size - 1) ++
      List.replicate (size - 1 - ((cstr buf).take (size - 1)).length) 0) ++
      reply.drop (size - 1)).length = reply.length := by
    simp only [List.length_append, List.length_replicate, List.length_drop]
    omega
  have hlt : size - 1 < reply.length := by omega
  rw [if_pos (by rw [hlen1]; exact hlt)]
  refine ⟨_, rfl, ?_, by rw [List.length_set, hlen1]⟩
  rw [set_eq_take_append _ _ _ (by rw [hlen1]; exact hlt)]
  have ht : (((cstr buf).take (size - 1) ++
      List.replicate (size - 1 - ((cstr buf).take (size - 1)).length) 0) ++
      reply.drop (size - 1)).take (size - 1) =
      (cstr buf).take (size - 1) ++
      List.replicate (size - 1 - ((cstr buf).take (size - 1)).length) 0 := by
    rw [List.take_append_of_le_length (by
      simp only [List.length_append, List.length_replicate]; omega)]
    apply List.take_of_length_le
    simp only [List.length_append, List.length_replicate]; omega
  rw [ht, List.append_assoc]
  generalize hz : size - 1 - ((cstr buf).take (size - 1)).length = z
  have hnn : ∀ b ∈ (cstr buf).take (size - 1), b ≠ 0 :=
    fun b hb => cstr_no_nul buf b (List.mem_of_mem_take hb)
  rw [← hb]
  cases z with
  | zero =>
    simp only [List.replicate_zero, List.nil_append]
    rw [cstr_append_nul, cstr_of_no_nul _ hnn]
  | succ z =>
    simp only [List.replicate_succ, List.cons_append]
    rw [cstr_append_nul, cstr_of_no_nul _ hnn]

theorem getStrValue_reply (fuel p size ts_max : Nat) (cmd v reply : List Byte)
    (stale later : List (Nat × Byte)) (w : State)
    (hlen : w.buffer.length = UNBBEE_BUFLEN + 1)
    (hrx : w.rx = stale ++ later)
    (hstale : ∀ x ∈ stale, x.1 ≤ w.now)
    (hnew : ∀ x ∈ later, w.now < x.1)
    (hlater : later.map Prod.snd = v ++ [13, 10] ++ strOK ++ [13, 10])
    (hv0 : v ≠ []) (hv : ∀ b ∈ v, b ≠ 13 ∧ b ≠ 10 ∧ b ≠ 0) (hv64 : v.length ≤ 64)
    (h1 : 1 ≤ size) (h2 : size ≤ reply.length) (h3 : size < 2 ^ 16)
    (hpoll : ∀ k, k < p → ∀ x ∈ later.head?, clockAt (sendCommand cmd w) (k + 1) < x.1)
    (harr : ∀ x ∈ later, x.1 ≤ clockAt (sendCommand cmd w) (p + 1))
    (hts : ∀ k, k ≤ p + v.length + 2 → expired ts_max (clockAt (sendCommand cmd w) k) = false)
    (hts2 : clockAt (sendCommand cmd w) (p + v.length + 8) <
      clockAt (sendCommand cmd w) (p + v.length + 3) + 4000)
    (hfuel : p + v.length + 4 ≤ fuel) :
    ∃ r w', getStrValue fuel cmd reply size ts_max w = .ok (true, r, w') ∧
      cstr r = v.take (size - 1) ∧ r.length = reply.length ∧
      w'.rx = [] ∧ w'.tx = w.tx ++ cstr cmd ++ [13] := by
  have hl : UNBBEE_BUFLEN < w.buffer.length := by rw [hlen]; exact Nat.lt_succ_self _
  have hsc := sendCommand_eq cmd stale later w hrx hstale
    (fun x hx => hnew x (List.mem_of_mem_head? hx))
  generalize hW : sendCommand cmd w = W at hsc hpoll harr hts hts2
  have hWrx : W.rx = later := by rw [hsc]
  have hWbuf : W.buffer = w.buffer := by rw [hsc]
  have hWtx : W.tx = w.tx ++ cstr cmd ++ [13] := by rw [hsc]
  have hlW : UNBBEE_BUFLEN < W.buffer.length := by rw [hWbuf]; exact hl
  -- the value line
  have hline := readLine_crlf ts_max p v (fuel - (p + v.length + 2)) W (strOK ++ [13, 10])
    (by rw [hWrx, hlater]; simp)
    (fun k hk x hx => hpoll k hk x (by rw [← hWrx]; exact hx))
    (fun x hx => harr x (by rw [← hWrx]; exact List.mem_of_mem_take hx))
    (fun b hb => ⟨(hv b hb).1, (hv b hb).2.1⟩)
    (fun k hk => hts k (by omega)) (hts _ (Nat.le_refl _)) hlW
  have e : p + v.length + 2 + (fuel - (p + v.length + 2)) = fuel := by omega
  rw [e] at hline
  have hmin : min UNBBEE_BUFLEN v.length = v.length :=
    Nat.min_eq_right (by simpa [UNBBEE_BUFLEN] using hv64)
  rw [hmin] at hline
  have hvpos : 0 < v.length := List.length_pos.mpr hv0
  generalize hW2 : afterLine p v W = W2 at hline
  have hW2buf : cstr W2.buffer = v := by
    rw [← hW2, cstr_afterLine p v W hlW, List.take_of_length_le (by simpa [UNBBEE_BUFLEN] using hv64)]
    exact cstr_of_no_nul v (fun b hb => (hv b hb).2.2)
  obtain ⟨r, hr, hcr, hrl⟩ := copy_cstr reply v W2.buffer size h1 h2 h3 hW2buf
  have hloop : getStrValueLoop fuel size ts_max fuel reply W = .ok ((v.length : Int), r, W2) := by
    have ef : fuel = (fuel - 1) + 1 := by omega
    rw [ef, getStrValueLoop, ← ef, hline]
    have g0 : ((v.length : Nat) : Int) ≥ 0 := Int.natCast_nonneg _
    have g1 : ¬ (((v.length : Nat) : Int) = 0) := by omega
    simp only [g0, if_true, g1, if_false]
    rw [hr]
  -- the line "OK"
  have hW2rx : W2.rx.map Prod.snd = wire ([] ++ [strOK]) ++ [] := by
    rw [← hW2, afterLine_rx, List.map_drop, hWrx, hlater]
    simp [wire]
  have hW2ck : ∀ k, clockAt W2 k = clockAt W (p + v.length + 3 + k) := by
    intro k; rw [← hW2, afterLine_clockAt]
  have hok := waitForOK_verdict fuel 4000 [] strOK [] true W2
    (by rw [← hW2, afterLine_length]; exact hlW)
    (fun l hl => absurd hl (List.not_mem_nil l)) verdict_OK (by decide) hW2rx
    (by
      intro x hx
      have hx1 : x ∈ W2.rx := List.mem_of_mem_take hx
      rw [← hW2, afterLine_rx, hWrx] at hx1
      rw [hW2ck]
      exact le_trans (harr x (List.mem_of_mem_drop hx1)) (clockAt_mono W (by omega)))
    (by
      intro k hk1 hk2
      have hk3 : k ≤ 5 := by simpa [wire, strOK] using hk2
      rw [deadline_eq, hW2ck]
      have hnow : W2.now = clockAt W (p + v.length + 3) := by
        rw [← clockAt_zero W2, hW2ck]
      rw [hnow]
      have hm1 : clockAt W (p + v.length + 3) ≤ clockAt W (p + v.length + 3 + k) :=
        clockAt_mono W (by omega)
      have hm2 : clockAt W (p + v.length + 3 + k) ≤ clockAt W (p + v.length + 8) :=
        clockAt_mono W (by omega)
      obtain ⟨e, he⟩ := Nat.exists_eq_add_of_le hm1
      rw [he]
      exact expired_before _ 4000 e (by norm_num) (by omega))
    (by simp [wire, strOK]; omega)
  refine ⟨r, afterLine 0 strOK (afterLines [] (millis W2).2), ?_, hcr, hrl, ?_, ?_⟩
  · unfold getStrValue
    rw [hW, hloop]
    have g2 : ¬ (((v.length : Nat) : Int) < 0) := by omega
    simp only [g2, if_false, hok]
  · rw [afterLine_rx]
    simp only [afterLines]
    show List.drop _ W2.rx = []
    apply List.drop_of_length_le
    have : W2.rx.length = 4 := by
      have := congrArg List.length hW2rx
      simpa [wire, strOK] using this
    rw [this]; simp [strOK]
  · rw [afterLine_tx]
    simp only [afterLines]
    show W2.tx = _
    rw [← hW2, afterLine_tx, hWtx]

theorem afterWaits_clockAt (q : Nat) (w : State) (k : Nat) :
    clockAt (afterWaits q w) k = clockAt w (2 * q + k) := by
  induction q generalizing w with
  | zero => simp [afterWaits]
  | succ q ih =>
    simp only [afterWaits, ih, afterWait_clockAt]
    congr 1; omega

theorem afterWaits_rx (q : Nat) (w : State) : (afterWaits q w).rx = w.rx := by
  induction q generalizing w with
  | zero => rfl
  | succ q ih => simp only [afterWaits, ih]; rfl

theorem afterWaits_buffer (q : Nat) (w : State) : (afterWaits q w).buffer = w.buffer := by
  induction q generalizing w with
  | zero => rfl
  | succ q ih => simp only [afterWaits, ih]; rfl

theorem afterWaits_bufcnt (q : Nat) (w : State) : (afterWaits q w).bufcnt = w.bufcnt := by
  induction q generalizing w with
  | zero => rfl
  | succ q ih => simp only [afterWaits, ih]; rfl

theorem loop_waits (ts tw : Nat) (q f : Nat) (w : State)
    (hq : ∀ j, j < q → quietAt (clockAt w (2 * j + 2)) w)
    (htw : ∀ j, j < q → expired tw (clockAt w (2 * j + 1)) = false)
    (hts : ∀ j, j < q → expired ts (clockAt w (2 * j)) = false) :
    readLineLoop ts (q + f) tw true w = readLineLoop ts f tw true (afterWaits q w) := by
  induction q generalizing w with
  | zero => simp [afterWaits]
  | succ q ih =>
    have e : q + 1 + f = (q + f) + 1 := by omega
    have h0 : expired ts w.now = false := by
      have := hts 0 (by omega); rwa [clockAt_zero] at this
    rw [e, loop_wait ts _ tw w (hq 0 (by omega)) (htw 0 (by omega)) h0]
    simp only [afterWaits]
    apply ih
    · intro j hj
      rw [afterWait_clockAt]
      intro x hx
      have := hq (j + 1) (by omega) x hx
      have e2 : 2 * (j + 1) + 2 = 2 * j + 2 + 2 := by omega
      rwa [e2] at this
    · intro j hj
      rw [afterWait_clockAt]
      have := htw (j + 1) (by omega)
      have e2 : 2 * (j + 1) + 1 = 2 * j + 1 + 2 := by omega
      rwa [e2] at this
    · intro j hj
      rw [afterWait_clockAt]
      have := hts (j + 1) (by omega)
      have e2 : 2 * (j + 1) = 2 * j + 2 := by omega
      rwa [e2] at this

theorem lineCR_clockAt (s : List Byte) (w : State) (k : Nat) :
    clockAt (lineCR s w) k = clockAt w (s.length + 2 + k) := by
  unfold lineCR
  rw [afterCR_clockAt, afterBytes_clockAt]
  have h2 : clockAt { w with bufcnt := 0 } (s.length + (k + 2)) =
      clockAt w (s.length + (k + 2)) := clockAt_congr rfl rfl _
  rw [h2]
  congr 1; omega

theorem lineCR_rx (s : List Byte) (w : State) : (lineCR s w).rx = w.rx.drop (s.length + 1) := by
  show (afterBytes s { w with bufcnt := 0 }).rx.tail = _
  rw [afterBytes_rx]
  simp [List.drop_tail]

theorem lineCR_bufcnt (s : List Byte) (w : State) :
    (lineCR s w).bufcnt = min UNBBEE_BUFLEN s.length := afterLine_bufcnt 0 s w

theorem lineCR_length (s : List Byte) (w : State) :
    (lineCR s w).buffer.length = w.buffer.length := by
  show (afterBytes s { w with bufcnt := 0 }).buffer.length = _
  rw [afterBytes_length]

theorem lineCR_terminated (s : List Byte) (w X : State)
    (hlen : UNBBEE_BUFLEN < w.buffer.length)
    (hb : X.buffer = (lineCR s w).buffer) (hc : X.bufcnt = (lineCR s w).bufcnt) :
    X.buffer.set X.bufcnt 0 =
      s.take UNBBEE_BUFLEN ++ 0 :: w.buffer.drop (min UNBBEE_BUFLEN s.length + 1) := by
  rw [hb, hc]
  exact afterLine_buffer 0 s w hlen

theorem readLine_to_cr (ts : Nat) (s : List Byte) (f : Nat) (w : State) (rest : List Byte)
    (hrx : w.rx.map Prod.snd = s ++ 13 :: rest)
    (harr : ∀ x ∈ w.rx.take (s.length + 1), x.1 ≤ clockAt w 1)
    (hs : ∀ b ∈ s, b ≠ 13 ∧ b ≠ 10)
    (hts : ∀ k, k ≤ s.length → expired ts (clockAt w k) = false)
    (hlen : UNBBEE_BUFLEN < w.buffer.length) :
    readLine (s.length + 1 + f) ts w = readLineLoop ts f (waitLF s w) true (lineCR s w) := by
  unfold readLine
  have e : s.length + 1 + f = s.length + (f + 1) := by omega
  rw [e, loop_bytes ts 0 s _ { w with bufcnt := 0 } (13 :: rest) hrx
    (fun x hx => harr x (mem_take_of_le _ (by omega) x hx)) hs
    (fun k hk => hts k (by omega)) (Nat.le_of_lt hlen)]
  generalize hw1 : afterBytes s { w with bufcnt := 0 } = w1
  have hw1rx : w1.rx = w.rx.drop s.length := by rw [← hw1, afterBytes_rx]
  have hw1ck : ∀ k, clockAt w1 k = clockAt w (s.length + k) := by
    intro k
    rw [← hw1, afterBytes_clockAt]
    exact clockAt_congr rfl rfl _
  have hd : (w.rx.drop s.length).map Prod.snd = 13 :: rest := by
    rw [List.map_drop, hrx]; simp
  cases hx : w.rx.drop s.length with
  | nil => simp [hx] at hd
  | cons x tl =>
    obtain ⟨a, c⟩ := x
    simp only [hx, List.map_cons, List.cons.injEq] at hd
    obtain ⟨hc, _⟩ := hd
    subst hc
    have hmem : (a, (13 : Byte)) ∈ w.rx.take (s.length + 1) := by
      apply mem_take_drop
      rw [hx]; simp
    have ha : a ≤ clockAt w1 1 := by
      rw [hw1ck]
      exact le_trans (harr _ hmem) (clockAt_mono w (by omega))
    have h0 : expired ts w1.now = false := by
      rw [← clockAt_zero, hw1ck]; exact hts _ (by omega)
    rw [loop_cr ts f 0 w1 a tl (by rw [hw1rx, hx]) ha h0, hw1ck]
    simp only [lineCR, waitLF, hw1]

theorem take_succ_append_cons {α : Type} (t : List α) (x : α) (r : List α) :
    (t ++ x :: r).take (t.length + 1) = t ++ [x] := by
  induction t with
  | nil => simp
  | cons y ys ih => simp [ih]

theorem mydelayLoop_enough : ∀ (fuel nrMillis : Nat) (w : State), nrMillis / 10 ≤ fuel →
    mydelayLoop fuel nrMillis w = mydelay nrMillis w := by
  intro fuel
  induction fuel with
  | zero =>
    intro n w h
    have h0 : n / 10 = 0 := Nat.le_zero.mp h
    simp [mydelay, h0]
  | succ f ih =>
    intro n w h
    by_cases hn : n > 10
    · have e : n / 10 = (n - 10) / 10 + 1 := by omega
      rw [mydelayLoop, if_pos hn, ih (n - 10) _ (by omega)]
      simp only [mydelay, e]
      rw [mydelayLoop, if_pos hn]
    · rw [mydelayLoop, if_neg hn]
      unfold mydelay
      cases hq : n / 10 with
      | zero => rfl
      | succ q => rw [mydelayLoop, if_neg hn]

theorem flushInputLoop_enough : ∀ (fuel : Nat) (w : State), w.rx.length ≤ fuel →
    flushInputLoop fuel w = flushInput w := by
  intro fuel
  induction fuel with
  | zero =>
    intro w h
    have h0 : w.rx.length = 0 := Nat.le_zero.mp h
    simp [flushInput, h0]
  | succ f ih =>
    intro w h
    unfold flushInput
    cases hrx : w.rx with
    | nil =>
      have hr : streamRead w = (-1, { w with log := w.log ++ [Ev.read (-1)] }) := by
        simp [streamRead, hrx]
      simp [flushInputLoop, hr]
    | cons x tl =>
      obtain ⟨a, b⟩ := x
      by_cases ha : a ≤ w.now
      · have hr := streamRead_avail w a b tl hrx ha
        have h0 : ((b.val : Int) ≥ 0) := by omega
        have hlen : tl.length ≤ f := by rw [hrx] at h; simpa using h
        simp only [List.length_cons, flushInputLoop, hr, h0, if_true]
        rw [ih _ (by exact hlen)]
        rfl
      · have hr : streamRead w = (-1, { w with log := w.log ++ [Ev.read (-1)] }) := by
          simp [streamRead, hrx, ha]
        simp [flushInputLoop, hr]

theorem mydelayLog_small (n : Nat) (h : ¬ n > 10) : mydelayLog n = [Ev.delay n] := by
  have h0 : (n - 1) / 10 = 0 := by omega
  simp [mydelayLog, h0]

theorem mydelayLog_large (n : Nat) (h : n > 10) :
    mydelayLog n = Ev.wdt_reset :: Ev.delay 10 :: mydelayLog (n - 10) := by
  have h1 : (n - 1) / 10 = (n - 10 - 1) / 10 + 1 := by omega
  have h2 : n - 10 * ((n - 10 - 1) / 10 + 1) = n - 10 - 10 * ((n - 10 - 1) / 10) := by omega
  unfold mydelayLog
  rw [h1, h2, List.replicate_succ, List.flatten_cons]
  rfl

theorem mydelayLoop_eq : ∀ (fuel n : Nat) (w : State), n / 10 ≤ fuel →
    mydelayLoop fuel n w = { w with now := w.now + n, log := w.log ++ mydelayLog n } := by
  intro fuel
  induction fuel with
  | zero =>
    intro n w h
    have hn : ¬ n > 10 := by omega
    simp [mydelayLoop, delay, mydelayLog_small n hn]
  | succ f ih =>
    intro n w h
    by_cases hn : n > 10
    · rw [mydelayLoop, if_pos hn, ih (n - 10) _ (by omega), mydelayLog_large n hn]
      have e : w.now + 10 + (n - 10) = w.now + n := by omega
      simp [delay, wdt_reset, e]
    · rw [mydelayLoop, if_neg hn, mydelayLog_small n hn]
      rfl

theorem mydelay_eq (n : Nat) (w : State) :
    mydelay n w = { w with now := w.now + n, log := w.log ++ mydelayLog n } :=
  mydelayLoop_eq (n / 10) n w (Nat.le_refl _)

theorem delayArgs_mydelayLog : ∀ (k n : Nat), n ≤ 10 * k + 10 →
    (delayArgs (mydelayLog n)).sum = n ∧ ∀ d ∈ delayArgs (mydelayLog n), d ≤ 10 := by
  intro k
  induction k with
  | zero =>
    intro n h
    have hn : ¬ n > 10 := by omega
    rw [mydelayLog_small n hn]
    simp only [delayArgs, List.sum_cons, List.sum_nil, List.mem_singleton]
    exact ⟨by omega, fun d hd => by omega⟩
  | succ k ih =>
    intro n h
    by_cases hn : n > 10
    · rw [mydelayLog_large n hn]
      obtain ⟨h1, h2⟩ := ih (n - 10) (by omega)
      simp only [delayArgs, List.sum_cons, List.mem_cons]
      refine ⟨by omega, ?_⟩
      intro d hd
      rcases hd with hd | hd
      · omega
      · exact h2 d hd
    · rw [mydelayLog_small n hn]
      simp only [delayArgs, List.sum_cons, List.sum_nil, List.mem_singleton]
      exact ⟨by omega, fun d hd => by omega⟩

theorem readLine_expired (fuel ts : Nat) (w : State) (h : (isTimedOut ts w).1 = true) :
    readLine (fuel + 1) ts w =
      .ok (-1, { w with bufcnt := 0, now := w.now + w.ticks.headD 0, ticks := w.ticks.tail }) := by
  unfold readLine
  rw [loop_timeout ts fuel 0 false { w with bufcnt := 0 } h]
  rfl

theorem expired_after (T d e : Nat) (hde : d ≤ e) (he : e - d < 2 ^ 31) :
    expired ((T % 2 ^ 32 + d) % 2 ^ 32) (T + e) = true := by
  unfold expired toLong sub32
  simp only [decide_eq_true_eq, ge_iff_le]
  norm_num at he ⊢
  split <;> omega

theorem waitForOKLoop_expired (lf ts n : Nat) (w : State) (h : (isTimedOut ts w).1 = true) :
    waitForOKLoop (lf + 1) ts (n + 1) w =
      .ok (false,
        { w with bufcnt := 0, now := w.now + w.ticks.headD 0, ticks := w.ticks.tail }) := by
  rw [waitForOKLoop, readLine_expired lf ts w h]
  rfl

theorem same_sendCommand (cmd : List Byte) (w : State) :
    (sendCommand cmd w).echoOff = w.echoOff ∧ (sendCommand cmd w).buffer = w.buffer ∧
      (sendCommand cmd w).bufcnt = w.bufcnt := by
  simp only [sendCommand, sendCommandEpilog, sendCommandAdd, streamPrintAll_eq, streamPrint]
  exact ⟨(same_sendCommandProlog w).2.1, (same_sendCommandProlog w).2.2.1,
    (same_sendCommandProlog w).2.2.2⟩

theorem same_sendCommand_P (cmd : List Byte) (w : State) :
    (sendCommand_P cmd w).echoOff = w.echoOff ∧ (sendCommand_P cmd w).buffer = w.buffer ∧
      (sendCommand_P cmd w).bufcnt = w.bufcnt := by
  simp only [sendCommand_P, sendCommandEpilog, sendCommandAdd, streamPrintAll_eq, streamPrint]
  exact ⟨(same_sendCommandProlog w).2.1, (same_sendCommandProlog w).2.2.1,
    (same_sendCommandProlog w).2.2.2⟩

theorem switchEchoOff_on (fuel : Nat) (w : State) (h : w.echoOff = true) :
    switchEchoOff fuel w = .ok w := by
  simp [switchEchoOff, h]

theorem switchEchoOff_off (fuel : Nat) (w w' : State) (hl : UNBBEE_BUFLEN < w.buffer.length)
    (h : w.echoOff = false) (hs : switchEchoOff fuel w = .ok w') :
    ∃ r w1, waitForOK fuel 4000 (sendCommand_P strATE0 w) = .ok (r, w1) ∧
      w' = { w1 with echoOff := r } ∧ w1.echoOff = false ∧
      w1.tx = w.tx ++ strATE0 ++ [13] ∧ w1.buffer.length = w.buffer.length := by
  unfold switchEchoOff at hs
  simp only [h, Bool.not_false, if_true] at hs
  unfold sendCommandWaitForOK_P at hs
  cases hw : waitForOK fuel 4000 (sendCommand_P strATE0 w) with
  | error e => rw [hw] at hs; simp at hs
  | ok x =>
    obtain ⟨r, w1⟩ := x
    rw [hw] at hs
    have hb := (waitForOK_post fuel 4000 (sendCommand_P strATE0 w)
      (by rw [sendCommand_P_buffer]; exact hl)).2 r w1 hw
    have he : w1.echoOff = false := by rw [hb.2.1, (same_sendCommand_P strATE0 w).1, h]
    have ht : w1.tx = w.tx ++ strATE0 ++ [13] := by
      rw [hb.1, sendCommand_P_tx]; rfl
    refine ⟨r, w1, rfl, ?_, he, ht, by rw [hb.2.2, sendCommand_P_buffer]⟩
    cases r
    · simp only [Bool.not_false, if_true, Except.ok.injEq] at hs
      rw [← hs]
      cases w1
      simp only at he
      simp [he]
    · simp only [Bool.not_true, Bool.false_eq_true, if_false, Except.ok.injEq] at hs
      rw [← hs]

theorem switchEchoOff_post (fuel : Nat) (w w' : State) (hl : UNBBEE_BUFLEN < w.buffer.length)
    (hs : switchEchoOff fuel w = .ok w') :
    w'.buffer.length = w.buffer.length ∧ (w.echoOff = true → w'.echoOff = true) ∧
      (w'.tx = w.tx ∨ w'.tx = w.tx ++ strATE0 ++ [13]) := by
  cases he : w.echoOff with
  | true =>
    rw [switchEchoOff_on fuel w he] at hs
    simp only [Except.ok.injEq] at hs
    rw [← hs]
    exact ⟨rfl, fun _ => he, Or.inl rfl⟩
  | false =>
    obtain ⟨r, w1, _, hw', _, ht, hbl⟩ := switchEchoOff_off fuel w w' hl he hs
    rw [hw']
    exact ⟨hbl, fun h => by simp at h, Or.inr ht⟩

theorem getStrValueLoop_post (lf size ts : Nat) : ∀ (n : Nat) (reply : List Byte) (w : State),
    UNBBEE_BUFLEN < w.buffer.length →
    ∀ len r w1, getStrValueLoop lf size ts n reply w = .ok (len, r, w1) →
      w1.tx = w.tx ∧ w1.echoOff = w.echoOff ∧ w1.buffer.length = w.buffer.length ∧
      len ≠ 0 ∧ (len < 0 → r = reply) ∧
      (0 < len → copyReply reply w1.buffer size = .ok r) ∧
      (∃ wl, wl.tx = w.tx ∧ readLine lf ts wl = .ok (len, w1)) := by
  intro n
  induction n with
  | zero => intro reply w _ len r w1 h; simp [getStrValueLoop] at h
  | succ n ih =>
    intro reply w hl len r w1 h
    have hp := readLine_post lf ts w hl
    rw [getStrValueLoop] at h
    cases hr : readLine lf ts w with
    | error e => rw [hr] at h; simp at h
    | ok x =>
      obtain ⟨len0, w0⟩ := x
      obtain ⟨e1, e2, e3, _, _⟩ := hp.2 len0 w0 hr
      rw [hr] at h
      dsimp only at h
      by_cases h0 : len0 ≥ 0
      · rw [if_pos h0] at h
        by_cases h1 : len0 = 0
        · rw [if_pos h1] at h
          obtain ⟨a1, a2, a3, a4, a5, a6, wl, a7, a8⟩ := ih reply w0 (by rw [e3]; exact hl) len r w1 h
          exact ⟨a1.trans e1, a2.trans e2, a3.trans e3, a4, a5, a6, wl, a7.trans e1, a8⟩
        · rw [if_neg h1] at h
          cases hc : copyReply reply w0.buffer size with
          | error e => rw [hc] at h; simp at h
          | ok r2 =>
            rw [hc] at h
            simp only [Except.ok.injEq, Prod.mk.injEq] at h
            obtain ⟨hlen, hr2, hw⟩ := h
            subst hlen; subst hr2; subst hw
            exact ⟨e1, e2, e3, h1, fun hneg => absurd hneg (by omega), fun _ => hc,
              w, rfl, hr⟩
      · rw [if_neg h0] at h
        simp only [Except.ok.injEq, Prod.mk.injEq] at h
        obtain ⟨hlen, hr2, hw⟩ := h
        subst hlen; subst hr2; subst hw
        exact ⟨e1, e2, e3, by omega, fun _ => rfl, fun hpos => absurd hpos (by omega),
          w, rfl, hr⟩

theorem getStrValue_post (fuel size ts : Nat) (cmd reply : List Byte) (w : State)
    (hl : UNBBEE_BUFLEN < w.buffer.length) :
    ∀ b r w', getStrValue fuel cmd reply size ts w = .ok (b, r, w') →
      w'.tx = w.tx ++ cstr cmd ++ [13] ∧ w'.echoOff = w.echoOff ∧
      w'.buffer.length = w.buffer.length := by
  intro b r w' h
  unfold getStrValue at h
  cases hg : getStrValueLoop fuel size ts fuel reply (sendCommand cmd w) with
  | error e => rw [hg] at h; simp at h
  | ok x =>
    obtain ⟨len, r1, w1⟩ := x
    rw [hg] at h
    dsimp only at h
    have hlW : UNBBEE_BUFLEN < (sendCommand cmd w).buffer.length := by
      rw [(same_sendCommand cmd w).2.1]; exact hl
    obtain ⟨a1, a2, a3, _⟩ := getStrValueLoop_post fuel size ts fuel reply _ hlW len r1 w1 hg
    rw [sendCommand_tx] at a1
    rw [(same_sendCommand cmd w).1] at a2
    rw [(same_sendCommand cmd w).2.1] at a3
    by_cases hneg : len < 0
    · rw [if_pos hneg] at h
      simp only [Except.ok.injEq, Prod.mk.injEq] at h
      rw [← h.2.2]
      exact ⟨a1, a2, a3⟩
    · rw [if_neg hneg] at h
      cases hw : waitForOK fuel 4000 w1 with
      | error e => rw [hw] at h; simp at h
      | ok y =>
        obtain ⟨b2, w2⟩ := y
        rw [hw] at h
        simp only [Except.ok.injEq, Prod.mk.injEq] at h
        rw [← h.2.2]
        obtain ⟨c1, c2, c3⟩ := (waitForOK_post fuel 4000 w1 (by rw [a3]; exact hl)).2 b2 w2 hw
        exact ⟨c1.trans a1, c2.trans a2, c3.trans a3⟩

theorem framed_fields (fs : List Fragment) (w : State) :
    (sendCommandEpilog (sendCommandAddAll fs (sendCommandProlog w))).echoOff = w.echoOff ∧
    (sendCommandEpilog (sendCommandAddAll fs (sendCommandProlog w))).buffer = w.buffer := by
  rw [sendCommandAddAll_eq]
  exact ⟨(same_sendCommandProlog w).2.1, (same_sendCommandProlog w).2.2.1⟩

theorem sendMessage_post (fuel : Nat) (msg : List Byte) (w : State)
    (hl : UNBBEE_BUFLEN < w.buffer.length) :
    ∀ r w', sendMessage fuel msg w = .ok (r, w') →
      (w.echoOff = true → w'.echoOff = true) ∧ w'.buffer.length = w.buffer.length := by
  intro r w' h
  unfold sendMessage at h
  cases hs : switchEchoOff fuel w with
  | error e => rw [hs] at h; simp at h
  | ok w1 =>
    rw [hs] at h
    dsimp only at h
    obtain ⟨p1, p2, _⟩ := switchEchoOff_post fuel w w1 hl hs
    have hf := framed_fields [Fragment.str_P strATSS, Fragment.str msg] w1
    simp only [sendCommandAddAll] at hf
    obtain ⟨c1, c2, c3⟩ := (waitForOK_post fuel 20000 _ (by rw [hf.2, p1]; exact hl)).2 r w' h
    exact ⟨fun he => by rw [c2, hf.1]; exact p2 he, by rw [c3, hf.2, p1]⟩

theorem getDeviceID_post (fuel buflen : Nat) (buffer : List Byte) (w : State)
    (hl : UNBBEE_BUFLEN < w.buffer.length) :
    ∀ b r w', getDeviceID fuel buffer buflen w = .ok (b, r, w') →
      (w.echoOff = true → w'.echoOff = true) ∧ w'.buffer.length = w.buffer.length := by
  intro b r w' h
  unfold getDeviceID at h
  cases hs : switchEchoOff fuel w with
  | error e => rw [hs] at h; simp at h
  | ok w1 =>
    rw [hs] at h
    dsimp only at h
    obtain ⟨p1, p2, _⟩ := switchEchoOff_post fuel w w1 hl hs
    obtain ⟨_, c2, c3⟩ := getStrValue_post fuel buflen _ strATI7 buffer (millis w1).2
      (by show _ < w1.buffer.length; rw [p1]; exact hl) b r w' h
    exact ⟨fun he => by rw [c2]; exact p2 he, by rw [c3]; exact p1⟩

theorem cstr_take_of_nul (l : List Byte) (n : Nat) (h : l.get? n = some 0) :
    cstr l = cstr (l.take n) := by
  induction l generalizing n with
  | nil => simp at h
  | cons a as ih =>
    cases n with
    | zero =>
      simp only [List.get?_cons_zero, Option.some.injEq] at h
      simp [cstr, h]
    | succ n =>
      simp only [List.get?_cons_succ] at h
      by_cases ha : a = 0
      · simp [cstr, ha]
      · simp [cstr, ha, ih n h]

theorem waitForOKLoop_result (lf ts : Nat) : ∀ (n : Nat) (w : State),
    UNBBEE_BUFLEN < w.buffer.length →
    ∀ b w', waitForOKLoop lf ts n w = .ok (b, w') →
      ∃ len wl, readLine lf ts wl = .ok (len, w') ∧
        (b = true → 0 < len ∧ len = (w'.bufcnt : Int) ∧
          cstr (w'.buffer.take w'.bufcnt) = strOK) ∧
        (b = false → len < 0 ∨ (0 < len ∧ len = (w'.bufcnt : Int) ∧
          cstr (w'.buffer.take w'.bufcnt) = strERROR)) := by
  intro n
  induction n with
  | zero => intro w _ b w' h; simp [waitForOKLoop] at h
  | succ n ih =>
    intro w hl b w' h
    have hp := readLine_post lf ts w hl
    rw [waitForOKLoop] at h
    cases hr : readLine lf ts w with
    | error e => rw [hr] at h; simp at h
    | ok x =>
      obtain ⟨len0, w0⟩ := x
      obtain ⟨_, _, e3, _, e5⟩ := hp.2 len0 w0 hr
      rw [hr] at h
      dsimp only at h
      by_cases h0 : len0 ≥ 0
      · rw [if_pos h0] at h
        have hcnt : len0 = (w0.bufcnt : Int) ∧ w0.buffer.get? w0.bufcnt = some 0 := by
          rcases e5 with h5 | h5
          · omega
          · exact h5
        have hcs : cstr w0.buffer = cstr (w0.buffer.take w0.bufcnt) :=
          cstr_take_of_nul _ _ hcnt.2
        have cOK : cstr strOK = strOK := by decide
        have cERR : cstr strERROR = strERROR := by decide
        by_cases h1 : len0 = 0
        · rw [if_pos h1] at h
          exact ih w0 (by rw [e3]; exact hl) b w' h
        · rw [if_neg h1] at h
          by_cases h2 : strcmp_P w0.buffer strOK = 0
          · rw [if_pos h2] at h
            simp only [Except.ok.injEq, Prod.mk.injEq] at h
            obtain ⟨hb, hw⟩ := h
            subst hb; subst hw
            rw [strcmp_P_eq_zero, cOK, hcs] at h2
            exact ⟨len0, w, hr, fun _ => ⟨by omega, hcnt.1, h2⟩, fun hf => by simp at hf⟩
          · rw [if_neg h2] at h
            by_cases h3 : strcmp_P w0.buffer strERROR = 0
            · rw [if_pos h3] at h
              simp only [Except.ok.injEq, Prod.mk.injEq] at h
              obtain ⟨hb, hw⟩ := h
              subst hb; subst hw
              rw [strcmp_P_eq_zero, cERR, hcs] at h3
              exact ⟨len0, w, hr, fun hf => by simp at hf,
                fun _ => Or.inr ⟨by omega, hcnt.1, h3⟩⟩
            · rw [if_neg h3] at h
              exact ih w0 (by rw [e3]; exact hl) b w' h
      · rw [if_neg h0] at h
        simp only [Except.ok.injEq, Prod.mk.injEq] at h
        obtain ⟨hb, hw⟩ := h
        subst hb; subst hw
        exact ⟨len0, w, hr, fun hf => by simp at hf, fun _ => Or.inl (by omega)⟩

theorem verdict_true_iff (l : List Byte) : verdict l = some true ↔ cstr l = strOK := by
  have hne : strERROR ≠ strOK := by decide
  have hnil : cstr [] ≠ strOK := by decide
  have e : cstr (l.take UNBBEE_BUFLEN) = strOK ↔ cstr l = strOK := by
    rw [cstr_take]
    constructor
    · exact fun h => take_eq_of_short _ strOK UNBBEE_BUFLEN (by decide) h
    · intro h; rw [h]; rfl
  unfold verdict
  by_cases h0 : l = []
  · subst h0
    simp [hnil]
  · by_cases h1 : cstr (l.take UNBBEE_BUFLEN) = strOK
    · simp [h0, h1, e.mp h1]
    · have h1' : ¬ cstr l = strOK := fun h => h1 (e.mpr h)
      by_cases h2 : cstr (l.take UNBBEE_BUFLEN) = strERROR
      · simp [h0, h1, h2, h1', hne]
      · simp [h0, h1, h2, h1']

theorem verdict_false_iff (l : List Byte) : verdict l = some false ↔ cstr l = strERROR := by
  have hne : strERROR ≠ strOK := by decide
  have hnil : cstr [] ≠ strERROR := by decide
  have e : ∀ t : List Byte, t.length < UNBBEE_BUFLEN →
      (cstr (l.take UNBBEE_BUFLEN) = t ↔ cstr l = t) := by
    intro t ht
    rw [cstr_take]
    constructor
    · exact fun h => take_eq_of_short _ t UNBBEE_BUFLEN ht h
    · intro h; rw [h]; exact List.take_of_length_le (Nat.le_of_lt ht)
  have eOK := e strOK (by decide)
  have eERR := e strERROR (by decide)
  unfold verdict
  by_cases h0 : l = []
  · subst h0
    simp [hnil]
  · by_cases h1 : cstr (l.take UNBBEE_BUFLEN) = strOK
    · have h1' := eOK.mp h1
      have : ¬ cstr l = strERROR := by rw [h1']; exact fun h => hne h.symm
      simp [h0, h1, this]
    · by_cases h2 : cstr (l.take UNBBEE_BUFLEN) = strERROR
      · simp [h0, h1, h2, eERR.mp h2, hne]
      · have h2' : ¬ cstr l = strERROR := fun h => h2 (eERR.mpr h)
        simp [h0, h1, h2, h2']

theorem getLoop_line (lf size ts n p : Nat) (l rest reply : List Byte) (w : State)
    (hrx : w.rx.map Prod.snd = l ++ 13 :: 10 :: rest)
    (hq : ∀ k, k < p → quietAt (clockAt w (k + 1)) w)
    (harr : ∀ x ∈ w.rx.take (l.length + 2), x.1 ≤ clockAt w (p + 1))
    (hl : ∀ b ∈ l, b ≠ 13 ∧ b ≠ 10)
    (hts : ∀ k, k ≤ p + l.length + 2 → expired ts (clockAt w k) = false)
    (hlen : UNBBEE_BUFLEN < w.buffer.length)
    (hlf : p + l.length + 2 ≤ lf) :
    getStrValueLoop lf size ts (n + 1) reply w =
      if l = [] then getStrValueLoop lf size ts n reply (afterLine p l w)
      else
        match copyReply reply (afterLine p l w).buffer size with
        | .error e => .error e
        | .ok r2 => .ok (((min UNBBEE_BUFLEN l.length : Nat) : Int), r2, afterLine p l w) := by
  have h := readLine_crlf ts p l (lf - (p + l.length + 2)) w rest hrx hq harr hl
    (fun k hk => hts k (by omega)) (hts _ (Nat.le_refl _)) hlen
  have e : p + l.length + 2 + (lf - (p + l.length + 2)) = lf := by omega
  rw [e] at h
  rw [getStrValueLoop, h]
  have hnn : ((min UNBBEE_BUFLEN l.length : Nat) : Int) ≥ 0 := Int.natCast_nonneg _
  dsimp only
  rw [if_pos hnn]
  by_cases hnil : l = []
  · subst hnil
    simp
  · have hpos : ¬ (((min UNBBEE_BUFLEN l.length : Nat) : Int) = 0) := by
      have : 0 < l.length := List.length_pos.mpr hnil
      have h64 : 0 < UNBBEE_BUFLEN := by decide
      omega
    rw [if_neg hpos, if_neg hnil]

theorem getLoop_empties (lf size ts n : Nat) (ls : List (List Byte)) (rest reply : List Byte)
    (w : State)
    (hempty : ∀ l ∈ ls, l = [])
    (hrx : w.rx.map Prod.snd = wire ls ++ rest)
    (harr : ∀ x ∈ w.rx.take (wire ls).length, x.1 ≤ clockAt w 1)
    (hts : ∀ k, k < (wire ls).length + ls.length → expired ts (clockAt w k) = false)
    (hlen : UNBBEE_BUFLEN < w.buffer.length)
    (hlf : 2 ≤ lf) :
    getStrValueLoop lf size ts (ls.length + n) reply w =
      getStrValueLoop lf size ts n reply (afterLines ls w) := by
  induction ls generalizing w with
  | nil => simp [afterLines]
  | cons l ls ih =>
    have hl0 : l = [] := hempty l (by simp)
    subst hl0
    have e : ([] :: ls).length + n = (ls.length + n) + 1 := by simp; omega
    have hw : (wire ([] :: ls)).length = 2 + (wire ls).length := by simp [wire]; omega
    rw [e, getLoop_line lf size ts _ 0 [] (wire ls ++ rest) reply w (by simpa [wire] using hrx)
      (fun k hk => absurd hk (Nat.not_lt_zero k))
      (fun x hx => harr x (mem_take_of_le _ (by rw [hw]; simp) x hx))
      (by intro b hb; simp at hb)
      (fun k hk => hts k (by simp only [hw, List.length_cons, List.length_nil] at hk ⊢; omega))
      hlen (by simpa using hlf)]
    rw [if_pos rfl]
    simp only [afterLines]
    apply ih
    · intro l' h'; exact hempty l' (by simp [h'])
    · rw [afterLine_rx, List.map_drop, hrx]; simp [wire]
    · intro x hx
      rw [afterLine_rx] at hx
      have := harr x (by rw [hw]; exact mem_take_drop _ _ _ x hx)
      rw [afterLine_clockAt]
      exact le_trans this (clockAt_mono w (by omega))
    · intro k hk
      rw [afterLine_clockAt]
      exact hts _ (by simp only [hw, List.length_cons, List.length_nil]; omega)
    · rw [afterLine_length]; exact hlen

theorem getLoop_prefix (lf size ts p : Nat) (ls : List (List Byte)) (rest : List Byte)
    (w : State)
    (hempty : ∀ l ∈ ls, l = [])
    (hp : ls = [] → p = 0)
    (hrx : w.rx.map Prod.snd = wire ls ++ rest)
    (hq : ∀ k, k < p → quietAt (clockAt w (k + 1)) w)
    (harr : ∀ x ∈ w.rx.take (wire ls).length, x.1 ≤ clockAt w (p + 1))
    (hts : ∀ k, k < p + (wire ls).length + ls.length → expired ts (clockAt w k) = false)
    (hlen : UNBBEE_BUFLEN < w.buffer.length)
    (hlf : p + 2 ≤ lf) :
    ∃ X, (∀ n reply, getStrValueLoop lf size ts (ls.length + n) reply w =
        getStrValueLoop lf size ts n reply X) ∧
      X.rx = w.rx.drop (wire ls).length ∧
      (∀ k, clockAt X k = clockAt w (p + (wire ls).length + ls.length + k)) ∧
      X.tx = w.tx ∧ X.echoOff = w.echoOff ∧ X.buffer.length = w.buffer.length := by
  cases ls with
  | nil =>
    have hp0 : p = 0 := hp rfl
    subst hp0
    exact ⟨w, fun n reply => by simp, by simp [wire], fun k => by simp [wire], rfl, rfl, rfl⟩
  | cons l ls =>
    have hl0 : l = [] := hempty l (by simp)
    subst hl0
    have hw : (wire ([] :: ls)).length = 2 + (wire ls).length := by simp [wire]; omega
    refine ⟨afterLines ls (afterLine p [] w), ?_, ?_, ?_, ?_, ?_, ?_⟩
    · intro n reply
      have e : ([] :: ls).length + n = (ls.length + n) + 1 := by simp; omega
      rw [e, getLoop_line lf size ts _ p [] (wire ls ++ rest) reply w
        (by simpa [wire] using hrx) hq
        (fun x hx => harr x (mem_take_of_le _ (by rw [hw]; simp) x hx))
        (by intro b hb; simp at hb)
        (fun k hk => hts k (by
          simp only [hw, List.length_cons, List.length_nil] at hk ⊢; omega))
        hlen (by simpa using hlf)]
      rw [if_pos rfl]
      apply getLoop_empties lf size ts n ls rest reply (afterLine p [] w)
      · intro l' h'; exact hempty l' (by simp [h'])
      · rw [afterLine_rx, List.map_drop, hrx]; simp [wire]
      · intro x hx
        rw [afterLine_rx] at hx
        have := harr x (by rw [hw]; exact mem_take_drop _ _ _ x hx)
        rw [afterLine_clockAt]
        exact le_trans this (clockAt_mono w (by omega))
      · intro k hk
        rw [afterLine_clockAt]
        exact hts _ (by simp only [hw, List.length_cons, List.length_nil]; omega)
      · rw [afterLine_length]; exact hlen
      · omega
    · rw [afterLines_rx, afterLine_rx, List.drop_drop, hw]
      simp
    · intro k
      rw [afterLines_clockAt, afterLine_clockAt, hw]
      simp only [List.length_cons, List.length_nil]
      congr 1; omega
    · rw [afterLines_tx, afterLine_tx]
    · rw [afterLines_echoOff, afterLine_echoOff]
    · rw [afterLines_length, afterLine_length]

theorem readLine_polls_timeout (ts q f : Nat) (w : State)
    (hq : ∀ k, k < q → quietAt (clockAt w (k + 1)) w)
    (hts : ∀ k, k < q → expired ts (clockAt w k) = false)
    (hexp : expired ts (clockAt w q) = true) :
    ∃ w', readLine (q + (f + 1)) ts w = .ok (-1, w') ∧ w'.rx = w.rx ∧
      w'.now = clockAt w (q + 1) ∧ w'.tx = w.tx ∧ w'.buffer = w.buffer ∧
      w'.echoOff = w.echoOff := by
  unfold readLine
  rw [loop_polls ts 0 q (f + 1) { w with bufcnt := 0 } (fun k hk => hq k hk)
    (fun k hk => hts k hk)]
  have hck : ∀ k, clockAt (afterPolls q { w with bufcnt := 0 }) k = clockAt w (q + k) := by
    intro k
    rw [afterPolls_clockAt]
    exact clockAt_congr rfl rfl _
  rw [loop_timeout ts f 0 false _ (by rw [← clockAt_zero, hck]; exact hexp)]
  refine ⟨_, rfl, ?_, ?_, ?_, ?_, ?_⟩
  · show (afterPolls q { w with bufcnt := 0 }).rx = _
    rw [afterPolls_rx]
  · show (millis (afterPolls q { w with bufcnt := 0 })).2.now = _
    rw [← clockAt_zero, clockAt_succ_millis, hck]
  · show (afterPolls q { w with bufcnt := 0 }).tx = _
    rw [afterPolls_tx]
  · show (afterPolls q { w with bufcnt := 0 }).buffer = _
    rw [afterPolls_buffer]
  · show (afterPolls q { w with bufcnt := 0 }).echoOff = _
    rw [afterPolls_echoOff]

/-! ## The claims -/

/-- C1. A line `s` of at most 64 bytes without CR and LF, queued in the channel and followed
by CR LF, read while the deadline is not reached: `readLine` returns the length of `s`, the
line buffer holds `s` and then a NUL (its other bytes keep their values, so neither CR nor LF
is stored), and CR and LF are consumed with the line. -/
theorem readLine_crlf_line (ts fuel : Nat) (s rest : List Byte) (w : State)
    (hlen : w.buffer.length = UNBBEE_BUFLEN + 1)
    (hs64 : s.length ≤ 64)
    (hs : ∀ b ∈ s, b ≠ 13 ∧ b ≠ 10)
    (hrx : w.rx.map Prod.snd = s ++ [13, 10] ++ rest)
    (harr : ∀ x ∈ w.rx.take (s.length + 2), x.1 ≤ w.now)
    (hts : ∀ k, k ≤ s.length + 2 → expired ts (clockAt w k) = false)
    (hfuel : s.length + 2 ≤ fuel) :
    ∃ w', readLine fuel ts w = .ok ((s.length : Int), w') ∧
      w'.bufcnt = s.length ∧
      w'.buffer = s ++ [0] ++ w.buffer.drop (s.length + 1) ∧
      w'.rx = w.rx.drop (s.length + 2) ∧
      w'.rx.map Prod.snd = rest := by
  refine ⟨afterLine 0 s w, ?_, ?_, ?_, ?_, ?_⟩
  · have h := readLine_crlf ts 0 s (fuel - (s.length + 2)) w rest (by simpa using hrx)
      (fun k hk => absurd hk (Nat.not_lt_zero k))
      (fun x hx => le_trans (harr x hx) (by rw [← clockAt_zero w]; exact clockAt_mono w (by omega)))
      hs (fun k hk => hts k (by omega)) (by simpa using hts (s.length + 2) (Nat.le_refl _))
      (by rw [hlen]; exact Nat.lt_succ_self _)
    have e : 0 + s.length + 2 + (fuel - (s.length + 2)) = fuel := by omega
    rw [e] at h
    rw [h, Nat.min_eq_right (by simpa [UNBBEE_BUFLEN] using hs64)]
  · rw [afterLine_bufcnt]; exact Nat.min_eq_right (by simpa [UNBBEE_BUFLEN] using hs64)
  · rw [afterLine_buffer _ _ _ (by rw [hlen]; exact Nat.lt_succ_self _),
      Nat.min_eq_right (by simpa [UNBBEE_BUFLEN] using hs64),
      List.take_of_length_le (by simpa [UNBBEE_BUFLEN] using hs64)]
    simp
  · exact afterLine_rx 0 s w
  · rw [afterLine_rx, List.map_drop, hrx]
    simp

/-- C1 at the channel content "AB" CR LF "C". -/
theorem readLine_crlf_line_witness :
    (∀ k, k ≤ 4 → expired 1000 (clockAt (exampleState 0 [1, 1, 1] (arriving 0 [65, 66, 13, 10, 67])) k) = false) ∧
    ∃ w', readLine 4 1000 (exampleState 0 [1, 1, 1] (arriving 0 [65, 66, 13, 10, 67]))
        = .ok (2, w') ∧
      w'.bufcnt = 2 ∧
      w'.buffer = [65, 66] ++ [0] ++ (List.replicate 65 255).drop 3 ∧
      w'.rx = [(0, 67)] ∧
      w'.rx.map Prod.snd = [67] :=
  ⟨by decide,
   readLine_crlf_line 1000 4 [65, 66] [67] (exampleState 0 [1, 1, 1] (arriving 0 [65, 66, 13, 10, 67]))
    (by decide) (by decide) (by decide) (by decide) (by decide) (by decide) (by decide)⟩

/-- C8. A line `s` of more than 64 bytes without CR and LF, queued in the channel and
followed by CR LF, read while the deadline is not reached: `readLine` returns 64, the line
buffer holds the first 64 bytes of `s` and then the NUL, and all of `s`, the CR and the LF are
consumed, so that the next `readLine` starts behind the LF. -/
theorem readLine_truncates (ts fuel : Nat) (s rest : List Byte) (w : State)
    (hlen : w.buffer.length = UNBBEE_BUFLEN + 1)
    (hs64 : 64 < s.length)
    (hs : ∀ b ∈ s, b ≠ 13 ∧ b ≠ 10)
    (hrx : w.rx.map Prod.snd = s ++ [13, 10] ++ rest)
    (harr : ∀ x ∈ w.rx.take (s.length + 2), x.1 ≤ w.now)
    (hts : ∀ k, k ≤ s.length + 2 → expired ts (clockAt w k) = false)
    (hfuel : s.length + 2 ≤ fuel) :
    ∃ w', readLine fuel ts w = .ok (64, w') ∧
      w'.bufcnt = 64 ∧
      w'.buffer = s.take 64 ++ [0] ∧
      w'.rx = w.rx.drop (s.length + 2) ∧
      w'.rx.map Prod.snd = rest := by
  have h64 : min UNBBEE_BUFLEN s.length = 64 := by
    simp only [UNBBEE_BUFLEN]; omega
  refine ⟨afterLine 0 s w, ?_, ?_, ?_, ?_, ?_⟩
  · have h := readLine_crlf ts 0 s (fuel - (s.length + 2)) w rest (by simpa using hrx)
      (fun k hk => absurd hk (Nat.not_lt_zero k))
      (fun x hx => le_trans (harr x hx) (by rw [← clockAt_zero w]; exact clockAt_mono w (by omega)))
      hs (fun k hk => hts k (by omega)) (by simpa using hts (s.length + 2) (Nat.le_refl _))
      (by rw [hlen]; exact Nat.lt_succ_self _)
    have e : 0 + s.length + 2 + (fuel - (s.length + 2)) = fuel := by omega
    rw [e] at h
    rw [h, h64]
    rfl
  · rw [afterLine_bufcnt]; exact h64
  · rw [afterLine_buffer _ _ _ (by rw [hlen]; exact Nat.lt_succ_self _), h64]
    have : w.buffer.drop (64 + 1) = [] := by
      apply List.drop_of_length_le
      rw [hlen]; simp [UNBBEE_BUFLEN]
    rw [this]
    rfl
  · exact afterLine_rx 0 s w
  · rw [afterLine_rx, List.map_drop, hrx]
    simp

/-- C8 at a line of 66 bytes 'A', followed by CR LF and "Z". -/
theorem readLine_truncates_witness :
    (∀ k, k ≤ 68 → expired 1000
      (clockAt (exampleState 0 [] (arriving 0 (List.replicate 66 65 ++ [13, 10, 90]))) k) = false) ∧
    ∃ w', readLine 70 1000 (exampleState 0 [] (arriving 0 (List.replicate 66 65 ++ [13, 10, 90])))
        = .ok (64, w') ∧
      w'.bufcnt = 64 ∧
      w'.buffer = (List.replicate 66 65).take 64 ++ [0] ∧
      w'.rx = (exampleState 0 [] (arriving 0 (List.replicate 66 65 ++ [13, 10, 90]))).rx.drop
        ((List.replicate 66 (65 : Byte)).length + 2) ∧
      w'.rx.map Prod.snd = [90] :=
  ⟨by decide,
   readLine_truncates 1000 70 (List.replicate 66 65) [90]
    (exampleState 0 [] (arriving 0 (List.replicate 66 65 ++ [13, 10, 90])))
    (by decide) (by decide) (by decide) (by decide) (by decide) (by decide) (by decide)⟩

/-- C2. Lines that are empty or free of NUL, CR and LF and different from "OK" and "ERROR",
each ended by CR LF, followed by the line "OK" CR LF, all queued in the channel and read
while the deadline is not reached: `waitForOK` returns true, having consumed these lines and
nothing behind them. -/
theorem waitForOK_skips_payload (fuel timeout : Nat) (ls : List (List Byte)) (rest : List Byte)
    (w : State)
    (hlen : w.buffer.length = UNBBEE_BUFLEN + 1)
    (hls : ∀ l ∈ ls, payloadLine l)
    (hrx : w.rx.map Prod.snd = wire (ls ++ [strOK]) ++ rest)
    (harr : ∀ x ∈ w.rx.take (wire (ls ++ [strOK])).length, x.1 ≤ w.now)
    (hts : ∀ k, 1 ≤ k → k ≤ (wire (ls ++ [strOK])).length + (ls.length + 1) →
      expired (deadline timeout w) (clockAt w k) = false)
    (hfuel : (wire (ls ++ [strOK])).length ≤ fuel) :
    ∃ w', waitForOK fuel timeout w = .ok (true, w') ∧
      w'.rx = w.rx.drop (wire (ls ++ [strOK])).length ∧
      w'.rx.map Prod.snd = rest := by
  have hrxl : (afterLine 0 strOK (afterLines ls (millis w).2)).rx =
      w.rx.drop (wire (ls ++ [strOK])).length := by
    rw [afterLine_rx, afterLines_rx, List.drop_drop, wire_append]
    simp [wire, millis]
  refine ⟨_, waitForOK_verdict fuel timeout ls strOK rest true w
    (by rw [hlen]; exact Nat.lt_succ_self _) (fun l hl => passedOver_of_payload l (hls l hl))
    verdict_OK (by decide) hrx
    (fun x hx => le_trans (harr x hx) (by rw [← clockAt_zero w]; exact clockAt_mono w (by omega)))
    hts hfuel, hrxl, ?_⟩
  rw [hrxl, List.map_drop, hrx]
  simp

/-- C2 at the stream CR LF "OK" CR LF: an empty line, then "OK". -/
theorem waitForOK_skips_payload_witness :
    (∀ l ∈ [([] : List Byte)], payloadLine l) ∧
    ∃ w', waitForOK 6 4000 (exampleState 0 [] (arriving 0 [13, 10, 79, 75, 13, 10]))
        = .ok (true, w') ∧
      w'.rx = (exampleState 0 [] (arriving 0 [13, 10, 79, 75, 13, 10])).rx.drop
        (wire ([[]] ++ [strOK])).length ∧
      w'.rx.map Prod.snd = [] :=
  ⟨fun l hl => by
      rw [List.mem_singleton.mp hl]
      exact ⟨fun b hb => absurd hb (List.not_mem_nil b), Or.inl rfl⟩,
   waitForOK_skips_payload 6 4000 [[]] []
    (exampleState 0 [] (arriving 0 [13, 10, 79, 75, 13, 10]))
    (by decide)
    (fun l hl => by
      rw [List.mem_singleton.mp hl]
      exact ⟨fun b hb => absurd hb (List.not_mem_nil b), Or.inl rfl⟩)
    (by decide) (by decide) (by decide) (by decide)⟩

/-- C7. With the line buffer of `UNBBEE_BUFLEN + 1 = 65` bytes, whatever the channel holds,
whenever its bytes arrive, however the clock runs and whatever the deadline: no run of
`readLine`, however long, writes outside the buffer; when `readLine` returns, the buffer
still has 65 bytes, the count is at most 64, and the result is -1 or the count, in which
case the byte at that index is the NUL.  The loop keeps the bound on the count from every
state in which it holds. -/
theorem readLine_stays_in_buffer (fuel ts : Nat) (w : State)
    (hlen : w.buffer.length = UNBBEE_BUFLEN + 1) :
    readLine fuel ts w ≠ .error Err.oob ∧
    (∀ r w', readLine fuel ts w = .ok (r, w') →
      w'.buffer.length = UNBBEE_BUFLEN + 1 ∧ w'.bufcnt ≤ 64 ∧
      (r = -1 ∨ (0 ≤ r ∧ r ≤ 64 ∧ r = (w'.bufcnt : Int) ∧
        w'.buffer.get? w'.bufcnt = some 0))) ∧
    (∀ tw cr w1, w1.bufcnt ≤ 64 → w1.buffer.length = UNBBEE_BUFLEN + 1 →
      readLineLoop ts fuel tw cr w1 ≠ .error Err.oob ∧
      ∀ r w', readLineLoop ts fuel tw cr w1 = .ok (r, w') → w'.bufcnt ≤ 64) := by
  have hl : UNBBEE_BUFLEN < w.buffer.length := by rw [hlen]; exact Nat.lt_succ_self _
  have hp := readLine_post fuel ts w hl
  refine ⟨hp.1, ?_, ?_⟩
  · intro r w' h
    obtain ⟨_, _, e3, e4, e5⟩ := hp.2 r w' h
    have e4' : w'.bufcnt ≤ 64 := e4
    refine ⟨by rw [e3, hlen], e4', ?_⟩
    rcases e5 with h1 | ⟨h1, h2⟩
    · exact Or.inl h1
    · exact Or.inr ⟨by omega, by omega, h1, h2⟩
  · intro tw cr w1 hc hl1
    have hq := readLineLoop_post ts fuel tw cr w1 hc (by rw [hl1]; exact Nat.lt_succ_self _)
    exact ⟨hq.1, fun r w' h => (hq.2 r w' h).2.2.2.1⟩

/-- C7 at a channel holding 70 bytes 'A' and no line end, the clock advancing by one
millisecond per reading, and a deadline 30 ms away. -/
theorem readLine_stays_in_buffer_witness :
    (exampleState 0 (List.replicate 100 1) (arriving 0 (List.replicate 70 65))).buffer.length
      = UNBBEE_BUFLEN + 1 ∧
    readLine 100 30 (exampleState 0 (List.replicate 100 1) (arriving 0 (List.replicate 70 65)))
      ≠ .error Err.oob :=
  ⟨by decide,
   (readLine_stays_in_buffer 100 30
    (exampleState 0 (List.replicate 100 1) (arriving 0 (List.replicate 70 65))) (by decide)).1⟩

/-- C9. The bytes written by a framed command: the prolog writes nothing; prolog, any
fragments and epilog write the bytes of the fragments in order and then one CR;
`sendCommand(cmd)` and `sendCommand_P(cmd)` write the string `cmd` and one CR; the framed
command of `sendMessage(msg)`, which follows its `switchEchoOff`, writes "AT$SS=", the
string `msg` and one CR, and nothing is written after it. -/
theorem framed_command_bytes (fs : List Fragment) (cmd msg : List Byte) (fuel : Nat) (w : State)
    (hlen : w.buffer.length = UNBBEE_BUFLEN + 1) :
    (sendCommandProlog w).tx = w.tx ∧
    (sendCommandEpilog (sendCommandAddAll fs (sendCommandProlog w))).tx =
      w.tx ++ (fs.map Fragment.bytes).flatten ++ [13] ∧
    (sendCommand cmd w).tx = w.tx ++ cstr cmd ++ [13] ∧
    (sendCommand_P cmd w).tx = w.tx ++ cstr cmd ++ [13] ∧
    ((∀ b ∈ cmd, b ≠ 0) → (sendCommand cmd w).tx = w.tx ++ cmd ++ [13]) ∧
    (∀ r w', sendMessage fuel msg w = .ok (r, w') →
      ∃ w1, switchEchoOff fuel w = .ok w1 ∧ w'.tx = w1.tx ++ strATSS ++ cstr msg ++ [13]) ∧
    (w.echoOff = true → ∀ r w', sendMessage fuel msg w = .ok (r, w') →
      w'.tx = w.tx ++ strATSS ++ cstr msg ++ [13]) := by
  have hl : UNBBEE_BUFLEN < w.buffer.length := by rw [hlen]; exact Nat.lt_succ_self _
  have hmsg : ∀ r w', sendMessage fuel msg w = .ok (r, w') →
      ∃ w1, switchEchoOff fuel w = .ok w1 ∧ w'.tx = w1.tx ++ strATSS ++ cstr msg ++ [13] := by
    intro r w' h
    unfold sendMessage at h
    cases hs : switchEchoOff fuel w with
    | error e => rw [hs] at h; simp at h
    | ok w1 =>
      rw [hs] at h
      refine ⟨w1, rfl, ?_⟩
      dsimp only at h
      have hl1 : w1.buffer.length = w.buffer.length := switchEchoOff_length fuel w w1 hl hs
      have hfr : (sendCommandEpilog (sendCommandAdd (Fragment.str msg)
          (sendCommandAdd (Fragment.str_P strATSS) (sendCommandProlog w1)))).tx =
          w1.tx ++ strATSS ++ cstr msg ++ [13] := by
        rw [sendCommandEpilog_tx, sendCommandAdd_tx, sendCommandAdd_tx,
          (same_sendCommandProlog w1).1]
        rfl
      have hbuf : (sendCommandEpilog (sendCommandAdd (Fragment.str msg)
          (sendCommandAdd (Fragment.str_P strATSS) (sendCommandProlog w1)))).buffer =
          w1.buffer := by
        simp only [sendCommandEpilog, sendCommandAdd, streamPrintAll_eq, streamPrint]
        exact (same_sendCommandProlog w1).2.2.1
      have := (waitForOK_post fuel 20000 _ (by rw [hbuf, hl1]; exact hl)).2 r w' h
      rw [this.1, hfr]
  refine ⟨(same_sendCommandProlog w).1, ?_, sendCommand_tx cmd w, sendCommand_P_tx cmd w, ?_,
    hmsg, ?_⟩
  · rw [sendCommandEpilog_tx, sendCommandAddAll_eq, (same_sendCommandProlog w).1]
  · intro hn
    rw [sendCommand_tx, cstr_of_no_nul cmd hn]
  · intro he r w' h
    obtain ⟨w1, h1, h2⟩ := hmsg r w' h
    have : w1 = w := by
      simp [switchEchoOff, he] at h1
      exact h1.symm
    rw [h2, this]

/-- C9 at the command "ATI7", and at `sendMessage("HI")` with the echo already off and the
reply "OK" CR LF arriving while the device waits. -/
theorem framed_command_bytes_witness :
    (exampleState 0 [] []).buffer.length = UNBBEE_BUFLEN + 1 ∧
    (∀ b ∈ strATI7, b ≠ 0) ∧
    (sendCommand strATI7 (exampleState 0 [] [])).tx = [] ++ strATI7 ++ [13] ∧
    outcome (sendMessage 10 [72, 73]
      { exampleState 0 [] (arriving 20 [79, 75, 13, 10]) with echoOff := true }) = some true ∧
    (∀ r w', sendMessage 10 [72, 73]
        { exampleState 0 [] (arriving 20 [79, 75, 13, 10]) with echoOff := true } = .ok (r, w') →
      w'.tx = [] ++ strATSS ++ cstr [72, 73] ++ [13]) :=
  ⟨by decide, by decide,
   (framed_command_bytes [] strATI7 [] 0 (exampleState 0 [] []) (by decide)).2.2.2.2.1
     (by decide),
   by decide,
   (framed_command_bytes [] [] [72, 73] 10
     { exampleState 0 [] (arriving 20 [79, 75, 13, 10]) with echoOff := true }
     (by decide)).2.2.2.2.2.2 (by decide)⟩

/-- C3, the claim as stated fails: in the stream "OK" NUL CR LF "ERROR" CR LF the first
line has three bytes and is neither "OK" nor "ERROR", so the first line equal to one of them
is "ERROR"; `waitForOK` returns true on the first line. -/
theorem waitForOK_ERROR_counterexample :
    ([79, 75, 0] : List Byte) ≠ strOK ∧ ([79, 75, 0] : List Byte) ≠ strERROR ∧
    outcome (waitForOK 12 4000
      (exampleState 0 [] (arriving 0 (wire [[79, 75, 0], strERROR])))) = some true := by
  decide

/-- C3, amended. Lines that are empty or whose bytes before the first NUL are neither "OK"
nor "ERROR", each ended by CR LF, followed by the line "ERROR" CR LF and by anything else,
all queued in the channel and read while the deadline is not reached: `waitForOK` returns
false, and what follows the CR LF of the "ERROR" line stays in the channel. -/
theorem waitForOK_false_on_ERROR (fuel timeout : Nat) (ls : List (List Byte)) (rest : List Byte)
    (w : State)
    (hlen : w.buffer.length = UNBBEE_BUFLEN + 1)
    (hls : ∀ l ∈ ls, passedOver l)
    (hrx : w.rx.map Prod.snd = wire (ls ++ [strERROR]) ++ rest)
    (harr : ∀ x ∈ w.rx.take (wire (ls ++ [strERROR])).length, x.1 ≤ w.now)
    (hts : ∀ k, 1 ≤ k → k ≤ (wire (ls ++ [strERROR])).length + (ls.length + 1) →
      expired (deadline timeout w) (clockAt w k) = false)
    (hfuel : (wire (ls ++ [strERROR])).length ≤ fuel) :
    ∃ w', waitForOK fuel timeout w = .ok (false, w') ∧
      w'.rx = w.rx.drop (wire (ls ++ [strERROR])).length ∧
      w'.rx.map Prod.snd = rest := by
  have hrxl : (afterLine 0 strERROR (afterLines ls (millis w).2)).rx =
      w.rx.drop (wire (ls ++ [strERROR])).length := by
    rw [afterLine_rx, afterLines_rx, List.drop_drop, wire_append]
    simp [wire, millis]
  refine ⟨_, waitForOK_verdict fuel timeout ls strERROR rest false w
    (by rw [hlen]; exact Nat.lt_succ_self _) hls
    verdict_ERROR (by decide) hrx
    (fun x hx => le_trans (harr x hx) (by rw [← clockAt_zero w]; exact clockAt_mono w (by omega)))
    hts hfuel, hrxl, ?_⟩
  rw [hrxl, List.map_drop, hrx]
  simp

/-- C3, amended, at the stream CR LF "ERROR" CR LF "OK" CR LF. -/
theorem waitForOK_false_on_ERROR_witness :
    (∀ l ∈ [([] : List Byte)], passedOver l) ∧
    ∃ w', waitForOK 9 4000
        (exampleState 0 [] (arriving 0 [13, 10, 69, 82, 82, 79, 82, 13, 10, 79, 75, 13, 10]))
        = .ok (false, w') ∧
      w'.rx = (exampleState 0 []
        (arriving 0 [13, 10, 69, 82, 82, 79, 82, 13, 10, 79, 75, 13, 10])).rx.drop
          (wire ([[]] ++ [strERROR])).length ∧
      w'.rx.map Prod.snd = [79, 75, 13, 10] :=
  ⟨fun l hl => by
      rw [List.mem_singleton.mp hl]
      exact ⟨fun b hb => absurd hb (List.not_mem_nil b), Or.inl rfl⟩,
   waitForOK_false_on_ERROR 9 4000 [[]] [79, 75, 13, 10]
    (exampleState 0 [] (arriving 0 [13, 10, 69, 82, 82, 79, 82, 13, 10, 79, 75, 13, 10]))
    (by decide)
    (fun l hl => by
      rw [List.mem_singleton.mp hl]
      exact ⟨fun b hb => absurd hb (List.not_mem_nil b), Or.inl rfl⟩)
    (by decide) (by decide) (by decide) (by decide)⟩

/-- C4. A value line `v` (not empty, at most 64 bytes, without CR, LF and NUL) and a reply
buffer of `size >= 1` bytes: when the channel delivers `v` CR LF "OK" CR LF after the command
is started (after `p` rounds of polling once the command is sent), the deadline `ts_max` is
not reached while the value line is read, and "OK" CR LF is read within the 4000 ms of the
final `waitForOK`, then `getStrValue` returns true and the reply buffer holds, as a
NUL-terminated string, the first `size - 1` bytes of `v` (all of `v` when it is shorter). -/
theorem getStrValue_captures_value (fuel p size ts_max : Nat) (cmd v reply : List Byte)
    (stale later : List (Nat × Byte)) (w : State)
    (hlen : w.buffer.length = UNBBEE_BUFLEN + 1)
    (hrx : w.rx = stale ++ later)
    (hstale : ∀ x ∈ stale, x.1 ≤ w.now)
    (hnew : ∀ x ∈ later, w.now < x.1)
    (hlater : later.map Prod.snd = v ++ [13, 10] ++ strOK ++ [13, 10])
    (hv0 : v ≠ []) (hv : ∀ b ∈ v, b ≠ 13 ∧ b ≠ 10 ∧ b ≠ 0) (hv64 : v.length ≤ 64)
    (h1 : 1 ≤ size) (h2 : size ≤ reply.length) (h3 : size < 2 ^ 16)
    (hpoll : ∀ k, k < p → ∀ x ∈ later.head?, clockAt (sendCommand cmd w) (k + 1) < x.1)
    (harr : ∀ x ∈ later, x.1 ≤ clockAt (sendCommand cmd w) (p + 1))
    (hts : ∀ k, k ≤ p + v.length + 2 → expired ts_max (clockAt (sendCommand cmd w) k) = false)
    (hts2 : clockAt (sendCommand cmd w) (p + v.length + 8) <
      clockAt (sendCommand cmd w) (p + v.length + 3) + 4000)
    (hfuel : p + v.length + 4 ≤ fuel) :
    ∃ r w', getStrValue fuel cmd reply size ts_max w = .ok (true, r, w') ∧
      cstr r = v.take (min v.length (size - 1)) ∧ r.length = reply.length := by
  obtain ⟨r, w', h, hc, hl, _, _⟩ := getStrValue_reply fuel p size ts_max cmd v reply stale later w
    hlen hrx hstale hnew hlater hv0 hv hv64 h1 h2 h3 hpoll harr hts hts2 hfuel
  refine ⟨r, w', h, ?_, hl⟩
  rw [hc]
  by_cases hm : v.length ≤ size - 1
  · rw [Nat.min_eq_left hm, List.take_of_length_le hm, List.take_of_length_le (Nat.le_refl _)]
  · rw [Nat.min_eq_right (by omega)]

/-- C4 at the command "ATI7" with the reply "8622" CR LF "OK" CR LF arriving 100 ms after
the start, the clock advancing by 30 ms per reading, a deadline at 2000 and a reply buffer
of 8 bytes: the result is true and the buffer holds "8622". -/
theorem getStrValue_captures_value_witness :
    (∀ k, k < 1 → ∀ x ∈ (arriving 100 reply8622).head?,
      clockAt (sendCommand strATI7 (exampleState 0 (List.replicate 20 30)
        (arriving 100 reply8622))) (k + 1) < x.1) ∧
    (∀ x ∈ arriving 100 reply8622,
      x.1 ≤ clockAt (sendCommand strATI7 (exampleState 0 (List.replicate 20 30)
        (arriving 100 reply8622))) (1 + 1)) ∧
    ∃ r w', getStrValue 9 strATI7 (List.replicate 8 255) 8 2000
        (exampleState 0 (List.replicate 20 30) (arriving 100 reply8622)) = .ok (true, r, w') ∧
      cstr r = ([56, 54, 50, 50] : List Byte).take (min ([56, 54, 50, 50] : List Byte).length (8 - 1)) ∧
      r.length = (List.replicate 8 (255 : Byte)).length :=
  ⟨by decide, by decide,
   getStrValue_captures_value 9 1 8 2000 strATI7 [56, 54, 50, 50] (List.replicate 8 255)
    [] (arriving 100 reply8622) (exampleState 0 (List.replicate 20 30) (arriving 100 reply8622))
    (by decide) (by decide) (by decide) (by decide) (by decide) (by decide) (by decide)
    (by decide) (by decide) (by decide) (by decide) (by decide) (by decide) (by decide)
    (by decide) (by decide)⟩

/-- C10. When the channel holds the bytes `stale` at the start of `sendCommand` (and what
follows has not arrived), `sendCommand` reads all of them, then finds the channel empty,
then waits, and only then writes the command and the CR; the line buffer and its count are
not touched.  Hence `getStrValue`, started with such stale bytes and receiving the reply
"8622" CR LF "OK" CR LF after that, returns true with "8622" in the reply buffer. -/
theorem sendCommand_discards_stale (cmd : List Byte) (stale later : List (Nat × Byte))
    (w : State)
    (hrx : w.rx = stale ++ later)
    (hstale : ∀ x ∈ stale, x.1 ≤ w.now)
    (hnew : ∀ x ∈ later, w.now < x.1) :
    (sendCommand cmd w).log =
      w.log ++ (stale.map (fun x => Ev.read (x.2.val : Int)) ++ [Ev.read (-1)]) ++ delayLog50
        ++ (cstr cmd ++ [13]).map Ev.print ∧
    (sendCommand cmd w).rx = later ∧
    (sendCommand cmd w).buffer = w.buffer ∧
    (sendCommand cmd w).bufcnt = w.bufcnt ∧
    (∀ (fuel p size ts_max : Nat) (reply : List Byte),
      w.buffer.length = UNBBEE_BUFLEN + 1 →
      later.map Prod.snd = reply8622 →
      5 ≤ size → size ≤ reply.length → size < 2 ^ 16 →
      (∀ k, k < p → ∀ x ∈ later.head?, clockAt (sendCommand cmd w) (k + 1) < x.1) →
      (∀ x ∈ later, x.1 ≤ clockAt (sendCommand cmd w) (p + 1)) →
      (∀ k, k ≤ p + 6 → expired ts_max (clockAt (sendCommand cmd w) k) = false) →
      clockAt (sendCommand cmd w) (p + 12) < clockAt (sendCommand cmd w) (p + 7) + 4000 →
      p + 8 ≤ fuel →
      ∃ r w', getStrValue fuel cmd reply size ts_max w = .ok (true, r, w') ∧
        cstr r = [56, 54, 50, 50] ∧ w'.rx = []) := by
  have hsc := sendCommand_eq cmd stale later w hrx hstale
    (fun x hx => hnew x (List.mem_of_mem_head? hx))
  refine ⟨by rw [hsc]; rfl, by rw [hsc], by rw [hsc], by rw [hsc], ?_⟩
  intro fuel p size ts_max reply hlen hlater h5 h2 h3 hpoll harr hts hts2 hfuel
  obtain ⟨r, w', h, hc, _, hr, _⟩ := getStrValue_reply fuel p size ts_max cmd [56, 54, 50, 50]
    reply stale later w hlen hrx hstale hnew (by rw [hlater]; rfl) (by decide) (by decide)
    (by decide) (by omega) h2 h3 hpoll harr hts hts2 hfuel
  refine ⟨r, w', h, ?_, hr⟩
  rw [hc]
  exact List.take_of_length_le (by simp; omega)

/-- C10 at the stale bytes "garbage", the command "ATI7" and the reply arriving 100 ms after
the start. -/
theorem sendCommand_discards_stale_witness :
    (∀ x ∈ arriving 0 [103, 97, 114, 98, 97, 103, 101], x.1 ≤
      (exampleState 0 (List.replicate 20 30)
        (arriving 0 [103, 97, 114, 98, 97, 103, 101] ++ arriving 100 reply8622)).now) ∧
    (sendCommand strATI7 (exampleState 0 (List.replicate 20 30)
        (arriving 0 [103, 97, 114, 98, 97, 103, 101] ++ arriving 100 reply8622))).rx
      = arriving 100 reply8622 ∧
    ∃ r w', getStrValue 9 strATI7 (List.replicate 8 255) 8 2000
        (exampleState 0 (List.replicate 20 30)
          (arriving 0 [103, 97, 114, 98, 97, 103, 101] ++ arriving 100 reply8622))
        = .ok (true, r, w') ∧
      cstr r = [56, 54, 50, 50] ∧ w'.rx = [] :=
  ⟨by decide,
   (sendCommand_discards_stale strATI7 (arriving 0 [103, 97, 114, 98, 97, 103, 101])
    (arriving 100 reply8622)
    (exampleState 0 (List.replicate 20 30)
      (arriving 0 [103, 97, 114, 98, 97, 103, 101] ++ arriving 100 reply8622))
    rfl (by decide) (by decide)).2.1,
   (sendCommand_discards_stale strATI7 (arriving 0 [103, 97, 114, 98, 97, 103, 101])
    (arriving 100 reply8622)
    (exampleState 0 (List.replicate 20 30)
      (arriving 0 [103, 97, 114, 98, 97, 103, 101] ++ arriving 100 reply8622))
    rfl (by decide) (by decide)).2.2.2.2 9 1 8 2000 (List.replicate 8 255)
    (by decide) (by decide) (by decide) (by decide) (by decide) (by decide) (by decide)
    (by decide) (by decide) (by decide)⟩

/-- C6. Content `s` (at most 64 bytes, no CR, no LF), a CR and a byte `b` other than LF,
queued in the channel and read while the deadline is not reached: `readLine` returns the
line `s`, its last call into the environment is the peek that shows `b`, and `b` stays in
the channel as the first byte of the remaining input; a following `readLine` therefore
reads the line that starts with `b` (the empty line when `b` is a CR followed by LF).
The input "AB" CR "CD" CR LF gives "AB" and then "CD". -/
theorem readLine_bare_cr_leaves_next (ts fuel : Nat) (s rest : List Byte) (b : Byte) (w : State)
    (hlen : w.buffer.length = UNBBEE_BUFLEN + 1)
    (hs64 : s.length ≤ 64)
    (hs : ∀ c ∈ s, c ≠ 13 ∧ c ≠ 10)
    (hb : b ≠ 10)
    (hrx : w.rx.map Prod.snd = s ++ [13, b] ++ rest)
    (harr : ∀ x ∈ w.rx.take (s.length + 2), x.1 ≤ w.now)
    (hts : ∀ k, k ≤ s.length + 2 → expired ts (clockAt w k) = false)
    (hfuel : s.length + 2 ≤ fuel) :
    (∃ w', readLine fuel ts w = .ok ((s.length : Int), w') ∧
      w'.buffer = s ++ [0] ++ w.buffer.drop (s.length + 1) ∧
      w'.rx = w.rx.drop (s.length + 1) ∧
      w'.rx.map Prod.snd = b :: rest ∧
      (∃ l, w'.log = l ++ [Ev.peek (b.val : Int)]) ∧
      (∀ (t rest2 : List Byte) (fuel2 ts2 : Nat),
        b :: rest = t ++ [13, 10] ++ rest2 →
        (∀ c ∈ t, c ≠ 13 ∧ c ≠ 10) → t.length ≤ 64 →
        (∀ x ∈ w'.rx.take (t.length + 2), x.1 ≤ w'.now) →
        (∀ k, k ≤ t.length + 2 → expired ts2 (clockAt w' k) = false) →
        t.length + 2 ≤ fuel2 →
        ∃ w'', readLine fuel2 ts2 w' = .ok ((t.length : Int), w'') ∧
          w''.buffer.take (t.length + 1) = t ++ [0])) ∧
    lineRead (readLine 10 1000
      (exampleState 0 [] (arriving 0 [65, 66, 13, 67, 68, 13, 10]))) = some (2, [65, 66]) ∧
    lineRead ((readLine 10 1000
      (exampleState 0 [] (arriving 0 [65, 66, 13, 67, 68, 13, 10]))).bind
        (fun r => readLine 10 1000 r.2)) = some (2, [67, 68]) := by
  have hl : UNBBEE_BUFLEN < w.buffer.length := by rw [hlen]; exact Nat.lt_succ_self _
  have hmin : min UNBBEE_BUFLEN s.length = s.length :=
    Nat.min_eq_right (by simpa [UNBBEE_BUFLEN] using hs64)
  have h0 : ∀ k, clockAt w 0 ≤ clockAt w k := fun k => clockAt_mono w (Nat.zero_le k)
  have hcr := readLine_to_cr ts s (fuel - (s.length + 1)) w (b :: rest) (by simpa using hrx)
    (fun x hx => le_trans (harr x (mem_take_of_le _ (by omega) x hx))
      (by rw [← clockAt_zero w]; exact h0 1))
    hs (fun k hk => hts k (by omega)) hl
  have e : s.length + 1 + (fuel - (s.length + 1)) = fuel := by omega
  rw [e] at hcr
  have hLrx : (lineCR s w).rx = w.rx.drop (s.length + 1) := lineCR_rx s w
  have hd : (w.rx.drop (s.length + 1)).map Prod.snd = b :: rest := by
    rw [List.map_drop, hrx]; simp
  refine ⟨?_, by decide, by decide⟩
  cases hx : w.rx.drop (s.length + 1) with
  | nil => simp [hx] at hd
  | cons x tl =>
    obtain ⟨a, c⟩ := x
    simp only [hx, List.map_cons, List.cons.injEq] at hd
    obtain ⟨hc, _⟩ := hd
    subst hc
    have hmem : (a, c) ∈ w.rx.take (s.length + 2) := by
      apply mem_take_drop _ (s.length + 1) 1
      rw [hx]; simp
    have ha : a ≤ clockAt (lineCR s w) 1 := by
      rw [lineCR_clockAt]
      exact le_trans (harr _ hmem) (by rw [← clockAt_zero w]; exact h0 _)
    have hts0 : expired ts (lineCR s w).now = false := by
      rw [← clockAt_zero, lineCR_clockAt]; exact hts _ (by omega)
    have ef : fuel - (s.length + 1) = (fuel - (s.length + 2)) + 1 := by omega
    rw [ef, loop_bare ts _ _ (lineCR s w) a c tl (by rw [hLrx, hx]) ha hb hts0] at hcr
    have hcnt : (afterPeek c (lineCR s w)).bufcnt = s.length := by
      show (lineCR s w).bufcnt = _
      rw [lineCR_bufcnt, hmin]
    have hbl : (afterPeek c (lineCR s w)).buffer.length = w.buffer.length := lineCR_length s w
    have hres : readLine fuel ts w =
        .ok ((s.length : Int), terminated (afterPeek c (lineCR s w))) := by
      rw [hcr, readLineOk_eq _ (by rw [hcnt, hbl]; omega)]
      show Except.ok (((afterPeek c (lineCR s w)).bufcnt : Int),
        terminated (afterPeek c (lineCR s w))) = _
      rw [hcnt]
    have hbuf : (terminated (afterPeek c (lineCR s w))).buffer =
        s ++ [0] ++ w.buffer.drop (s.length + 1) := by
      have h := lineCR_terminated s w (afterPeek c (lineCR s w)) hl rfl rfl
      rw [hmin, List.take_of_length_le (by simpa [UNBBEE_BUFLEN] using hs64)] at h
      show (afterPeek c (lineCR s w)).buffer.set (afterPeek c (lineCR s w)).bufcnt 0 = _
      rw [h]
      simp
    refine ⟨terminated (afterPeek c (lineCR s w)), hres, hbuf, ?_, ?_,
      ⟨(lineCR s w).log ++ [Ev.wdt_reset], ?_⟩, ?_⟩
    · show (lineCR s w).rx = _
      rw [hLrx, hx]
    · show (lineCR s w).rx.map Prod.snd = _
      rw [hLrx, List.map_drop, hrx]; simp
    · show (lineCR s w).log ++ [Ev.wdt_reset, Ev.peek (c.val : Int)] = _
      simp
    · intro t rest2 fuel2 ts2 ht htc ht64 harr2 hts2 hfuel2
      generalize hW : terminated (afterPeek c (lineCR s w)) = W at harr2 hts2 ⊢
      have hWrx : W.rx.map Prod.snd = t ++ 13 :: 10 :: rest2 := by
        rw [← hW]
        show (lineCR s w).rx.map Prod.snd = _
        rw [hLrx, List.map_drop, hrx]
        simp only [List.append_assoc, List.drop_left', List.drop_append_of_le_length,
          List.cons_append, List.nil_append]
        have : List.drop (s.length + 1) (s ++ 13 :: c :: rest) = c :: rest := by
          rw [show s.length + 1 = (s ++ [13]).length by simp,
            show s ++ 13 :: c :: rest = (s ++ [13]) ++ c :: rest by simp]
          exact List.drop_left _ _
        rw [this, ht]; simp
      have hWl : UNBBEE_BUFLEN < W.buffer.length := by
        rw [← hW]
        show _ < ((afterPeek c (lineCR s w)).buffer.set _ 0).length
        rw [List.length_set, hbl]; exact hl
      have h := readLine_crlf ts2 0 t (fuel2 - (t.length + 2)) W rest2 hWrx
        (fun k hk => absurd hk (Nat.not_lt_zero k))
        (fun x hx => le_trans (harr2 x hx)
          (by rw [← clockAt_zero W]; exact clockAt_mono W (by omega)))
        htc (fun k hk => hts2 k (by omega)) (by simpa using hts2 (t.length + 2) (Nat.le_refl _))
        hWl
      have e2 : 0 + t.length + 2 + (fuel2 - (t.length + 2)) = fuel2 := by omega
      have hmin2 : min UNBBEE_BUFLEN t.length = t.length :=
        Nat.min_eq_right (by simpa [UNBBEE_BUFLEN] using ht64)
      rw [e2, hmin2] at h
      refine ⟨_, h, ?_⟩
      have hb2 := afterLine_buffer 0 t W hWl
      rw [hmin2, List.take_of_length_le (show t.length ≤ UNBBEE_BUFLEN by
        simpa [UNBBEE_BUFLEN] using ht64)] at hb2
      rw [hb2]
      exact take_succ_append_cons t 0 _

/-- C6 at the input "AB" CR "CD" CR LF. -/
theorem readLine_bare_cr_leaves_next_witness :
    (∀ k, k ≤ 4 → expired 1000
      (clockAt (exampleState 0 [] (arriving 0 [65, 66, 13, 67, 68, 13, 10])) k) = false) ∧
    ∃ w', readLine 10 1000 (exampleState 0 [] (arriving 0 [65, 66, 13, 67, 68, 13, 10]))
        = .ok (2, w') ∧
      w'.rx.map Prod.snd = [67, 68, 13, 10] :=
  ⟨by decide,
   match (readLine_bare_cr_leaves_next 1000 10 [65, 66] [68, 13, 10] 67
      (exampleState 0 [] (arriving 0 [65, 66, 13, 67, 68, 13, 10]))
      (by decide) (by decide) (by decide) (by decide) (by decide) (by decide) (by decide)
      (by decide)).1 with
   | ⟨w', h1, _, _, h4, _⟩ => ⟨w', h1, h4⟩⟩

/-- C5, the claim as stated fails: the channel holds "A" and a CR, nothing follows, the
clock advances by 1 ms per reading and the deadline, 10 ms away, has not passed at the call;
the deadline is reached before the 50 ms wait for the LF is over and `readLine` returns
-1. -/
theorem readLine_cr_silence_counterexample :
    expired 10 (exampleState 0 (List.replicate 100 1) (arriving 0 [65, 13])).now = false ∧
    outcome (readLine 100 10 (exampleState 0 (List.replicate 100 1) (arriving 0 [65, 13])))
      = some (-1) := by
  decide

/-- C5, amended. Content `s` (at most 64 bytes, no CR, no LF) and a CR, queued in the
channel, with no further byte arriving until `q` rounds of the loop have found the wait for
the LF (50 ms from the clock reading made when the CR was consumed) not over and the next
round has found it over: when the deadline is not reached at the start of any round up to
that one, `readLine` returns the line `s`, in that round. -/
theorem readLine_cr_silence (ts fuel q : Nat) (s rest : List Byte) (w : State)
    (hlen : w.buffer.length = UNBBEE_BUFLEN + 1)
    (hs64 : s.length ≤ 64)
    (hs : ∀ c ∈ s, c ≠ 13 ∧ c ≠ 10)
    (hrx : w.rx.map Prod.snd = s ++ [13] ++ rest)
    (harr : ∀ x ∈ w.rx.take (s.length + 1), x.1 ≤ w.now)
    (hquiet : ∀ x ∈ (w.rx.drop (s.length + 1)).head?, clockAt w (s.length + 2 * q + 3) < x.1)
    (htw : ∀ j, j < q → expired (waitLF s w) (clockAt w (s.length + 2 * j + 3)) = false)
    (htw2 : expired (waitLF s w) (clockAt w (s.length + 2 * q + 3)) = true)
    (hts : ∀ k, k ≤ s.length → expired ts (clockAt w k) = false)
    (hts2 : ∀ j, j ≤ q → expired ts (clockAt w (s.length + 2 * j + 2)) = false)
    (hfuel : s.length + q + 2 ≤ fuel) :
    ∃ w', readLine fuel ts w = .ok ((s.length : Int), w') ∧
      w'.buffer = s ++ [0] ++ w.buffer.drop (s.length + 1) ∧
      w'.rx = w.rx.drop (s.length + 1) ∧
      w'.now = clockAt w (s.length + 2 * q + 4) := by
  have hl : UNBBEE_BUFLEN < w.buffer.length := by rw [hlen]; exact Nat.lt_succ_self _
  have hmin : min UNBBEE_BUFLEN s.length = s.length :=
    Nat.min_eq_right (by simpa [UNBBEE_BUFLEN] using hs64)
  have hcr := readLine_to_cr ts s (fuel - (s.length + 1)) w rest (by simpa using hrx)
    (fun x hx => le_trans (harr x hx)
      (by rw [← clockAt_zero w]; exact clockAt_mono w (Nat.zero_le _)))
    hs hts hl
  have e : s.length + 1 + (fuel - (s.length + 1)) = fuel := by omega
  rw [e] at hcr
  have hLrx : (lineCR s w).rx = w.rx.drop (s.length + 1) := lineCR_rx s w
  have hqL : ∀ k, k ≤ 2 * q + 1 → quietAt (clockAt (lineCR s w) k) (lineCR s w) := by
    intro k hk x hx
    rw [hLrx] at hx
    rw [lineCR_clockAt]
    exact lt_of_le_of_lt (clockAt_mono w (by omega)) (hquiet x hx)
  have ef : fuel - (s.length + 1) = q + ((fuel - (s.length + q + 2)) + 1) := by omega
  rw [ef, loop_waits ts _ q _ (lineCR s w)
    (fun j hj => hqL _ (by omega))
    (fun j hj => by
      rw [lineCR_clockAt]
      have := htw j hj
      have e2 : s.length + 2 + (2 * j + 1) = s.length + 2 * j + 3 := by omega
      rwa [e2])
    (fun j hj => by
      rw [lineCR_clockAt]
      have := hts2 j (by omega)
      have e2 : s.length + 2 + 2 * j = s.length + 2 * j + 2 := by omega
      rwa [e2])] at hcr
  generalize hX : afterWaits q (lineCR s w) = X at hcr
  have hXck : ∀ k, clockAt X k = clockAt w (s.length + 2 * q + 2 + k) := by
    intro k
    rw [← hX, afterWaits_clockAt, lineCR_clockAt]
    congr 1; omega
  have hXrx : X.rx = w.rx.drop (s.length + 1) := by rw [← hX, afterWaits_rx, hLrx]
  have hXq : quietAt (clockAt X 1) X := by
    intro x hx
    rw [hXrx] at hx
    rw [hXck]
    exact hquiet x hx
  rw [loop_silence ts _ _ X hXq (by rw [hXck]; exact htw2)
    (by rw [← clockAt_zero, hXck]; exact hts2 q (Nat.le_refl _))] at hcr
  have hcnt : (afterSilence X).bufcnt = s.length := by
    show X.bufcnt = _
    rw [← hX, afterWaits_bufcnt, lineCR_bufcnt, hmin]
  have hbl : (afterSilence X).buffer.length = w.buffer.length := by
    show X.buffer.length = _
    rw [← hX, afterWaits_buffer, lineCR_length]
  have hres : readLine fuel ts w = .ok ((s.length : Int), terminated (afterSilence X)) := by
    rw [hcr, readLineOk_eq _ (by rw [hcnt, hbl]; omega)]
    show Except.ok (((afterSilence X).bufcnt : Int), terminated (afterSilence X)) = _
    rw [hcnt]
  refine ⟨terminated (afterSilence X), hres, ?_, hXrx, ?_⟩
  · have h := lineCR_terminated s w (afterSilence X) hl
      (by show X.buffer = _; rw [← hX, afterWaits_buffer])
      (by show X.bufcnt = _; rw [← hX, afterWaits_bufcnt])
    rw [hmin, List.take_of_length_le (show s.length ≤ UNBBEE_BUFLEN by
      simpa [UNBBEE_BUFLEN] using hs64)] at h
    show (afterSilence X).buffer.set (afterSilence X).bufcnt 0 = _
    rw [h]
    simp
  · show (millis (millis X).2).2.now = _
    rw [← clockAt_zero, clockAt_succ_millis, clockAt_succ_millis, hXck]

/-- C5, amended, at the input "A" CR with nothing behind it, the clock advancing by 20 ms
per reading and the deadline 1000 ms away: one round finds the wait not over, the next
finds it over. -/
theorem readLine_cr_silence_witness :
    (∀ j, j < 1 → expired (waitLF [65] (exampleState 0 (List.replicate 20 20) (arriving 0 [65, 13])))
      (clockAt (exampleState 0 (List.replicate 20 20) (arriving 0 [65, 13])) (1 + 2 * j + 3)) = false) ∧
    expired (waitLF [65] (exampleState 0 (List.replicate 20 20) (arriving 0 [65, 13])))
      (clockAt (exampleState 0 (List.replicate 20 20) (arriving 0 [65, 13])) (1 + 2 * 1 + 3)) = true ∧
    ∃ w', readLine 5 1000 (exampleState 0 (List.replicate 20 20) (arriving 0 [65, 13]))
        = .ok (1, w') ∧
      w'.buffer = [65] ++ [0] ++ (List.replicate 65 255).drop 2 ∧
      w'.rx = [] ∧
      w'.now = 140 :=
  ⟨by decide, by decide,
   readLine_cr_silence 1000 5 1 [65] [] (exampleState 0 (List.replicate 20 20) (arriving 0 [65, 13]))
    (by decide) (by decide) (by decide) (by decide) (by decide) (by decide) (by decide)
    (by decide) (by decide) (by decide) (by decide)⟩

/-- C16. For every `nrMillis`, `mydelay` ends and its calls are, in this order: for every
round of the loop a watchdog reset followed at once by a delay of 10 ms, and a last delay,
without a watchdog reset, of what is left; the delays are at most 10 ms each and sum to
`nrMillis`, which is also the time that has passed. `mydelay(50)` is four rounds and a last
delay of 10 ms. -/
theorem mydelay_calls (nrMillis : Nat) (w : State) :
    mydelay nrMillis w =
      { w with now := w.now + nrMillis, log := w.log ++ mydelayLog nrMillis } ∧
    mydelayLog nrMillis =
      (List.replicate ((nrMillis - 1) / 10) [Ev.wdt_reset, Ev.delay 10]).flatten ++
        [Ev.delay (nrMillis - 10 * ((nrMillis - 1) / 10))] ∧
    (delayArgs (mydelayLog nrMillis)).sum = nrMillis ∧
    (∀ d ∈ delayArgs (mydelayLog nrMillis), d ≤ 10) ∧
    (mydelay 50 w).log = w.log ++
      [Ev.wdt_reset, Ev.delay 10, Ev.wdt_reset, Ev.delay 10, Ev.wdt_reset, Ev.delay 10,
       Ev.wdt_reset, Ev.delay 10, Ev.delay 10] ∧
    (sendCommandProlog w).log = (flushInput w).log ++ mydelayLog 50 := by
  refine ⟨mydelay_eq nrMillis w, rfl, (delayArgs_mydelayLog nrMillis nrMillis (by omega)).1,
    (delayArgs_mydelayLog nrMillis nrMillis (by omega)).2, ?_, ?_⟩
  · rw [mydelay_eq]
    rfl
  · unfold sendCommandProlog
    rw [mydelay_eq]

/-- C17. The value of `isTimedOut(ts)` is true exactly when the difference of the clock
value and `ts`, taken modulo `2^32`, is below `2^31`; hence with a deadline `d < 2^31` after
a start time `t0` and a clock that stands `e < 2^31` after `t0`, both wrapped to 32 bits,
`isTimedOut` is true exactly when `e >= d`. -/
theorem isTimedOut_wraparound (ts t0 d e : Nat) (w : State) :
    ((isTimedOut ts w).1 = true ↔ (((millis w).1 : Int) - (ts : Int)) % 2 ^ 32 < 2 ^ 31) ∧
    (ts < 2 ^ 32 → ((isTimedOut ts w).1 = true ↔ ((millis w).1 + 2 ^ 32 - ts) % 2 ^ 32 < 2 ^ 31)) ∧
    (d < 2 ^ 31 → e < 2 ^ 31 → (millis w).1 = (t0 + e) % 2 ^ 32 →
      ((isTimedOut ((t0 + d) % 2 ^ 32) w).1 = true ↔ d ≤ e)) := by
  have hm : (millis w).1 = w.now % 2 ^ 32 := rfl
  refine ⟨?_, ?_, ?_⟩
  · rw [isTimedOut_eq, hm]
    unfold expired toLong sub32
    simp only [decide_eq_true_eq, ge_iff_le]
    norm_num
    split <;> omega
  · intro hts
    rw [isTimedOut_eq, hm]
    unfold expired toLong sub32
    simp only [decide_eq_true_eq, ge_iff_le]
    norm_num at hts ⊢
    split <;> omega
  · intro hd he hnow
    rw [hm] at hnow
    rw [isTimedOut_eq]
    unfold expired toLong sub32
    simp only [decide_eq_true_eq, ge_iff_le]
    norm_num at hd he hnow ⊢
    split <;> omega

/-- C17 at a start time 100 ms before the clock wraps, a deadline 4000 ms later (behind the
wrap) and the clock 5000 ms after the start. -/
theorem isTimedOut_wraparound_witness :
    (4000 < 2 ^ 31) ∧ (5000 < 2 ^ 31) ∧
    ((isTimedOut ((4294967196 + 4000) % 2 ^ 32) (exampleState (4294967196 + 5000) [] [])).1 = true
      ↔ 4000 ≤ 5000) :=
  ⟨by decide, by decide,
   (isTimedOut_wraparound 0 4294967196 4000 5000 (exampleState (4294967196 + 5000) [] [])).2.2
    (by decide) (by decide) (by decide)⟩

/-- C18. When `isTimedOut(ts_max)` is true at the entry of `readLine`, it returns -1 and the
state differs only in the count, set to 0, and in the clock, read once: the channel input and
the log, which would show a read or a peek, are as before, whatever the channel holds.
Hence `waitForOK(0)`, with less than `2^31` ms passing between its two clock readings,
returns false and leaves the channel input and the log as they were. -/
theorem readLine_deadline_reached (fuel ts_max : Nat) (w : State) :
    ((isTimedOut ts_max w).1 = true →
      readLine (fuel + 1) ts_max w =
        .ok (-1, { w with bufcnt := 0, now := w.now + w.ticks.headD 0, ticks := w.ticks.tail })) ∧
    (w.ticks.headD 0 < 2 ^ 31 →
      ∃ w', waitForOK (fuel + 1) 0 w = .ok (false, w') ∧
        w'.rx = w.rx ∧ w'.log = w.log ∧ w'.tx = w.tx ∧ w'.buffer = w.buffer ∧
        w'.bufcnt = 0 ∧ w'.echoOff = w.echoOff ∧ w'.now = clockAt w 2) := by
  refine ⟨readLine_expired fuel ts_max w, ?_⟩
  intro hstep
  have hexp : (isTimedOut (deadline 0 w) (millis w).2).1 = true := by
    rw [isTimedOut_eq, deadline_eq]
    show expired ((w.now % 2 ^ 32 + 0 % 2 ^ 16) % 2 ^ 32) (w.now + w.ticks.headD 0) = true
    exact expired_after w.now 0 (w.ticks.headD 0) (Nat.zero_le _) (by simpa using hstep)
  rw [waitForOK_eq, waitForOKLoop_expired fuel _ fuel _ hexp]
  refine ⟨_, rfl, rfl, rfl, rfl, rfl, rfl, rfl, ?_⟩
  show (millis (millis w).2).2.now = _
  rw [← clockAt_zero, clockAt_succ_millis, clockAt_succ_millis]

/-- C18 at a channel that holds "OK" CR LF, the clock advancing by 1 ms per reading: a
`readLine` whose deadline is the current clock value, and `waitForOK(0)`. -/
theorem readLine_deadline_reached_witness :
    (isTimedOut 0 (exampleState 0 [1, 1, 1] (arriving 0 [79, 75, 13, 10]))).1 = true ∧
    readLine (0 + 1) 0 (exampleState 0 [1, 1, 1] (arriving 0 [79, 75, 13, 10])) =
      .ok (-1, { exampleState 0 [1, 1, 1] (arriving 0 [79, 75, 13, 10]) with
        bufcnt := 0, now := 0 + 1, ticks := [1, 1] }) ∧
    ∃ w', waitForOK (0 + 1) 0 (exampleState 0 [1, 1, 1] (arriving 0 [79, 75, 13, 10]))
        = .ok (false, w') ∧
      w'.rx = arriving 0 [79, 75, 13, 10] ∧ w'.log = [] :=
  ⟨by decide,
   (readLine_deadline_reached 0 0 (exampleState 0 [1, 1, 1] (arriving 0 [79, 75, 13, 10]))).1
     (by decide),
   match (readLine_deadline_reached 0 0
      (exampleState 0 [1, 1, 1] (arriving 0 [79, 75, 13, 10]))).2 (by decide) with
   | ⟨w', h, hrx, hlog, _⟩ => ⟨w', h, hrx, hlog⟩⟩

/-- C12. The echo flag is false after `init`. `switchEchoOff` with the flag true returns
the state as it is: nothing written, nothing read, the flag true. With the flag false it
runs the "ATE0" exchange and the flag becomes the result of that exchange's `waitForOK`:
true for true, false when the exchange fails. No other operation changes a true flag. -/
theorem echoOff_monotone (fuel ts timeout size : Nat) (cmd reply : List Byte)
    (fs : List Fragment) (w : State)
    (hlen : w.buffer.length = UNBBEE_BUFLEN + 1) :
    (init w).echoOff = false ∧
    (w.echoOff = true → switchEchoOff fuel w = .ok w) ∧
    (w.echoOff = false → ∀ w', switchEchoOff fuel w = .ok w' →
      ∃ r w1, sendCommandWaitForOK_P fuel strATE0 4000 w = .ok (r, w1) ∧
        w1.echoOff = false ∧ w' = { w1 with echoOff := r } ∧ w'.echoOff = r) ∧
    (w.echoOff = true →
      (∀ w', switchEchoOff fuel w = .ok w' → w'.echoOff = true) ∧
      (∀ r w', readLine fuel ts w = .ok (r, w') → w'.echoOff = true) ∧
      (∀ r w', waitForOK fuel timeout w = .ok (r, w') → w'.echoOff = true) ∧
      (flushInput w).echoOff = true ∧
      (mydelay timeout w).echoOff = true ∧
      (sendCommandEpilog (sendCommandAddAll fs (sendCommandProlog w))).echoOff = true ∧
      (sendCommand cmd w).echoOff = true ∧
      (sendCommand_P cmd w).echoOff = true ∧
      (∀ r w', sendCommandWaitForOK fuel cmd timeout w = .ok (r, w') → w'.echoOff = true) ∧
      (∀ r w', sendCommandWaitForOK_P fuel cmd timeout w = .ok (r, w') → w'.echoOff = true) ∧
      (∀ b r w', getStrValue fuel cmd reply size ts w = .ok (b, r, w') → w'.echoOff = true) ∧
      (∀ r w', sendMessage fuel cmd w = .ok (r, w') → w'.echoOff = true) ∧
      (∀ b r w', getDeviceID fuel reply size w = .ok (b, r, w') → w'.echoOff = true)) := by
  have hl : UNBBEE_BUFLEN < w.buffer.length := by rw [hlen]; exact Nat.lt_succ_self _
  refine ⟨rfl, switchEchoOff_on fuel w, ?_, ?_⟩
  · intro he w' hs
    obtain ⟨r, w1, h1, h2, h3, _⟩ := switchEchoOff_off fuel w w' hl he hs
    exact ⟨r, w1, h1, h3, h2, by rw [h2]⟩
  · intro he
    refine ⟨?_, ?_, ?_, ?_, ?_, ?_, ?_, ?_, ?_, ?_, ?_, ?_, ?_⟩
    · intro w' hs
      exact (switchEchoOff_post fuel w w' hl hs).2.1 he
    · intro r w' h
      rw [(readLine_post fuel ts w hl).2 r w' h |>.2.1]; exact he
    · intro r w' h
      rw [((waitForOK_post fuel timeout w hl).2 r w' h).2.1]; exact he
    · show (flushInputLoop w.rx.length w).echoOff = true
      rw [(same_flushInputLoop _ w).2.1]; exact he
    · rw [mydelay_eq]; exact he
    · rw [(framed_fields fs w).1]; exact he
    · rw [(same_sendCommand cmd w).1]; exact he
    · rw [(same_sendCommand_P cmd w).1]; exact he
    · intro r w' h
      rw [((waitForOK_post fuel timeout (sendCommand cmd w)
        (by rw [(same_sendCommand cmd w).2.1]; exact hl)).2 r w' h).2.1,
        (same_sendCommand cmd w).1]
      exact he
    · intro r w' h
      rw [((waitForOK_post fuel timeout (sendCommand_P cmd w)
        (by rw [(same_sendCommand_P cmd w).2.1]; exact hl)).2 r w' h).2.1,
        (same_sendCommand_P cmd w).1]
      exact he
    · intro b r w' h
      rw [(getStrValue_post fuel size ts cmd reply w hl b r w' h).2.1]; exact he
    · intro r w' h
      exact (sendMessage_post fuel cmd w hl r w' h).1 he
    · intro b r w' h
      exact (getDeviceID_post fuel size reply w hl b r w' h).1 he

/-- C12 at a state with the flag false and the reply "OK" CR LF arriving 60 ms after the
start and the clock advancing by 10 ms per reading: `switchEchoOff` sets the flag; in the state it returns, a second call changes
nothing. -/
theorem echoOff_monotone_witness :
    (exampleState 0 (List.replicate 20 10) (arriving 60 [79, 75, 13, 10])).buffer.length = UNBBEE_BUFLEN + 1 ∧
    (exampleState 0 (List.replicate 20 10) (arriving 60 [79, 75, 13, 10])).echoOff = false ∧
    ((switchEchoOff 6 (exampleState 0 (List.replicate 20 10) (arriving 60 [79, 75, 13, 10]))).toOption.map
      (fun w' => w'.echoOff)) = some true ∧
    (∀ w', switchEchoOff 6 (exampleState 0 (List.replicate 20 10) (arriving 60 [79, 75, 13, 10])) = .ok w' →
      ∃ r w1, sendCommandWaitForOK_P 6 strATE0 4000
          (exampleState 0 (List.replicate 20 10) (arriving 60 [79, 75, 13, 10])) = .ok (r, w1) ∧
        w1.echoOff = false ∧ w' = { w1 with echoOff := r } ∧ w'.echoOff = r) ∧
    switchEchoOff 6 { exampleState 0 [] [] with echoOff := true } =
      .ok { exampleState 0 [] [] with echoOff := true } :=
  ⟨by decide, by decide, by decide,
   (echoOff_monotone 6 0 0 0 [] [] [] (exampleState 0 (List.replicate 20 10) (arriving 60 [79, 75, 13, 10]))
     (by decide)).2.2.1 (by decide),
   (echoOff_monotone 6 0 0 0 [] [] [] { exampleState 0 [] [] with echoOff := true }
     (by decide)).2.1 (by decide)⟩

/-- C11, the claim as stated fails: with the flag false and a channel that stays silent (the
clock advancing by 1000 ms per reading), the first `switchEchoOff` times out and leaves the
flag false, and the second call transmits "ATE0" CR again: two transmissions. -/
theorem switchEchoOff_twice_counterexample :
    (((switchEchoOff 8 (exampleState 0 (List.replicate 30 1000) [])).bind
      (fun w1 => switchEchoOff 8 w1)).toOption.map (fun w2 => w2.tx)) =
      some (strATE0 ++ [13] ++ (strATE0 ++ [13])) := by
  decide

/-- C11, amended. Each call of `switchEchoOff` transmits "ATE0" CR at most once. Of two
consecutive calls the second transmits nothing, and changes nothing, when the first leaves
the flag true (its exchange was confirmed with "OK", or the flag was already true), so that
there is at most one transmission in total; when the first starts with the flag false and
its exchange fails, the second transmits again: two transmissions. -/
theorem switchEchoOff_twice (f1 f2 : Nat) (w w1 w2 : State)
    (hlen : w.buffer.length = UNBBEE_BUFLEN + 1)
    (h1 : switchEchoOff f1 w = .ok w1)
    (h2 : switchEchoOff f2 w1 = .ok w2) :
    (w1.tx = w.tx ∨ w1.tx = w.tx ++ strATE0 ++ [13]) ∧
    (w2.tx = w1.tx ∨ w2.tx = w1.tx ++ strATE0 ++ [13]) ∧
    (w1.echoOff = true → w2 = w1 ∧ (w2.tx = w.tx ∨ w2.tx = w.tx ++ strATE0 ++ [13])) ∧
    (w.echoOff = false → w1.echoOff = false →
      w2.tx = w.tx ++ strATE0 ++ [13] ++ strATE0 ++ [13]) := by
  have hl : UNBBEE_BUFLEN < w.buffer.length := by rw [hlen]; exact Nat.lt_succ_self _
  obtain ⟨p1, _, p3⟩ := switchEchoOff_post f1 w w1 hl h1
  have hl1 : UNBBEE_BUFLEN < w1.buffer.length := by rw [p1]; exact hl
  obtain ⟨_, _, q3⟩ := switchEchoOff_post f2 w1 w2 hl1 h2
  refine ⟨p3, q3, ?_, ?_⟩
  · intro he
    rw [switchEchoOff_on f2 w1 he] at h2
    simp only [Except.ok.injEq] at h2
    rw [← h2]
    exact ⟨rfl, p3⟩
  · intro he he1
    obtain ⟨_, _, _, a2, _, a4, _⟩ := switchEchoOff_off f1 w w1 hl he h1
    obtain ⟨_, _, _, b2, _, b4, _⟩ := switchEchoOff_off f2 w1 w2 hl1 he1 h2
    have t1 : w1.tx = w.tx ++ strATE0 ++ [13] := by rw [a2]; exact a4
    rw [b2]
    show _ = _
    rw [show ({ (_ : State) with echoOff := _ } : State).tx = _ from b4, t1]

/-- C11, amended, at a state with the flag false and the reply "OK" CR LF arriving 60 ms
after the start: the first call transmits once and sets the flag, the second changes
nothing. -/
theorem switchEchoOff_twice_witness :
    ((switchEchoOff 6 (exampleState 0 (List.replicate 20 10) (arriving 60 [79, 75, 13, 10]))).toOption.map
      (fun w1 => (w1.tx, w1.echoOff))) = some (strATE0 ++ [13], true) ∧
    (∀ w1 w2, switchEchoOff 6 (exampleState 0 (List.replicate 20 10) (arriving 60 [79, 75, 13, 10])) = .ok w1 →
      switchEchoOff 6 w1 = .ok w2 →
      (w1.echoOff = true → w2 = w1 ∧
        (w2.tx = (exampleState 0 (List.replicate 20 10) (arriving 60 [79, 75, 13, 10])).tx ∨
         w2.tx = (exampleState 0 (List.replicate 20 10) (arriving 60 [79, 75, 13, 10])).tx ++ strATE0 ++ [13]))) :=
  ⟨by decide,
   fun w1 w2 h1 h2 =>
    (switchEchoOff_twice 6 6 (exampleState 0 (List.replicate 20 10) (arriving 60 [79, 75, 13, 10])) w1 w2
      (by decide) h1 h2).2.2.1⟩

/-- C15. `waitForOK` computes the deadline once, as the clock value at entry plus the
timeout modulo `2^32`, and its loop hands this value to `readLine` in every round. A round
of the loop that starts with `isTimedOut` true for it (the clock at or after the deadline,
by less than `2^31` ms) returns false and leaves the channel input and the log as they are.
So for non-terminal lines queued in the channel, read before the deadline, with the next
round starting at or after the deadline, `waitForOK` returns false and what follows these
lines, whatever it is, is not consumed. -/
theorem waitForOK_deadline_fixed (fuel lf timeout n ts : Nat) (ls : List (List Byte))
    (rest : List Byte) (w v : State)
    (hlen : w.buffer.length = UNBBEE_BUFLEN + 1) :
    waitForOK fuel timeout w =
      waitForOKLoop fuel ((w.now % 2 ^ 32 + timeout % 2 ^ 16) % 2 ^ 32) fuel (millis w).2 ∧
    waitForOKLoop lf ts (n + 1) v =
      (match readLine lf ts v with
       | .error e => .error e
       | .ok (len, w1) =>
         if len ≥ 0 then
           if len = 0 then waitForOKLoop lf ts n w1
           else if strcmp_P w1.buffer strOK = 0 then .ok (true, w1)
           else if strcmp_P w1.buffer strERROR = 0 then .ok (false, w1)
           else waitForOKLoop lf ts n w1
         else .ok (false, w1)) ∧
    (∀ e, timeout % 2 ^ 16 ≤ e → e - timeout % 2 ^ 16 < 2 ^ 31 → v.now = w.now + e →
      (isTimedOut (deadline timeout w) v).1 = true) ∧
    ((isTimedOut ts v).1 = true →
      ∃ v', waitForOKLoop (lf + 1) ts (n + 1) v = .ok (false, v') ∧
        v'.rx = v.rx ∧ v'.log = v.log ∧ v'.tx = v.tx) ∧
    ((∀ l ∈ ls, passedOver l) →
      w.rx.map Prod.snd = wire ls ++ rest →
      (∀ x ∈ w.rx.take (wire ls).length, x.1 ≤ w.now) →
      (∀ k, 1 ≤ k → k ≤ (wire ls).length + ls.length →
        expired (deadline timeout w) (clockAt w k) = false) →
      expired (deadline timeout w) (clockAt w ((wire ls).length + ls.length + 1)) = true →
      (wire ls).length + 1 ≤ fuel →
      ∃ w', waitForOK fuel timeout w = .ok (false, w') ∧
        w'.rx = w.rx.drop (wire ls).length ∧ w'.rx.map Prod.snd = rest) := by
  have hl : UNBBEE_BUFLEN < w.buffer.length := by rw [hlen]; exact Nat.lt_succ_self _
  refine ⟨rfl, by rw [waitForOKLoop], ?_, ?_, ?_⟩
  · intro e h1 h2 hv
    rw [isTimedOut_eq, deadline_eq, hv]
    exact expired_after w.now (timeout % 2 ^ 16) e h1 h2
  · intro h
    rw [waitForOKLoop_expired lf ts n v h]
    exact ⟨_, rfl, rfl, rfl, rfl⟩
  · intro hls hrx harr hts hend hfuel
    have hc := count_le_wire ls
    have e1 : fuel = ls.length + ((fuel - ls.length - 1) + 1) := by omega
    have e2 : fuel = (fuel - 1) + 1 := by omega
    rw [waitForOK_eq]
    generalize deadline timeout w = tsd at hts hend ⊢
    have hskip := waitLoop_lines fuel tsd ((fuel - ls.length - 1) + 1) ls rest (millis w).2
      (fun l hl => verdict_passedOver l (hls l hl)) (fun l hl => (hls l hl).1) hrx
      (fun x hx => le_trans (harr x hx)
        (by rw [← clockAt_zero (millis w).2, clockAt_succ_millis, ← clockAt_zero w]
            exact clockAt_mono w (by omega)))
      (fun k hk => by rw [clockAt_succ_millis]; exact hts (k + 1) (by omega) (by omega))
      hl (fun l hl => by have := length_le_wire ls l hl; omega)
    rw [← e1] at hskip
    rw [hskip]
    have hexp : (isTimedOut tsd (afterLines ls (millis w).2)).1 = true := by
      rw [isTimedOut_eq, afterLines_now, clockAt_succ_millis]
      exact hend
    have hfin := waitForOKLoop_expired (fuel - 1) tsd (fuel - ls.length - 1)
      (afterLines ls (millis w).2) hexp
    rw [← e2] at hfin
    rw [hfin]
    refine ⟨_, rfl, ?_, ?_⟩
    · show (afterLines ls (millis w).2).rx = _
      rw [afterLines_rx]; rfl
    · show (afterLines ls (millis w).2).rx.map Prod.snd = _
      rw [afterLines_rx]
      show (w.rx.drop _).map Prod.snd = _
      rw [List.map_drop, hrx]; simp

/-- C15 at the stream "A" CR LF "B" CR LF "OK" CR LF, a timeout of 5 ms and the clock
advancing by 1 ms per reading: the line "A" is read, the next round starts at the deadline,
and `waitForOK` returns false with "B" CR LF "OK" CR LF left in the channel. -/
theorem waitForOK_deadline_fixed_witness :
    (∀ l ∈ [([65] : List Byte)], passedOver l) ∧
    expired (deadline 5 (exampleState 0 (List.replicate 20 1)
      (arriving 0 [65, 13, 10, 66, 13, 10, 79, 75, 13, 10])))
      (clockAt (exampleState 0 (List.replicate 20 1)
        (arriving 0 [65, 13, 10, 66, 13, 10, 79, 75, 13, 10]))
        ((wire [[65]]).length + [([65] : List Byte)].length + 1)) = true ∧
    ∃ w', waitForOK 4 5 (exampleState 0 (List.replicate 20 1)
        (arriving 0 [65, 13, 10, 66, 13, 10, 79, 75, 13, 10])) = .ok (false, w') ∧
      w'.rx = (exampleState 0 (List.replicate 20 1)
        (arriving 0 [65, 13, 10, 66, 13, 10, 79, 75, 13, 10])).rx.drop (wire [[65]]).length ∧
      w'.rx.map Prod.snd = [66, 13, 10, 79, 75, 13, 10] :=
  ⟨fun l hl => by
      rw [List.mem_singleton.mp hl]
      exact ⟨by decide, Or.inr ⟨by decide, by decide⟩⟩,
   by decide,
   (waitForOK_deadline_fixed 4 0 5 0 0 [[65]] [66, 13, 10, 79, 75, 13, 10]
      (exampleState 0 (List.replicate 20 1)
        (arriving 0 [65, 13, 10, 66, 13, 10, 79, 75, 13, 10]))
      (exampleState 0 [] []) (by decide)).2.2.2.2
      (fun l hl => by
        rw [List.mem_singleton.mp hl]
        exact ⟨by decide, Or.inr ⟨by decide, by decide⟩⟩)
      (by decide) (by decide) (by decide) (by decide) (by decide)⟩

/-- C14, the claim as stated fails: the channel holds the line "OK" NUL "x", of four bytes,
and `waitForOK` does not skip it but returns true. -/
theorem waitForOK_tokens_counterexample :
    ([79, 75, 0, 120] : List Byte) ≠ strOK ∧ ([79, 75, 0, 120] : List Byte).length = 4 ∧
    outcome (waitForOK 8 4000
      (exampleState 0 [] (arriving 0 ([79, 75, 0, 120] ++ [13, 10])))) = some true := by
  decide

/-- C14, amended. The terminal tokens are matched as C strings, case-sensitive: whatever
the channel holds, `waitForOK` returns true only after a `readLine` whose line, cut at its
first NUL, is "OK", and returns false only after a `readLine` that timed out or whose line,
cut at its first NUL, is "ERROR". For a line queued in the channel with its CR LF the
outcome is `verdict`: true exactly when the line cut at its first NUL is "OK", false
exactly when it is "ERROR" (for a line without NUL: when the line itself is "OK", is
"ERROR"), and otherwise the line is skipped, as are "ok", "OK " and "OKAY"; the line "OK"
NUL "x" is taken for "OK". -/
theorem waitForOK_terminal_tokens (fuel timeout lf ts n : Nat) (l rest : List Byte)
    (w v : State)
    (hlen : w.buffer.length = UNBBEE_BUFLEN + 1) :
    (∀ b w', waitForOK fuel timeout w = .ok (b, w') →
      ∃ len wl, readLine fuel (deadline timeout w) wl = .ok (len, w') ∧
        (b = true → 0 < len ∧ len = (w'.bufcnt : Int) ∧
          cstr (w'.buffer.take w'.bufcnt) = strOK) ∧
        (b = false → len < 0 ∨ (0 < len ∧ len = (w'.bufcnt : Int) ∧
          cstr (w'.buffer.take w'.bufcnt) = strERROR))) ∧
    (v.buffer.length = UNBBEE_BUFLEN + 1 →
      v.rx.map Prod.snd = l ++ [13, 10] ++ rest →
      (∀ x ∈ v.rx.take (l.length + 2), x.1 ≤ v.now) →
      (∀ c ∈ l, c ≠ 13 ∧ c ≠ 10) →
      (∀ k, k ≤ l.length + 2 → expired ts (clockAt v k) = false) →
      l.length + 2 ≤ lf →
      ∃ v', v'.rx = v.rx.drop (l.length + 2) ∧
        waitForOKLoop lf ts (n + 1) v =
          match verdict l with
          | some b => .ok (b, v')
          | none => waitForOKLoop lf ts n v') ∧
    (verdict l = some true ↔ cstr l = strOK) ∧
    (verdict l = some false ↔ cstr l = strERROR) ∧
    ((∀ c ∈ l, c ≠ 0) → (verdict l = some true ↔ l = strOK) ∧
      (verdict l = some false ↔ l = strERROR)) ∧
    verdict [111, 107] = none ∧ verdict [79, 75, 32] = none ∧
    verdict [79, 75, 65, 89] = none ∧ verdict [79, 75, 0, 120] = some true := by
  have hl : UNBBEE_BUFLEN < w.buffer.length := by rw [hlen]; exact Nat.lt_succ_self _
  refine ⟨?_, ?_, verdict_true_iff l, verdict_false_iff l, ?_, by decide, by decide, by decide,
    by decide⟩
  · intro b w' h
    rw [waitForOK_eq] at h
    exact waitForOKLoop_result fuel _ fuel (millis w).2 hl b w' h
  · intro hvl hrx harr hcl hts hlf
    refine ⟨afterLine 0 l v, afterLine_rx 0 l v, ?_⟩
    exact waitLoop_line lf ts n l rest v (by simpa using hrx) harr hcl hts
      (by rw [hvl]; exact Nat.lt_succ_self _) hlf
  · intro hn
    rw [verdict_true_iff, verdict_false_iff, cstr_of_no_nul l hn]
    exact ⟨Iff.rfl, Iff.rfl⟩

/-- C14, amended, at the line "OK " CR LF followed by "OK" CR LF: the first line is skipped,
the second gives true. -/
theorem waitForOK_terminal_tokens_witness :
    (exampleState 0 [] (arriving 0 [79, 75, 32, 13, 10, 79, 75, 13, 10])).buffer.length
      = UNBBEE_BUFLEN + 1 ∧
    (∀ c ∈ ([79, 75, 32] : List Byte), c ≠ 0) ∧
    (verdict [79, 75, 32] = some true ↔ ([79, 75, 32] : List Byte) = strOK) ∧
    outcome (waitForOK 9 4000
      (exampleState 0 [] (arriving 0 [79, 75, 32, 13, 10, 79, 75, 13, 10]))) = some true ∧
    (∀ b w', waitForOK 9 4000
        (exampleState 0 [] (arriving 0 [79, 75, 32, 13, 10, 79, 75, 13, 10])) = .ok (b, w') →
      ∃ len wl, readLine 9 (deadline 4000
          (exampleState 0 [] (arriving 0 [79, 75, 32, 13, 10, 79, 75, 13, 10]))) wl
          = .ok (len, w') ∧
        (b = true → 0 < len ∧ len = (w'.bufcnt : Int) ∧
          cstr (w'.buffer.take w'.bufcnt) = strOK) ∧
        (b = false → len < 0 ∨ (0 < len ∧ len = (w'.bufcnt : Int) ∧
          cstr (w'.buffer.take w'.bufcnt) = strERROR))) :=
  ⟨by decide, by decide,
   ((waitForOK_terminal_tokens 9 4000 0 0 0 [79, 75, 32] []
      (exampleState 0 [] (arriving 0 [79, 75, 32, 13, 10, 79, 75, 13, 10]))
      (exampleState 0 [] []) (by decide)).2.2.2.2.1 (by decide)).1,
   by decide,
   (waitForOK_terminal_tokens 9 4000 0 0 0 [79, 75, 32] []
      (exampleState 0 [] (arriving 0 [79, 75, 32, 13, 10, 79, 75, 13, 10]))
      (exampleState 0 [] []) (by decide)).1⟩

/-- C13. After the command is sent the channel delivers only empty lines (`ls`, after `p`
rounds of polling) and then nothing until, `q` rounds later, a round finds the deadline
`ts_max` reached: `getStrValue` returns false in the state in which that `readLine` times
out, one clock reading after the deadline was found reached, with the reply buffer as the
caller gave it and what comes after the empty lines not consumed. In general, whenever the
loop of `getStrValue` ends with a negative length, the reply buffer is unchanged and
`getStrValue` returns false in the very state in which the last `readLine` returned it. -/
theorem getStrValue_timeout (fuel size ts_max p q : Nat) (cmd reply : List Byte)
    (ls : List (List Byte)) (rest : List Byte) (w W : State)
    (hlen : w.buffer.length = UNBBEE_BUFLEN + 1)
    (hW : sendCommand cmd w = W)
    (hempty : ∀ l ∈ ls, l = [])
    (hp : ls = [] → p = 0)
    (hrx : W.rx.map Prod.snd = wire ls ++ rest)
    (hq : ∀ k, k < p → quietAt (clockAt W (k + 1)) W)
    (harr : ∀ x ∈ W.rx.take (wire ls).length, x.1 ≤ clockAt W (p + 1))
    (hquiet : ∀ x ∈ (W.rx.drop (wire ls).length).head?,
      clockAt W (p + (wire ls).length + ls.length + q) < x.1)
    (hts : ∀ k, k < p + (wire ls).length + ls.length + q →
      expired ts_max (clockAt W k) = false)
    (hexp : expired ts_max (clockAt W (p + (wire ls).length + ls.length + q)) = true)
    (hfuel : ls.length + p + q + 2 ≤ fuel) :
    (∃ w', getStrValue fuel cmd reply size ts_max w = .ok (false, reply, w') ∧
      w'.rx = W.rx.drop (wire ls).length ∧
      w'.rx.map Prod.snd = rest ∧
      w'.now = clockAt W (p + (wire ls).length + ls.length + q + 1) ∧
      w'.tx = W.tx) ∧
    (∀ len r w1, getStrValueLoop fuel size ts_max fuel reply W = .ok (len, r, w1) → len < 0 →
      r = reply ∧ getStrValue fuel cmd reply size ts_max w = .ok (false, reply, w1) ∧
      ∃ wl, readLine fuel ts_max wl = .ok (len, w1)) := by
  have hl : UNBBEE_BUFLEN < W.buffer.length := by
    rw [← hW, (same_sendCommand cmd w).2.1, hlen]; exact Nat.lt_succ_self _
  constructor
  · obtain ⟨X, hX, hXrx, hXck, hXtx, _, _⟩ := getLoop_prefix fuel size ts_max p ls rest W
      hempty hp hrx hq harr (fun k hk => hts k (by omega)) hl (by omega)
    obtain ⟨w', hr, hrx', hnow', htx', _, _⟩ := readLine_polls_timeout ts_max q (fuel - q - 1) X
      (by
        intro k hk x hx
        rw [hXrx] at hx
        rw [hXck]
        exact lt_of_le_of_lt (clockAt_mono W (by omega)) (hquiet x hx))
      (fun k hk => by rw [hXck]; exact hts _ (by omega))
      (by rw [hXck]; exact hexp)
    have eq1 : q + (fuel - q - 1 + 1) = fuel := by omega
    rw [eq1] at hr
    have e : fuel = ls.length + ((fuel - ls.length - 1) + 1) := by omega
    have hloop : getStrValueLoop fuel size ts_max fuel reply W = .ok (-1, reply, w') := by
      conv => lhs; arg 4; rw [e]
      rw [hX, getStrValueLoop, hr]
      rfl
    refine ⟨w', ?_, by rw [hrx', hXrx], ?_, ?_, by rw [htx', hXtx]⟩
    · unfold getStrValue
      rw [hW, hloop]
      rfl
    · rw [hrx', hXrx, List.map_drop, hrx]; simp
    · rw [hnow', hXck]
      rfl
  · intro len r w1 hloop hneg
    obtain ⟨_, _, _, _, a5, _, wl, _, a8⟩ :=
      getStrValueLoop_post fuel size ts_max fuel reply W hl len r w1 hloop
    have hr : r = reply := a5 hneg
    refine ⟨hr, ?_, wl, a8⟩
    unfold getStrValue
    rw [hW, hloop]
    dsimp only
    rw [if_pos hneg, hr]

/-- C13 at the command "ATI7" answered by two empty lines 65 ms after the start and nothing
more, the clock advancing by 10 ms per reading and the deadline at 150 ms: the result is
false, the reply buffer is as given, and `getStrValue` is back at 160 ms. -/
theorem getStrValue_timeout_witness :
    (∀ l ∈ [([] : List Byte), []], l = []) ∧
    expired 150 (clockAt (sendCommand strATI7 (exampleState 0 (List.replicate 30 10)
      (arriving 65 [13, 10, 13, 10]))) (1 + (wire [[], []]).length + 2 + 3)) = true ∧
    ∃ w', getStrValue 8 strATI7 (List.replicate 8 255) 8 150
        (exampleState 0 (List.replicate 30 10) (arriving 65 [13, 10, 13, 10]))
        = .ok (false, List.replicate 8 255, w') ∧
      w'.rx = [] ∧ w'.now = 160 :=
  ⟨by decide, by decide,
   match (getStrValue_timeout 8 8 150 1 3 strATI7 (List.replicate 8 255) [[], []] []
      (exampleState 0 (List.replicate 30 10) (arriving 65 [13, 10, 13, 10]))
      (sendCommand strATI7 (exampleState 0 (List.replicate 30 10)
        (arriving 65 [13, 10, 13, 10])))
      (by decide) rfl (by decide) (by decide) (by decide) (by decide) (by decide) (by decide)
      (by decide) (by decide) (by decide)).1 with
   | ⟨w', h, hrx, _, hnow, _⟩ => ⟨w', h, hrx, hnow.trans (by decide)⟩⟩

/-- C19. After the command is sent the channel delivers empty lines (`ls`, after `p` rounds
of polling) and then a line `v` that is not empty (after `p2` more rounds), all read before
`ts_max`: whatever the content of `v`, also "OK" or "ERROR", `getStrValue` copies it, cut
at 64 bytes, at its first NUL and at `size - 1` bytes, into the reply buffer, and its result
is that of `waitForOK` started in the state behind `v`. With the reply "ERROR" CR LF "OK"
CR LF, read within the deadlines, and a reply buffer of `size >= 6` bytes, the result is true
and the value "ERROR"; with "OK" CR LF "ERROR" CR LF it is false and the value "OK". -/
theorem getStrValue_first_line (fuel size ts_max p p2 : Nat) (cmd reply v : List Byte)
    (ls : List (List Byte)) (rest : List Byte) (w W : State)
    (hlen : w.buffer.length = UNBBEE_BUFLEN + 1)
    (hW : sendCommand cmd w = W)
    (hempty : ∀ l ∈ ls, l = [])
    (hp : ls = [] → p = 0)
    (hrx : W.rx.map Prod.snd = wire ls ++ (v ++ [13, 10] ++ rest))
    (hv0 : v ≠ []) (hv : ∀ b ∈ v, b ≠ 13 ∧ b ≠ 10)
    (h1 : 1 ≤ size) (h2 : size ≤ reply.length) (h3 : size < 2 ^ 16)
    (hq : ∀ k, k < p → quietAt (clockAt W (k + 1)) W)
    (harr : ∀ x ∈ W.rx.take (wire ls).length, x.1 ≤ clockAt W (p + 1))
    (hq2 : ∀ k, k < p2 → ∀ x ∈ (W.rx.drop (wire ls).length).head?,
      clockAt W (p + (wire ls).length + ls.length + k + 1) < x.1)
    (harr2 : ∀ x ∈ (W.rx.drop (wire ls).length).take (v.length + 2),
      x.1 ≤ clockAt W (p + (wire ls).length + ls.length + p2 + 1))
    (hts : ∀ k, k ≤ p + (wire ls).length + ls.length + p2 + v.length + 2 →
      expired ts_max (clockAt W k) = false)
    (hfuel : ls.length + p + p2 + v.length + 2 ≤ fuel) :
    (∃ r X, cstr r = (cstr (v.take 64)).take (size - 1) ∧ r.length = reply.length ∧
      X.rx.map Prod.snd = rest ∧
      (∀ k, clockAt X k =
        clockAt W (p + (wire ls).length + ls.length + p2 + v.length + 3 + k)) ∧
      getStrValue fuel cmd reply size ts_max w =
        match waitForOK fuel 4000 X with
        | .error e => .error e
        | .ok (b, w2) => .ok (b, r, w2)) ∧
    (∀ (n sz t : Nat) (c buf : List Byte) (stale later : List (Nat × Byte)) (w0 : State),
      w0.buffer.length = UNBBEE_BUFLEN + 1 →
      w0.rx = stale ++ later → (∀ x ∈ stale, x.1 ≤ w0.now) → (∀ x ∈ later, w0.now < x.1) →
      later.map Prod.snd = strERROR ++ [13, 10] ++ strOK ++ [13, 10] →
      6 ≤ sz → sz ≤ buf.length → sz < 2 ^ 16 →
      (∀ k, k < n → ∀ x ∈ later.head?, clockAt (sendCommand c w0) (k + 1) < x.1) →
      (∀ x ∈ later, x.1 ≤ clockAt (sendCommand c w0) (n + 1)) →
      (∀ k, k ≤ n + 7 → expired t (clockAt (sendCommand c w0) k) = false) →
      clockAt (sendCommand c w0) (n + 13) < clockAt (sendCommand c w0) (n + 8) + 4000 →
      n + 9 ≤ fuel →
      ∃ r w', getStrValue fuel c buf sz t w0 = .ok (true, r, w') ∧ cstr r = strERROR) ∧
    captured (getStrValue 9 strATI7 (List.replicate 8 255) 8 2000
      (exampleState 0 (List.replicate 30 10)
        (arriving 65 (strERROR ++ [13, 10] ++ strOK ++ [13, 10])))) = some (true, strERROR) ∧
    captured (getStrValue 9 strATI7 (List.replicate 8 255) 8 2000
      (exampleState 0 (List.replicate 30 10)
        (arriving 65 (strOK ++ [13, 10] ++ strERROR ++ [13, 10])))) = some (false, strOK) := by
  have hl : UNBBEE_BUFLEN < W.buffer.length := by
    rw [← hW, (same_sendCommand cmd w).2.1, hlen]; exact Nat.lt_succ_self _
  refine ⟨?_, ?_, by decide, by decide⟩
  swap
  · intro n sz t c buf stale later w0 a0 a1 a2 a3 a4 a5 a6 a7 a8 a9 a10 a11 a12
    obtain ⟨r, w', h, hc, _, _, _⟩ := getStrValue_reply fuel n sz t c strERROR buf stale later w0
      a0 a1 a2 a3 a4 (by decide) (by decide) (by decide) (by omega) a6 a7 a8 a9 a10 a11 a12
    refine ⟨r, w', h, ?_⟩
    rw [hc]
    exact List.take_of_length_le (by
      have : strERROR.length = 5 := rfl
      omega)
  obtain ⟨X, hX, hXrx, hXck, _, _, hXlen⟩ := getLoop_prefix fuel size ts_max p ls
    (v ++ [13, 10] ++ rest) W hempty hp hrx hq harr (fun k hk => hts k (by omega)) hl
    (by omega)
  have hlX : UNBBEE_BUFLEN < X.buffer.length := by rw [hXlen]; exact hl
  have hXrx2 : X.rx.map Prod.snd = v ++ 13 :: 10 :: rest := by
    rw [hXrx, List.map_drop, hrx]; simp
  have hline := getLoop_line fuel size ts_max (fuel - ls.length - 1) p2 v rest reply X hXrx2
    (by
      intro k hk x hx
      rw [hXrx] at hx
      rw [hXck]
      exact hq2 k hk x hx)
    (by
      intro x hx
      rw [hXrx] at hx
      rw [hXck]
      exact harr2 x hx)
    hv
    (fun k hk => by rw [hXck]; exact hts _ (by omega))
    hlX (by omega)
  rw [if_neg hv0] at hline
  have hbuf : cstr (afterLine p2 v X).buffer = cstr (v.take 64) := cstr_afterLine p2 v X hlX
  obtain ⟨r, hr, hcr, hrl⟩ := copy_cstr reply (cstr (v.take 64)) (afterLine p2 v X).buffer size
    h1 h2 h3 hbuf
  rw [hr] at hline
  have e : fuel = ls.length + ((fuel - ls.length - 1) + 1) := by omega
  have hloop : getStrValueLoop fuel size ts_max fuel reply W =
      .ok (((min UNBBEE_BUFLEN v.length : Nat) : Int), r, afterLine p2 v X) := by
    conv => lhs; arg 4; rw [e]
    rw [hX, hline]
  refine ⟨r, afterLine p2 v X, hcr, hrl, ?_, ?_, ?_⟩
  · rw [afterLine_rx, List.map_drop, hXrx2]; simp
  · intro k
    have e2 : p + (wire ls).length + ls.length + (p2 + v.length + 3 + k) =
        p + (wire ls).length + ls.length + p2 + v.length + 3 + k := by omega
    rw [afterLine_clockAt, hXck, e2]
  · unfold getStrValue
    rw [hW, hloop]
    have hnn : ¬ (((min UNBBEE_BUFLEN v.length : Nat) : Int) < 0) := by omega
    dsimp only
    rw [if_neg hnn]

/-- C19 at the command "ATI7" answered, 65 ms after the start, by an empty line and then
"ERROR" CR LF "OK" CR LF, the clock advancing by 10 ms per reading, the deadline at 2000 and
a reply buffer of 8 bytes. -/
theorem getStrValue_first_line_witness :
    (∀ k, k < 1 → quietAt (clockAt (sendCommand strATI7 (exampleState 0 (List.replicate 30 10)
        (arriving 65 ([13, 10] ++ strERROR ++ [13, 10] ++ strOK ++ [13, 10])))) (k + 1))
      (sendCommand strATI7 (exampleState 0 (List.replicate 30 10)
        (arriving 65 ([13, 10] ++ strERROR ++ [13, 10] ++ strOK ++ [13, 10]))))) ∧
    captured (getStrValue 9 strATI7 (List.replicate 8 255) 8 2000
      (exampleState 0 (List.replicate 30 10)
        (arriving 65 ([13, 10] ++ strERROR ++ [13, 10] ++ strOK ++ [13, 10]))))
      = some (true, strERROR) ∧
    ∃ r X, cstr r = (cstr (strERROR.take 64)).take (8 - 1) ∧
      r.length = (List.replicate 8 (255 : Byte)).length ∧
      X.rx.map Prod.snd = strOK ++ [13, 10] ∧
      (∀ k, clockAt X k = clockAt (sendCommand strATI7 (exampleState 0 (List.replicate 30 10)
        (arriving 65 ([13, 10] ++ strERROR ++ [13, 10] ++ strOK ++ [13, 10]))))
          (1 + (wire [[]]).length + [([] : List Byte)].length + 0 + strERROR.length + 3 + k)) ∧
      getStrValue 9 strATI7 (List.replicate 8 255) 8 2000
        (exampleState 0 (List.replicate 30 10)
          (arriving 65 ([13, 10] ++ strERROR ++ [13, 10] ++ strOK ++ [13, 10]))) =
        match waitForOK 9 4000 X with
        | .error e => .error e
        | .ok (b, w2) => .ok (b, r, w2) :=
  ⟨by decide, by decide,
   (getStrValue_first_line 9 8 2000 1 0 strATI7 (List.replicate 8 255) strERROR [[]]
      (strOK ++ [13, 10])
      (exampleState 0 (List.replicate 30 10)
        (arriving 65 ([13, 10] ++ strERROR ++ [13, 10] ++ strOK ++ [13, 10])))
      (sendCommand strATI7 (exampleState 0 (List.replicate 30 10)
        (arriving 65 ([13, 10] ++ strERROR ++ [13, 10] ++ strOK ++ [13, 10]))))
      (by decide) rfl (by decide) (by decide) (by decide) (by decide) (by decide) (by decide)
      (by decide) (by decide) (by decide) (by decide) (by decide) (by decide) (by decide)
      (by decide)).1⟩

end UNBbee
